import Mathlib

/-!
Verification of the graph-algorithms core of the C_miscellaneous repository.

The development shallowly embeds the C sources:
  * `src/Algorithms/Sources/Graphs/graph.c`                     (graph store)
  * `src/Algorithms/Sources/Graphs/breadthFirstSearch.c`        (BFS)
  * `src/Algorithms/Sources/Graphs/singleSourceShortestPath.c`  (relax, heap, Dijkstra, Bellman-Ford)
  * `src/unnamed/part_001`                                      (DFS, cycle detection, topological sort)
  * the chained hash table of `src/unnamed/part_002` / `Headers/hashTables.h`

Modelling conventions:
  * Vertices are records of their `id` (a Nat) and `value`; the C code's pointer
    identity of `graph_vertex*` coincides with id equality for vertices stored in
    a graph whose ids are unique, which is how the embedding compares vertices.
  * The auxiliary hash table keyed by int vertex ids (the node-based API of
    `hashTables.h`, whose insert replaces the node carrying an equal key) is
    embedded as an association list with at most one binding per key.  Hash
    buckets and resizing are representation details with no observable effect
    on lookups, which are all the graph algorithms perform.
  * `INT_MAX` is the literal `2147483647`; distances are mathematical `Int`s
    compared against that sentinel exactly as the C source compares them.
  * C control flow that aborts the process (`exit(EXIT_FAILURE)`) is embedded
    as `Option` (with `none` for the abort), and C behaviour that is undefined
    (out-of-bounds array reads, NULL dereference) is embedded by total default
    reads (`List.getD`, no-op on a missing key); well-formedness hypotheses on
    the theorems restrict attention to graphs the C API can actually build,
    for which the embedding and the source agree step by step.
  * Unbounded C loops whose variant is data-dependent are embedded with an
    explicit fuel that is provably sufficient on the stated inputs.
-/

namespace CMisc

/-- C's `INT_MAX`, used by `singleSourceShortestPath.c` as the infinite distance. -/
def INF : Int := 2147483647

/-- A node of the auxiliary hash table (`nodeHashTable` with an int key):
`value` is the `value` field, `pred` the `graph_predecessor` field. -/
structure HNode where
  value : Int
  pred : Int
  deriving Repr, DecidableEq

/-- The auxiliary hash table keyed by vertex id.  Hash buckets and resizing
have no observable effect on lookups, so the table is embedded as an
association list with at most one binding per key. -/
def HMap : Type := List (Nat × HNode)

instance : DecidableEq HMap := by
  unfold HMap
  infer_instance

/-- `hashTableInsertNode`: inserting replaces the node holding an equal key,
if any; otherwise the node joins the table. -/
def hmInsert : HMap → Nat → HNode → HMap
  | [], k, n => [(k, n)]
  | (k1, n1) :: t, k, n =>
    if k1 = k then (k, n) :: t else (k1, n1) :: hmInsert t k n

/-- `hashTableSearchNode`: the node bound to `k`, if any. -/
def hmFind : HMap → Nat → Option HNode
  | [], _ => none
  | (k1, n1) :: t, k => if k1 = k then some n1 else hmFind t k

/-- A fresh (or emptied by `hashTableEmpty`) hash table: no key is bound. -/
def hmEmpty : HMap := []

/-- The int-keyed progress / position arrays of the C sources (`in_progress`,
`heap_pos`), embedded as association lists defaulting to `0`. -/
def NArr : Type := List (Nat × Nat)

instance : DecidableEq NArr := by
  unfold NArr
  infer_instance

/-- Write one cell of an int array. -/
def naSet : NArr → Nat → Nat → NArr
  | [], k, v => [(k, v)]
  | (k1, v1) :: t, k, v =>
    if k1 = k then (k, v) :: t else (k1, v1) :: naSet t k v

/-- Read one cell of an int array (unwritten cells hold `0`). -/
def naGet : NArr → Nat → Nat
  | [], _ => 0
  | (k1, v1) :: t, k => if k1 = k then v1 else naGet t k

/-- `graph_vertex` without its intrusive `next` pointer (the vertex list is a
Lean list) and without the Dijkstra `heap_pos` field (kept in `Heap.pos`). -/
structure Vertex where
  id : Nat
  value : Int
  deriving Repr, DecidableEq

/-- `adjacencyListNode_t`: one directed edge record, pointing at the vertex
with id `target`, carrying `weight`. -/
structure AdjNode where
  target : Nat
  weight : Int
  deriving Repr, DecidableEq

/-- `graph_t`: flags, the vertex list headed by `vertex_head`, and the
adjacency array `list` (of length `listSize`) of edge-record lists. -/
structure Graph where
  numVertex : Nat
  listSize : Nat
  multiGraph : Bool
  pseudoGraph : Bool
  weighted : Bool
  vertexHead : List Vertex
  list : List (List AdjNode)
  deriving Repr, DecidableEq

/-- Read adjacency slot `i` (out-of-bounds reads, undefined in C, default to `[]`). -/
def Graph.adj (g : Graph) (i : Nat) : List AdjNode := g.list.getD i []

/-- `_graph_init`: fresh graph struct with a zeroed adjacency array. -/
def graphInit (arrSize numV : Nat) (head : List Vertex)
    (multi pseudo w : Bool) : Graph :=
  { numVertex := numV, listSize := arrSize, multiGraph := multi,
    pseudoGraph := pseudo, weighted := w, vertexHead := head,
    list := List.replicate arrSize [] }

/-- `graphBuild`: `none` models the `exit(EXIT_FAILURE)` on a pseudograph
that is not a multigraph. -/
def graphBuild (multi pseudo : Bool) : Option Graph :=
  if !multi && pseudo then none
  else some (graphInit 8 0 [] multi pseudo false)

/-- The table-doubling loop of `graphAddVertex`: while `listSize <= id`,
reallocate at double size and copy the old slots.  The loop is embedded with
fuel `id + 1`, which suffices whenever `listSize > 0` (always true for graphs
built by the API; with `listSize = 0` the C loop does not terminate). -/
def graphGrowFuel : Nat → Graph → Nat → Graph
  | 0, g, _ => g
  | f + 1, g, i =>
    if g.listSize ≤ i then
      graphGrowFuel f
        { g with listSize := g.listSize * 2,
                 list := g.list ++ List.replicate g.listSize ([] : List AdjNode) } i
    else g

/-- `graphAddVertex`: returns `1` and the untouched graph on a duplicate id,
otherwise prepends the vertex, bumps the count and grows the table. -/
def graphAddVertex (g : Graph) (v : Vertex) : Nat × Graph :=
  if g.vertexHead.any (fun c => c.id == v.id) then (1, g)
  else
    let g1 : Graph :=
      { g with vertexHead := v :: g.vertexHead, numVertex := g.numVertex + 1 }
    (0, graphGrowFuel (v.id + 1) g1 v.id)

/-- `graphExistsVertex` (pointer equality realised as id equality). -/
def graphExistsVertex (g : Graph) (v : Vertex) : Bool :=
  g.vertexHead.any (fun c => c.id == v.id)

/-- `graphExistsEdge`: is there an edge record from `one` to `two`? -/
def graphExistsEdge (g : Graph) (one two : Vertex) : Bool :=
  (g.adj one.id).any (fun e => e.target == two.id)

/-- Overwrite adjacency slot `i` (out-of-bounds writes, undefined in C, are no-ops). -/
def Graph.setAdj (g : Graph) (i : Nat) (l : List AdjNode) : Graph :=
  { g with list := g.list.set i l }

/-- `graphAddEdgeD`; `none` models the two `exit(EXIT_FAILURE)` branches. -/
def graphAddEdgeD (g : Graph) (one two : Vertex) : Option Graph :=
  if !(graphExistsVertex g one) || !(graphExistsVertex g two) then none
  else if one.id == two.id && !g.pseudoGraph then none
  else if !g.multiGraph && graphExistsEdge g one two then some g
  else some (g.setAdj one.id (⟨two.id, 0⟩ :: g.adj one.id))

/-- `graphAddEdgeU`: mirrored pair of unweighted records. -/
def graphAddEdgeU (g : Graph) (one two : Vertex) : Option Graph :=
  if !(graphExistsVertex g one) || !(graphExistsVertex g two) then none
  else if one.id == two.id && !g.pseudoGraph then none
  else if !g.multiGraph && graphExistsEdge g one two then some g
  else
    let g1 := g.setAdj two.id (⟨one.id, 0⟩ :: g.adj two.id)
    some (g1.setAdj one.id (⟨two.id, 0⟩ :: g1.adj one.id))

/-- `graphAddEdgeWeightD`. -/
def graphAddEdgeWeightD (g : Graph) (one two : Vertex) (w : Int) : Option Graph :=
  if !(graphExistsVertex g one) || !(graphExistsVertex g two) then none
  else if one.id == two.id && !g.pseudoGraph then none
  else if !g.multiGraph && graphExistsEdge g one two then some g
  else some { g.setAdj one.id (⟨two.id, w⟩ :: g.adj one.id) with weighted := true }

/-- `graphAddEdgeWeightU`. -/
def graphAddEdgeWeightU (g : Graph) (one two : Vertex) (w : Int) : Option Graph :=
  if !(graphExistsVertex g one) || !(graphExistsVertex g two) then none
  else if one.id == two.id && !g.pseudoGraph then none
  else if !g.multiGraph && graphExistsEdge g one two then some g
  else
    let g1 := g.setAdj two.id (⟨one.id, w⟩ :: g.adj two.id)
    some { g1.setAdj one.id (⟨two.id, w⟩ :: g1.adj one.id) with weighted := true }

/-- Scan of the transpose's vertex list for the instance with a given id
(the retrieval loop inside `graphBuildTranspose`). -/
def vertexFind (vs : List Vertex) (i : Nat) : Option Vertex :=
  vs.find? (fun c => c.id == i)

/-- First phase of `graphBuildTranspose`: re-add every vertex of the input
(fresh `graphVertexNew(id, value)` instances), in vertex-list order. -/
def addVertices : List Vertex → Graph → Graph
  | [], t => t
  | v :: vs, t => addVertices vs (graphAddVertex t ⟨v.id, v.value⟩).2

/-- All (source slot, edge record) pairs in the scan order of the transpose
loop: slots `0, 1, ...` and each slot's list front to back. -/
def edgePairs (g : Graph) : List (Nat × AdjNode) :=
  ((List.range g.listSize).map (fun i => (g.adj i).map (fun e => (i, e)))).flatten

/-- Second phase of `graphBuildTranspose`: for each edge record `i -> e.target`
look up both vertex instances in the transpose and add the reversed edge with
`graphAddEdgeD` (hence with weight `0`).  A failed lookup leaves the C code
with a stale or NULL pointer (undefined), embedded as `none`. -/
def addTransposeEdges : List (Nat × AdjNode) → Graph → Option Graph
  | [], t => some t
  | (i, e) :: rest, t =>
    match vertexFind t.vertexHead i, vertexFind t.vertexHead e.target with
    | some src, some dst =>
      match graphAddEdgeD t dst src with
      | some t1 => addTransposeEdges rest t1
      | none => none
    | _, _ => none

/-- `graphBuildTranspose`. -/
def graphBuildTranspose (g : Graph) : Option Graph :=
  match graphBuild g.multiGraph g.pseudoGraph with
  | none => none
  | some t0 => addTransposeEdges (edgePairs g) (addVertices g.vertexHead t0)

/-- Total number of adjacency records in the graph. -/
def totalAdj (g : Graph) : Nat := g.list.foldl (fun a l => a + l.length) 0

/-- The ids of the graph's vertices, in vertex-list order. -/
def vertexIds (g : Graph) : List Nat := g.vertexHead.map (fun v => v.id)

/-- The `value` of the graph vertex with id `i` (the C code reads it through
the edge's vertex pointer; the embedding keys vertices by their unique id). -/
def vertexValue (g : Graph) (i : Nat) : Int :=
  match vertexFind g.vertexHead i with
  | some v => v.value
  | none => 0

/-- Well-formedness: exactly the states reachable through the C construction
API, where the embedding matches the source with no undefined behaviour:
the adjacency array length agrees with `listSize`, the vertex count agrees
with the vertex list, ids are unique and within capacity, populated slots and
edge targets are graph vertices, a self-loop forces the pseudograph flag, a
pseudograph is a multigraph, and a non-multigraph has no duplicated targets. -/
def WF (g : Graph) : Prop :=
  g.list.length = g.listSize ∧
  g.numVertex = g.vertexHead.length ∧
  (vertexIds g).Nodup ∧
  (∀ v ∈ g.vertexHead, v.id < g.listSize) ∧
  (∀ i < g.listSize, g.adj i ≠ [] → i ∈ vertexIds g) ∧
  (∀ i < g.listSize, ∀ e ∈ g.adj i, e.target ∈ vertexIds g) ∧
  ((∃ i < g.listSize, ∃ e ∈ g.adj i, e.target = i) → g.pseudoGraph = true) ∧
  (g.pseudoGraph = true → g.multiGraph = true) ∧
  (g.multiGraph = false → ∀ i < g.listSize, ((g.adj i).map (fun e => e.target)).Nodup)

instance (g : Graph) : Decidable (WF g) := by
  unfold WF
  infer_instance

/-!  Walks.  A walk from `u` is a list of edge records, each taken from the
adjacency slot of the vertex reached so far.  -/

/-- `isWalk g u es v`: the records `es` chain from `u` to `v` inside `g`. -/
def isWalk (g : Graph) : Nat → List AdjNode → Nat → Prop
  | u, [], v => v = u
  | u, e :: es, v => e ∈ g.adj u ∧ isWalk g e.target es v

instance (g : Graph) : ∀ (u : Nat) (es : List AdjNode) (v : Nat),
    Decidable (isWalk g u es v)
  | _, [], _ => by unfold isWalk; infer_instance
  | u, e :: es, v =>
    have : Decidable (isWalk g e.target es v) := instDecidableIsWalk g e.target es v
    by unfold isWalk; infer_instance

/-- Total weight of a walk. -/
def walkWeight (es : List AdjNode) : Int := es.foldr (fun e a => e.weight + a) 0

/-- The vertex sequence of a walk starting at `u`. -/
def walkVerts (u : Nat) (es : List AdjNode) : List Nat :=
  u :: es.map (fun e => e.target)

/-- `v` is reachable from `u` (by a directed walk along adjacency records). -/
def Reachable (g : Graph) (u v : Nat) : Prop := ∃ es, isWalk g u es v

/-- A negative-weight cycle is reachable from `s`. -/
def NegCycleReachable (g : Graph) (s : Nat) : Prop :=
  ∃ u es c, isWalk g s es u ∧ c ≠ [] ∧ isWalk g u c u ∧ walkWeight c < 0

/-- Every simple path out of `s` has weight strictly between `-INF` and `INF`
(no walk saturates the `INT_MAX` sentinel used by the C code). -/
def PathsInRange (g : Graph) (s : Nat) : Prop :=
  ∀ v es, isWalk g s es v → (walkVerts s es).Nodup →
    -INF < walkWeight es ∧ walkWeight es < INF

/-- Soundness of a Bellman-Ford map state (proof infrastructure): every
recorded distance is the sentinel or the weight of an actual walk from the
source. -/
def SSound (g : Graph) (s : Nat) (m : HMap) : Prop :=
  ∀ v n, hmFind m v = some n →
    n.value = INF ∨ ∃ es, isWalk g s es v ∧ walkWeight es = n.value

/-!  Breadth-first search (`Graphs/breadthFirstSearch.c`).  -/

/-- The depth recorded for `v` (the C dereferences the lookup, which is
never NULL on the vertices it is called for; a missing key defaults to `0`). -/
def bfsDepth (seen : HMap) (v : Nat) : Int :=
  match hmFind seen v with
  | some n => n.value
  | none => 0

/-- The edge scan of one dequeued vertex: unseen targets are appended to the
queue (FIFO: `queueEnqueue` adds at the tail) and recorded at `depth` with
the dequeued vertex as predecessor. -/
def bfsScan (depth pred : Int) :
    List AdjNode → List Nat → HMap → List Nat × HMap
  | [], q, seen => (q, seen)
  | e :: es, q, seen =>
    if (hmFind seen e.target).isSome then bfsScan depth pred es q seen
    else bfsScan depth pred es (q ++ [e.target]) (hmInsert seen e.target ⟨depth, pred⟩)

/-- The BFS work loop; the third result component logs the dequeue order.
The fuel bounds the number of dequeues and is provably never exhausted when
the loop starts with the fuel `bfsBound` below. -/
def bfsLoop (g : Graph) : Nat → List Nat → HMap → List Nat → HMap × List Nat
  | 0, _, seen, log => (seen, log)
  | _ + 1, [], seen, log => (seen, log)
  | f + 1, c :: q, seen, log =>
    let depth : Int := bfsDepth seen c + 1
    let sq := bfsScan depth (Int.ofNat c) (g.adj c) q seen
    bfsLoop g f sq.1 sq.2 (log ++ [c])

/-- Each dequeue beyond the source consumes a distinct, previously unseen
target id, so this fuel bounds the number of loop iterations. -/
def bfsBound (g : Graph) : Nat :=
  (g.list.flatten.map (fun e => e.target)).dedup.length + 2

/-- `breadthFirstSearch`: the returned hash table, seeded with the source at
depth `0`, predecessor `-1`. -/
def breadthFirstSearch (g : Graph) (v : Vertex) : HMap :=
  (bfsLoop g (bfsBound g) [v.id] (hmInsert hmEmpty v.id ⟨0, -1⟩) []).1

/-- The sequence of vertices dequeued (visited) by `breadthFirstSearch`,
read off the same loop. -/
def bfsVisitOrder (g : Graph) (v : Vertex) : List Nat :=
  (bfsLoop g (bfsBound g) [v.id] (hmInsert hmEmpty v.id ⟨0, -1⟩) []).2

/-!  Depth-first search clients (`src/unnamed/part_001`): cycle detection and
topological sort.  The recursive `_DFS_visit_*` helpers are embedded with an
explicit fuel; `dfsFuel` overapproximates the recursion depth. -/

/-- Fuel bound for the DFS visitors. -/
def dfsFuel (g : Graph) : Nat := g.vertexHead.length + 3 * totalAdj g + 2

/-- The `graph_predecessor` recorded for `u` (the C reads it through a
never-NULL `hashTableSearchNode`; on a missing key the embedding returns `-1`). -/
def parOf (par : HMap) (u : Nat) : Int :=
  match hmFind par u with
  | some n => n.pred
  | none => -1

/-- `_DFS_visit_cycle_detect`: state is (parents map, in-progress array,
cycle count).  An edge to an in-progress vertex that is not the recorded
predecessor of the current vertex counts one cycle. -/
def cdVisit (g : Graph) :
    Nat → Nat → List AdjNode → HMap × NArr × Nat → HMap × NArr × Nat
  | 0, _, _, st => st
  | _ + 1, _, [], st => st
  | f + 1, u, e :: es, (par, prog, cnt) =>
    let cnt1 := if naGet prog e.target = 1 ∧ parOf par u ≠ Int.ofNat e.target then cnt + 1 else cnt
    if (hmFind par e.target).isSome then cdVisit g f u es (par, prog, cnt1)
    else
      let par1 := hmInsert par e.target ⟨Int.ofNat u, Int.ofNat u⟩
      let st2 := cdVisit g f e.target (g.adj e.target) (par1, naSet prog e.target 1, cnt1)
      cdVisit g f u es (st2.1, naSet st2.2.1 e.target 0, st2.2.2)

/-- One iteration of the vertex loop of `graphExistsCycle`: skip visited
vertices, otherwise seed the root (parent `-1`, in-progress `1`), run the
detecting DFS and clear the root's in-progress mark. -/
def cdOuter (g : Graph) (st : HMap × NArr × Nat) (v : Vertex) : HMap × NArr × Nat :=
  if (hmFind st.1 v.id).isSome then st
  else
    let st2 := cdVisit g (dfsFuel g) v.id (g.adj v.id)
      (hmInsert st.1 v.id ⟨-1, -1⟩, naSet st.2.1 v.id 1, st.2.2)
    (st2.1, naSet st2.2.1 v.id 0, st2.2.2)

/-- `graphExistsCycle`: run the detecting DFS from every not-yet-visited
vertex of the vertex list and return the number of backward edges found. -/
def graphExistsCycle (g : Graph) : Nat :=
  (g.vertexHead.foldl (cdOuter g) (hmEmpty, [], 0)).2.2

/-- `_DFS_visit_topological_sort`: state is (parents map, in-progress array,
output list); a vertex is prepended to the output the moment its recursive
exploration returns. -/
def tsVisit (g : Graph) :
    Nat → Nat → List AdjNode → HMap × NArr × List Vertex →
      HMap × NArr × List Vertex
  | 0, _, _, st => st
  | _ + 1, _, [], st => st
  | f + 1, u, e :: es, (par, prog, out) =>
    if (hmFind par e.target).isSome then tsVisit g f u es (par, prog, out)
    else
      let par1 := hmInsert par e.target ⟨Int.ofNat u, Int.ofNat u⟩
      let st2 := tsVisit g f e.target (g.adj e.target) (par1, naSet prog e.target 1, out)
      tsVisit g f u es
        (st2.1, naSet st2.2.1 e.target 0,
         Vertex.mk e.target (vertexValue g e.target) :: st2.2.2)

/-- One iteration of the vertex loop of `topologicalSort`: skip visited
vertices, otherwise run the DFS visitor and prepend the finished root. -/
def tsOuter (g : Graph) (st : HMap × NArr × List Vertex) (v : Vertex) :
    HMap × NArr × List Vertex :=
  if (hmFind st.1 v.id).isSome then st
  else
    let st2 := tsVisit g (dfsFuel g) v.id (g.adj v.id)
      (hmInsert st.1 v.id ⟨-1, -1⟩, naSet st.2.1 v.id 1, st.2.2)
    (st2.1, naSet st2.2.1 v.id 0, Vertex.mk v.id v.value :: st2.2.2)

/-- `topologicalSort`: DFS from every unvisited vertex, prepending each
vertex (a fresh `graphVertexNew(id, value)` copy) as it finishes. -/
def topologicalSort (g : Graph) : List Vertex :=
  (g.vertexHead.foldl (tsOuter g) (hmEmpty, [], [])).2.2

/-!  Single-source shortest paths (`singleSourceShortestPath.c`).  -/

/-- `_single_source_initialize`: every vertex at `INT_MAX` with predecessor
`-1`, then the source overwritten to distance `0`. -/
def ssInit (g : Graph) (s : Vertex) : HMap :=
  hmInsert (g.vertexHead.foldl (fun m v => hmInsert m v.id ⟨INF, -1⟩) hmEmpty)
    s.id ⟨0, -1⟩

/-- `_relax_edge` on the edge `alt -> e.target`: update the target when the
source distance is not the sentinel and offers a strictly shorter path.  The
C code dereferences both lookups unconditionally (NULL on a missing key is
undefined); the embedding leaves the map unchanged in that case.  The C
evaluates `alt_path_dist + edge->weight` in 32-bit `int`; this definition
adds unbounded integers, so it agrees with the C exactly on the executions
in which every evaluated sum stays inside `int` range — `relax_edge_c`
below makes the range check explicit and is `none` on the overflowing
(undefined-behaviour) executions. -/
def relax_edge (alt : Nat) (e : AdjNode) (m : HMap) : Bool × HMap :=
  match hmFind m e.target, hmFind m alt with
  | some cur, some altN =>
    if altN.value ≠ INF ∧ cur.value > altN.value + e.weight then
      (true, hmInsert m e.target ⟨altN.value + e.weight, Int.ofNat alt⟩)
    else (false, m)
  | _, _ => (false, m)

/-- Relax all records of one adjacency slot, left to right. -/
def relaxList (u : Nat) (es : List AdjNode) (m : HMap) : HMap :=
  es.foldl (fun m e => (relax_edge u e m).2) m

/-- One full Bellman-Ford pass: relax every outgoing edge of every vertex in
vertex-list order. -/
def relaxPass (g : Graph) (m : HMap) : HMap :=
  g.vertexHead.foldl (fun m v => relaxList v.id (g.adj v.id) m) m

/-- Detection scan of one adjacency slot: stop at the first successful
relaxation. -/
def detectList (u : Nat) : List AdjNode → HMap → Bool × HMap
  | [], m => (false, m)
  | e :: es, m =>
    let rm := relax_edge u e m
    if rm.1 then (true, rm.2) else detectList u es rm.2

/-- Detection scan over the vertex list: stop at the first successful
relaxation. -/
def detectVerts (g : Graph) : List Vertex → HMap → Bool × HMap
  | [], m => (false, m)
  | v :: vs, m =>
    let rm := detectList v.id (g.adj v.id) m
    if rm.1 then (true, rm.2) else detectVerts g vs rm.2

/-- `singleSourceShortestPath_bellmanFord`: `numVertex - 1` full passes, then
one detection pass; a successful relaxation there empties the result
(`hashTableEmpty`, declared in the missing `Headers/Graphs/hashTables.h`, is
modelled from the spec: it discards all entries of the map). -/
def singleSourceShortestPath_bellmanFord (g : Graph) (s : Vertex) : HMap :=
  let m1 := (relaxPass g)^[g.numVertex - 1] (ssInit g s)
  let nm := detectVerts g g.vertexHead m1
  if nm.1 then hmEmpty else nm.2

/-!  The binary min-heap used by Dijkstra.  The C keeps each vertex's heap
position in the vertex struct (`heap_pos`); the embedding keeps the array of
vertex ids in `arr` and the position field in `pos`, keyed by id.  -/

/-- The heap array plus the `heap_pos` fields of all vertices. -/
structure Heap where
  arr : List Nat
  pos : NArr

/-- `_parent_pos`; C's `(0 - 1) / 2` is `0` in int division, as here. -/
def parent_pos (i : Nat) : Nat := (i - 1) / 2

/-- `_left_pos`. -/
def left_pos (i : Nat) : Nat := 2 * i + 1

/-- `_right_pos`. -/
def right_pos (i : Nat) : Nat := 2 * i + 2

/-- The distance key of vertex `i`, resident in the map (C dereferences the
lookup unconditionally; a missing key defaults to `0` here). -/
def hkey (m : HMap) (i : Nat) : Int :=
  match hmFind m i with
  | some n => n.value
  | none => 0

/-- The id stored at heap slot `i`. -/
def Heap.idAt (h : Heap) (i : Nat) : Nat := h.arr.getD i 0

/-- Swap slots `i` and `j` and exchange the two vertices' `heap_pos` fields. -/
def heapSwap (h : Heap) (i j : Nat) : Heap :=
  let a := h.idAt i
  let b := h.idAt j
  { arr := (h.arr.set i b).set j a,
    pos := naSet (naSet h.pos a (naGet h.pos b)) b (naGet h.pos a) }

/-- The index of the smallest key among slot `i` and its in-range children
(computed exactly as `_heapify` does, left child first). -/
def smallestIdx (m : HMap) (size : Nat) (h : Heap) (i : Nat) : Nat :=
  let s1 := if left_pos i < size ∧ hkey m (h.idAt (left_pos i)) < hkey m (h.idAt i)
    then left_pos i else i
  if right_pos i < size ∧ hkey m (h.idAt (right_pos i)) < hkey m (h.idAt s1)
    then right_pos i else s1

/-- `_heapify` (sift-down), fuelled; the slot index strictly increases at
every step, so any fuel above `size` is enough. -/
def heapifyF (m : HMap) (size : Nat) : Nat → Heap → Nat → Heap
  | 0, h, _ => h
  | f + 1, h, i =>
    let s := smallestIdx m size h i
    if s ≠ i then heapifyF m size f (heapSwap h i s) s else h

/-- `_heapify` with its always-sufficient fuel. -/
def heapify (m : HMap) (size : Nat) (h : Heap) (i : Nat) : Heap :=
  heapifyF m size (size + 1) h i

/-- The placement phase of `_heap_build`: vertex-list order into the array,
recording each position in the vertex's `heap_pos`. -/
def buildPos : List Vertex → Nat → NArr → NArr
  | [], _, p => p
  | v :: vs, i, p => buildPos vs (i + 1) (naSet p v.id i)

/-- The freshly filled heap of `_heap_build` before any `_heapify` call. -/
def heapFill (vs : List Vertex) : Heap :=
  { arr := vs.map (fun v => v.id), pos := buildPos vs 0 [] }

/-- The bottom-up loop of `_heap_build`: `_heapify` at `j, j-1, ..., 0`. -/
def heapBuildLoop (m : HMap) (size : Nat) : Nat → Heap → Heap
  | 0, h => heapify m size h 0
  | j + 1, h => heapBuildLoop m size j (heapify m size h (j + 1))

/-- `_heap_build`. -/
def heap_build (g : Graph) (m : HMap) : Heap :=
  heapBuildLoop m g.numVertex (g.numVertex / 2) (heapFill g.vertexHead)

/-- `_heap_extract_min`: move the last live slot onto the root (updating its
`heap_pos`), sift down at the shrunk size, return the old root id. -/
def heap_extract_min (m : HMap) (size : Nat) (h : Heap) : Nat × Heap :=
  let minId := h.idAt 0
  let last := h.idAt (size - 1)
  let h1 : Heap := { arr := h.arr.set 0 last, pos := naSet h.pos last 0 }
  (minId, heapify m (size - 1) h1 0)

/-- The climb of `_heap_decrease_key`, fuelled; the position strictly
decreases while positive and the loop guard fails at the root (the root is
its own parent), so fuel `p + 1` is always enough. -/
def heapDecKeyF (m : HMap) (size : Nat) : Nat → Heap → Nat → Heap
  | 0, h, _ => h
  | f + 1, h, p =>
    if hkey m (h.idAt (parent_pos p)) > hkey m (h.idAt p) then
      heapDecKeyF m size f (heapify m size h (parent_pos p)) (parent_pos p)
    else h

/-- `_heap_decrease_key`. -/
def heap_decrease_key (m : HMap) (size : Nat) (h : Heap) (p : Nat) : Heap :=
  heapDecKeyF m size (p + 1) h p

/-- Dijkstra's edge scan of the extracted vertex: relax, and on success call
`_heap_decrease_key` at the target's current `heap_pos` with the already
decremented heap size. -/
def dijkRelax (u : Nat) : List AdjNode → Nat → Heap → HMap → HMap × Heap
  | [], _, h, m => (m, h)
  | e :: es, size, h, m =>
    let rm := relax_edge u e m
    let h1 := if rm.1 then heap_decrease_key rm.2 size h (naGet h.pos e.target) else h
    dijkRelax u es size h1 rm.2

/-- The main Dijkstra loop, indexed by the current heap size. -/
def dijkstraLoop (g : Graph) : Nat → Heap → HMap → HMap
  | 0, _, m => m
  | hs + 1, h, m =>
    let uh := heap_extract_min m (hs + 1) h
    let mh := dijkRelax uh.1 (g.adj uh.1) hs uh.2 m
    dijkstraLoop g hs mh.2 mh.1

/-- `singleSourceShortestPath_dijkstra`. -/
def singleSourceShortestPath_dijkstra (g : Graph) (s : Vertex) : HMap :=
  let m0 := ssInit g s
  dijkstraLoop g g.numVertex (heap_build g m0) m0

/-- The min-heap shape property of the C heap: for every live non-root slot
the map-resident key of the parent slot is at most the key of the slot. -/
def Good (m : HMap) (size : Nat) (h : Heap) : Prop :=
  ∀ j < size, 0 < j → hkey m (h.idAt (parent_pos j)) ≤ hkey m (h.idAt j)

instance (m : HMap) (size : Nat) (h : Heap) : Decidable (Good m size h) := by
  unfold Good
  infer_instance

/-- The `heap_pos` field of every live vertex equals its actual slot. -/
def PosOK (size : Nat) (h : Heap) : Prop :=
  ∀ j < size, naGet h.pos (h.idAt j) = j

instance (size : Nat) (h : Heap) : Decidable (PosOK size h) := by
  unfold PosOK
  infer_instance

/-- The shape property with one suspect slot exempted (the state right after
one vertex's key was decreased: only the edge into `p` may be violated). -/
def GoodExceptUp (m : HMap) (size : Nat) (h : Heap) (p : Nat) : Prop :=
  ∀ j < size, 0 < j → j ≠ p →
    hkey m (h.idAt (parent_pos j)) ≤ hkey m (h.idAt j)

instance (m : HMap) (size : Nat) (h : Heap) (p : Nat) :
    Decidable (GoodExceptUp m size h p) := by
  unfold GoodExceptUp
  infer_instance

/-- `j` lies in the slot subtree rooted at `i` (fuelled parent iteration;
the parent index strictly decreases, so fuel `j + 1` always suffices). -/
def isDescF (i : Nat) : Nat → Nat → Bool
  | 0, _ => false
  | f + 1, j =>
    if j = i then true else if j = 0 then false else isDescF i f (parent_pos j)

/-- `j` is `i` or a descendant slot of `i` in the implicit binary tree. -/
def isDesc (i j : Nat) : Bool := isDescF i (j + 1) j

/-- The ids held in the live slots of the heap. -/
def heapIdsL (size : Nat) (h : Heap) : List Nat :=
  (List.range size).map (fun j => h.idAt j)

/-- An arbitrary finite sequence of `_relax_edge` calls (each item gives the
`alt_path` source id and the edge), applied left to right. -/
def relaxCalls (calls : List (Nat × AdjNode)) (m : HMap) : HMap :=
  calls.foldl (fun m c => (relax_edge c.1 c.2 m).2) m

/-- Example graph: two vertices `0, 1` and the single weighted edge
`0 -> 1` of weight `5` (used as a concrete instance in witnesses). -/
def exGraphW : Graph :=
  ((graphBuild false false).bind fun g0 =>
    (graphAddEdgeWeightD (graphAddVertex (graphAddVertex g0 ⟨0, 10⟩).2 ⟨1, 11⟩).2
      ⟨0, 10⟩ ⟨1, 11⟩ 5)).getD (graphInit 0 0 [] false false false)

/-- Example graph: the directed triangle `1 -> 2 -> 3 -> 1`, unweighted. -/
def exTriangle : Graph :=
  (((graphBuild false false).bind fun g0 =>
    let g1 := (graphAddVertex (graphAddVertex (graphAddVertex g0 ⟨1, 0⟩).2 ⟨2, 0⟩).2 ⟨3, 0⟩).2
    (graphAddEdgeD g1 ⟨1, 0⟩ ⟨2, 0⟩).bind fun g2 =>
    (graphAddEdgeD g2 ⟨2, 0⟩ ⟨3, 0⟩).bind fun g3 =>
    graphAddEdgeD g3 ⟨3, 0⟩ ⟨1, 0⟩)).getD (graphInit 0 0 [] false false false)

/-- C's `INT_MIN`. -/
def INT_MIN : Int := -2147483648

/-- `_relax_edge` under faithful 32-bit `int` arithmetic: whenever the left
conjunct of the guard passes, the C evaluates `alt_path_dist + edge->weight`
in `int`; if that sum leaves `[INT_MIN, INT_MAX]` the addition is signed
overflow — undefined behaviour — modelled as `none`.  On every defined
execution the result agrees with `relax_edge` (see `relax_edge_c_some`).
A missing key is treated as in `relax_edge`. -/
def relax_edge_c (alt : Nat) (e : AdjNode) (m : HMap) : Option (Bool × HMap) :=
  match hmFind m e.target, hmFind m alt with
  | some cur, some altN =>
    if altN.value = INF then some (false, m)
    else if altN.value + e.weight < INT_MIN ∨ INF < altN.value + e.weight then none
    else if cur.value > altN.value + e.weight then
      some (true, hmInsert m e.target ⟨altN.value + e.weight, Int.ofNat alt⟩)
    else some (false, m)
  | _, _ => some (false, m)

/-- `relaxList` with the faithful `int` arithmetic of `relax_edge_c`. -/
def relaxList_c (u : Nat) : List AdjNode → HMap → Option HMap
  | [], m => some m
  | e :: es, m => (relax_edge_c u e m).bind fun rm => relaxList_c u es rm.2

/-- One full Bellman-Ford pass over a vertex list, faithful arithmetic. -/
def relaxVerts_c (g : Graph) : List Vertex → HMap → Option HMap
  | [], m => some m
  | v :: vs, m =>
    (relaxList_c v.id (g.adj v.id) m).bind fun m1 => relaxVerts_c g vs m1

/-- `k` full Bellman-Ford passes, faithful arithmetic. -/
def relaxPasses_c (g : Graph) : Nat → HMap → Option HMap
  | 0, m => some m
  | k + 1, m => (relaxVerts_c g g.vertexHead m).bind fun m1 => relaxPasses_c g k m1

/-- `detectList` with the faithful `int` arithmetic of `relax_edge_c`. -/
def detectList_c (u : Nat) : List AdjNode → HMap → Option (Bool × HMap)
  | [], m => some (false, m)
  | e :: es, m =>
    (relax_edge_c u e m).bind fun rm =>
      if rm.1 then some (true, rm.2) else detectList_c u es rm.2

/-- `detectVerts` with the faithful `int` arithmetic of `relax_edge_c`. -/
def detectVerts_c (g : Graph) : List Vertex → HMap → Option (Bool × HMap)
  | [], m => some (false, m)
  | v :: vs, m =>
    (detectList_c v.id (g.adj v.id) m).bind fun rm =>
      if rm.1 then some (true, rm.2) else detectVerts_c g vs rm.2

/-- `singleSourceShortestPath_bellmanFord` under faithful `int` arithmetic:
`none` exactly when some evaluated relaxation sum overflows (undefined
behaviour), otherwise the result of the defined C execution. -/
def singleSourceShortestPath_bellmanFord_c (g : Graph) (s : Vertex) : Option HMap :=
  (relaxPasses_c g (g.numVertex - 1) (ssInit g s)).bind fun m1 =>
  (detectVerts_c g g.vertexHead m1).map fun nm =>
  if nm.1 then hmEmpty else nm.2

/-- `dijkRelax` with the faithful `int` arithmetic of `relax_edge_c`. -/
def dijkRelax_c (u : Nat) : List AdjNode → Nat → Heap → HMap → Option (HMap × Heap)
  | [], _, h, m => some (m, h)
  | e :: es, size, h, m =>
    (relax_edge_c u e m).bind fun rm =>
      dijkRelax_c u es size
        (if rm.1 then heap_decrease_key rm.2 size h (naGet h.pos e.target) else h)
        rm.2

/-- The Dijkstra main loop under faithful `int` arithmetic. -/
def dijkstraLoop_c (g : Graph) : Nat → Heap → HMap → Option HMap
  | 0, _, m => some m
  | hs + 1, h, m =>
    (dijkRelax_c (heap_extract_min m (hs + 1) h).1
      (g.adj (heap_extract_min m (hs + 1) h).1) hs
      (heap_extract_min m (hs + 1) h).2 m).bind fun mh =>
    dijkstraLoop_c g hs mh.2 mh.1

/-- `singleSourceShortestPath_dijkstra` under faithful `int` arithmetic:
`none` exactly when some evaluated relaxation sum overflows (undefined
behaviour). -/
def singleSourceShortestPath_dijkstra_c (g : Graph) (s : Vertex) : Option HMap :=
  dijkstraLoop_c g g.numVertex (heap_build g (ssInit g s)) (ssInit g s)

/-- Example graph for the Bellman-Ford sentinel-saturation counterexample:
vertices `0, 1`, the edge `0 -> 1` of weight exactly `INT_MAX` (a
representable C `int`) and the negative self-loop `1 -> 1` of weight `-1`
(a pseudograph).  Every addition this input makes the C evaluate stays
inside `int` range: relaxing `0 -> 1` computes `0 + INT_MAX = INT_MAX`, and
every relaxation out of vertex `1` is short-circuited by the sentinel guard
before any addition, so the whole execution is free of undefined
behaviour. -/
def exStuckGraph : Graph :=
  (((graphBuild true true).bind fun g0 =>
    let g1 := (graphAddVertex (graphAddVertex g0 ⟨0, 0⟩).2 ⟨1, 0⟩).2
    (graphAddEdgeWeightD g1 ⟨0, 0⟩ ⟨1, 0⟩ INF).bind fun g2 =>
    graphAddEdgeWeightD g2 ⟨1, 0⟩ ⟨1, 0⟩ (-1))).getD
    (graphInit 0 0 [] false false false)

/-- The targets a BFS can ever enqueue beyond its source, deduplicated. -/
def bfsCands (g : Graph) : List Nat :=
  (g.list.flatten.map (fun e => e.target)).dedup

/-- Number of BFS candidate targets not yet recorded in `seen`. -/
def bfsUnseen (g : Graph) (seen : HMap) : Nat :=
  ((bfsCands g).filter (fun t => !(hmFind seen t).isSome)).length

/-- The loop invariant of `breadthFirstSearch` (proof infrastructure): the
queue is seen; recorded depths are walk lengths; queue depths are
nondecreasing and within one of each other; every recorded depth is at most
one above any queued depth; a seen vertex off the queue has all its
out-neighbours seen within depth one more; the dequeue log and queue are
disjoint and duplicate-free and jointly enumerate the seen set; the source
is recorded at depth zero. -/
def BfsInv (g : Graph) (s : Nat) (q : List Nat) (seen : HMap) (log : List Nat) : Prop :=
  (∀ v ∈ q, (hmFind seen v).isSome = true) ∧
  (∀ v n, hmFind seen v = some n →
    ∃ es, isWalk g s es v ∧ (n.value : Int) = es.length) ∧
  (q.map (bfsDepth seen)).Pairwise (fun x y => x ≤ y ∧ y ≤ x + 1) ∧
  (∀ v n, hmFind seen v = some n → ∀ u ∈ q, n.value ≤ bfsDepth seen u + 1) ∧
  (∀ v n, hmFind seen v = some n → v ∈ q ∨
    ∀ e ∈ g.adj v, ∃ n2, hmFind seen e.target = some n2 ∧ n2.value ≤ n.value + 1) ∧
  (log ++ q).Nodup ∧
  (∀ v, (hmFind seen v).isSome = true ↔ v ∈ log ∨ v ∈ q) ∧
  (∃ n0, hmFind seen s = some n0 ∧ n0.value = 0)

/-- The number of edge records from `a` to `b` (the multiplicity of the
directed edge `a -> b` in the adjacency store). -/
def cnt (g : Graph) (a b : Nat) : Nat :=
  ((g.adj a).filter (fun e => e.target = b)).length

/-- The transpose of `exGraphW` (as computed by `graphBuildTranspose`). -/
def exGraphWTr : Graph :=
  (graphBuildTranspose exGraphW).getD (graphInit 0 0 [] false false false)

/-- The number of scan pairs for the source slot `a` and target `b`. -/
def cntP (ps : List (Nat × AdjNode)) (a b : Nat) : Nat :=
  (ps.filter (fun p => p.1 = a ∧ p.2.target = b)).length

/-- The graph has no directed cycle (no nonempty walk from a vertex back to
itself). -/
def Acyclic (g : Graph) : Prop :=
  ∀ u c, c ≠ [] → isWalk g u c u → False

/-- Every id the DFS visitors can ever discover: the vertex ids together
with all edge-record targets. -/
def allIds (g : Graph) : List Nat :=
  (vertexIds g ++ g.list.flatten.map (fun e => e.target)).dedup

/-- Remaining DFS work while `par` marks the discovered set: one unit per
undiscovered id plus its adjacency length (proof infrastructure for the
fuel bound of the DFS visitors). -/
def parSlack (g : Graph) (par : HMap) : Nat :=
  (((allIds g).filter (fun v => !(hmFind par v).isSome)).map
    (fun v => 1 + (g.adj v).length)).sum

/-- The bookkeeping invariant of the `topologicalSort` DFS (proof
infrastructure): `par` marks exactly the in-progress or finished vertices;
finished vertices are off the stack; the in-progress flags are `0`/`1`
valued; the output has no duplicate ids, each of its elements lists all its
out-neighbours strictly later (reverse finish order), carries the graph's
stored value for its id; and only graph vertices get discovered. -/
def TsInv (g : Graph) (par : HMap) (prog : NArr) (out : List Vertex) : Prop :=
  (∀ v, (hmFind par v).isSome = true ↔
    (naGet prog v = 1 ∨ v ∈ out.map Vertex.id)) ∧
  (∀ v ∈ out.map Vertex.id, ¬ naGet prog v = 1) ∧
  (∀ v, naGet prog v = 0 ∨ naGet prog v = 1) ∧
  (out.map Vertex.id).Nodup ∧
  (∀ l1 x l2, out = l1 ++ x :: l2 →
    ∀ e ∈ g.adj x.id, e.target ∈ l2.map Vertex.id) ∧
  (∀ x ∈ out, x.value = vertexValue g x.id) ∧
  (∀ v, (hmFind par v).isSome = true → v ∈ vertexIds g)

/-- Example graph: two vertices `4, 7` with the directed edges `4 -> 7` and
`7 -> 4` (a directed two-cycle). -/
def exTwoCycle : Graph :=
  (((graphBuild false false).bind fun g0 =>
    let g1 := (graphAddVertex (graphAddVertex g0 ⟨4, 0⟩).2 ⟨7, 0⟩).2
    (graphAddEdgeD g1 ⟨4, 0⟩ ⟨7, 0⟩).bind fun g2 =>
    graphAddEdgeD g2 ⟨7, 0⟩ ⟨4, 0⟩)).getD (graphInit 0 0 [] false false false)

end CMisc

namespace CMisc

/-! ### Basic lemmas about the association-list maps -/

theorem hmFind_insert (m : HMap) (k : Nat) (n : HNode) (j : Nat) :
    hmFind (hmInsert m k n) j = if j = k then some n else hmFind m j := by
  induction m with
  | nil =>
    rcases eq_or_ne j k with h | h
    · subst h; simp [hmInsert, hmFind]
    · simp [hmInsert, hmFind, h, Ne.symm h]
  | cons p t ih =>
    obtain ⟨k1, n1⟩ := p
    rcases eq_or_ne k1 k with h1 | h1
    · subst h1
      rcases eq_or_ne j k1 with h | h
      · subst h; simp [hmInsert, hmFind]
      · simp [hmInsert, hmFind, h, Ne.symm h]
    · rcases eq_or_ne j k1 with h | h
      · subst h
        simp [hmInsert, hmFind, h1, Ne.symm h1]
      · simp [hmInsert, hmFind, h1, h, Ne.symm h, ih]

theorem naGet_set (p : NArr) (k v j : Nat) :
    naGet (naSet p k v) j = if j = k then v else naGet p j := by
  induction p with
  | nil =>
    rcases eq_or_ne j k with h | h
    · subst h; simp [naSet, naGet]
    · simp [naSet, naGet, h, Ne.symm h]
  | cons q t ih =>
    obtain ⟨k1, v1⟩ := q
    rcases eq_or_ne k1 k with h1 | h1
    · subst h1
      rcases eq_or_ne j k1 with h | h
      · subst h; simp [naSet, naGet]
      · simp [naSet, naGet, h, Ne.symm h]
    · rcases eq_or_ne j k1 with h | h
      · subst h
        simp [naSet, naGet, h1, Ne.symm h1]
      · simp [naSet, naGet, h1, h, Ne.symm h, ih]

/-! ### C7: monotonicity of relaxation -/

/-- A successful relaxation only lowers the target's distance; everything
else is untouched. -/
theorem relax_edge_le (alt : Nat) (e : AdjNode) (m : HMap) (k : Nat) (n' : HNode)
    (h : hmFind (relax_edge alt e m).2 k = some n') :
    ∃ n, hmFind m k = some n ∧ n'.value ≤ n.value := by
  unfold relax_edge at h
  cases ht : hmFind m e.target with
  | none => simp [ht] at h; exact ⟨n', h, le_refl _⟩
  | some cur =>
    cases ha : hmFind m alt with
    | none => simp [ht, ha] at h; exact ⟨n', h, le_refl _⟩
    | some altN =>
      simp only [ht, ha] at h
      by_cases hc : altN.value ≠ INF ∧ cur.value > altN.value + e.weight
      · simp only [if_pos hc] at h
        rw [hmFind_insert] at h
        by_cases hk : k = e.target
        · subst hk
          rw [if_pos rfl] at h
          cases h
          exact ⟨cur, ht, le_of_lt hc.2⟩
        · rw [if_neg hk] at h
          exact ⟨n', h, le_refl _⟩
      · simp only [if_neg hc] at h
        exact ⟨n', h, le_refl _⟩

/-- C7.  A single `_relax_edge` call never increases any recorded distance
(the map's bindings may only shrink in value, with the key set unchanged),
and consequently neither does any finite sequence of such calls. -/
theorem relax_monotone (m : HMap) :
    (∀ (alt : Nat) (e : AdjNode) (k : Nat) (n' : HNode),
      hmFind (relax_edge alt e m).2 k = some n' →
      ∃ n, hmFind m k = some n ∧ n'.value ≤ n.value) ∧
    (∀ (calls : List (Nat × AdjNode)) (k : Nat) (n' : HNode),
      hmFind (relaxCalls calls m) k = some n' →
      ∃ n, hmFind m k = some n ∧ n'.value ≤ n.value) := by
  constructor
  · exact fun alt e k n' h => relax_edge_le alt e m k n' h
  · intro calls
    induction calls generalizing m with
    | nil => exact fun k n' h => ⟨n', h, le_refl _⟩
    | cons c rest ih =>
      intro k n' h
      unfold relaxCalls at h
      rw [List.foldl_cons] at h
      obtain ⟨n1, hn1, hle1⟩ := ih (relax_edge c.1 c.2 m).2 k n' h
      obtain ⟨n0, hn0, hle0⟩ := relax_edge_le c.1 c.2 m k n1 hn1
      exact ⟨n0, hn0, le_trans hle1 hle0⟩

/-- Witness for C7 at a concrete state: relaxing the edge `0 -> 1` of weight
`5` from a state where `0` is at distance `0` and `1` at `INT_MAX`. -/
theorem relax_monotone_witness :
    ∃ n, hmFind [(0, ⟨0, -1⟩), (1, ⟨INF, -1⟩)] 1 = some n ∧
      (HNode.mk 5 0).value ≤ n.value := by
  have h := (relax_monotone [(0, ⟨0, -1⟩), (1, ⟨INF, -1⟩)]).1 0 ⟨1, 5⟩ 1 ⟨5, 0⟩
  exact h (by decide)

/-! ### C9: `graphAddVertex` on duplicate and fresh ids -/

theorem graphGrowFuel_fields (f : Nat) (g : Graph) (i : Nat) :
    (graphGrowFuel f g i).vertexHead = g.vertexHead ∧
    (graphGrowFuel f g i).numVertex = g.numVertex ∧
    (graphGrowFuel f g i).multiGraph = g.multiGraph ∧
    (graphGrowFuel f g i).pseudoGraph = g.pseudoGraph ∧
    (graphGrowFuel f g i).weighted = g.weighted := by
  induction f generalizing g with
  | zero => simp [graphGrowFuel]
  | succ f ih =>
    by_cases h : g.listSize ≤ i <;> simp [graphGrowFuel, h, ih]

/-- C9.  A vertex whose id duplicates one already in the graph is rejected
with result code `1` and a completely untouched graph; a vertex with a fresh
id is accepted with result code `0` (and lands at the head of the vertex
list). -/
theorem graphAddVertex_spec (g : Graph) (v : Vertex) :
    ((∃ c ∈ g.vertexHead, c.id = v.id) → graphAddVertex g v = (1, g)) ∧
    ((∀ c ∈ g.vertexHead, c.id ≠ v.id) →
      (graphAddVertex g v).1 = 0 ∧
      (graphAddVertex g v).2.vertexHead = v :: g.vertexHead) := by
  constructor
  · rintro ⟨c, hc, hid⟩
    unfold graphAddVertex
    rw [if_pos]
    simp only [List.any_eq_true, beq_iff_eq]
    exact ⟨c, hc, hid⟩
  · intro h
    unfold graphAddVertex
    rw [if_neg]
    · refine ⟨rfl, ?_⟩
      simpa using (graphGrowFuel_fields (v.id + 1) _ v.id).1
    · simp only [List.any_eq_true, beq_iff_eq, not_exists, not_and]
      exact fun c hmem => h c hmem

/-- Witness for C9: on the two-vertex example graph, re-adding id `0` fails
with code `1` and the untouched graph; adding fresh id `2` succeeds. -/
theorem graphAddVertex_spec_witness :
    graphAddVertex exGraphW ⟨0, 99⟩ = (1, exGraphW) ∧
    (graphAddVertex exGraphW ⟨2, 99⟩).1 = 0 := by
  constructor
  · exact (graphAddVertex_spec exGraphW ⟨0, 99⟩).1 (by decide)
  · exact ((graphAddVertex_spec exGraphW ⟨2, 99⟩).2 (by decide)).1

/-! ### C8: adding a duplicate simple edge to a non-multigraph is a no-op -/

theorem setAdj_adj_self (g : Graph) (i : Nat) (l : List AdjNode)
    (hi : i < g.list.length) : (g.setAdj i l).adj i = l := by
  simp [Graph.setAdj, Graph.adj, List.getD, List.getElem?_set, hi]

theorem setAdj_adj_other (g : Graph) (i j : Nat) (l : List AdjNode)
    (hj : j ≠ i) : (g.setAdj i l).adj j = g.adj j := by
  simp [Graph.setAdj, Graph.adj, List.getD, List.getElem?_set, Ne.symm hj]

theorem WF_len {g : Graph} (h : WF g) : g.list.length = g.listSize := by
  unfold WF at h; exact h.1

theorem WF_num {g : Graph} (h : WF g) : g.numVertex = g.vertexHead.length := by
  unfold WF at h; exact h.2.1

theorem WF_nodup {g : Graph} (h : WF g) : (vertexIds g).Nodup := by
  unfold WF at h; exact h.2.2.1

theorem WF_idLt {g : Graph} (h : WF g) : ∀ v ∈ g.vertexHead, v.id < g.listSize := by
  unfold WF at h; exact h.2.2.2.1

theorem WF_slots {g : Graph} (h : WF g) :
    ∀ i < g.listSize, g.adj i ≠ [] → i ∈ vertexIds g := by
  unfold WF at h; exact h.2.2.2.2.1

theorem WF_targets {g : Graph} (h : WF g) :
    ∀ i < g.listSize, ∀ e ∈ g.adj i, e.target ∈ vertexIds g := by
  unfold WF at h; exact h.2.2.2.2.2.1

theorem WF_selfloop {g : Graph} (h : WF g) :
    (∃ i < g.listSize, ∃ e ∈ g.adj i, e.target = i) → g.pseudoGraph = true := by
  unfold WF at h; exact h.2.2.2.2.2.2.1

theorem WF_pm {g : Graph} (h : WF g) : g.pseudoGraph = true → g.multiGraph = true := by
  unfold WF at h; exact h.2.2.2.2.2.2.2.1

theorem WF_adjNodup {g : Graph} (h : WF g) :
    g.multiGraph = false → ∀ i < g.listSize, ((g.adj i).map (fun e => e.target)).Nodup := by
  unfold WF at h; exact h.2.2.2.2.2.2.2.2

theorem existsVertex_id_lt (g : Graph) (u : Vertex) (hwf : WF g)
    (h : graphExistsVertex g u = true) : u.id < g.list.length := by
  simp only [graphExistsVertex, List.any_eq_true, beq_iff_eq] at h
  obtain ⟨c, hc, hid⟩ := h
  have h4 := WF_idLt hwf c hc
  have h1 := WF_len hwf
  omega

theorem setAdj_vertexHead (g : Graph) (i : Nat) (l : List AdjNode) :
    (g.setAdj i l).vertexHead = g.vertexHead := rfl

theorem setAdj_listLen (g : Graph) (i : Nat) (l : List AdjNode) :
    (g.setAdj i l).list.length = g.list.length := by
  simp [Graph.setAdj]

/-- C8.  On a non-multigraph that already contains a given simple edge
(here: where a first add of that edge just succeeded, producing `g'`),
adding the same edge again — through any of the four add-edge variants —
returns `g'` itself: adjacency lists, edge set and all degrees unchanged. -/
theorem graphAddEdge_idem (g : Graph) (u v : Vertex) (hwf : WF g)
    (hm : g.multiGraph = false) :
    (∀ g', graphAddEdgeD g u v = some g' → graphAddEdgeD g' u v = some g') ∧
    (∀ g', graphAddEdgeU g u v = some g' → graphAddEdgeU g' u v = some g') ∧
    (∀ w g', graphAddEdgeWeightD g u v w = some g' →
      graphAddEdgeWeightD g' u v w = some g') ∧
    (∀ w g', graphAddEdgeWeightU g u v w = some g' →
      graphAddEdgeWeightU g' u v w = some g') := by
  have core : ∀ (g' : Graph),
      g'.vertexHead = g.vertexHead → g'.multiGraph = false →
      g'.pseudoGraph = g.pseudoGraph →
      graphExistsVertex g u = true → graphExistsVertex g v = true →
      ¬(u.id == v.id && !g.pseudoGraph) = true →
      graphExistsEdge g' u v = true →
      ∀ (k : Option Graph),
        (if !(graphExistsVertex g' u) || !(graphExistsVertex g' v) then none
          else if u.id == v.id && !g'.pseudoGraph then none
          else if !g'.multiGraph && graphExistsEdge g' u v then some g'
          else k) = some g' := by
    intro g' hhead hmulti hpseudo hu hv hc2 hedge k
    have hu' : graphExistsVertex g' u = true := by
      simpa [graphExistsVertex, hhead] using hu
    have hv' : graphExistsVertex g' v = true := by
      simpa [graphExistsVertex, hhead] using hv
    rw [if_neg (by simp [hu', hv']), if_neg (by simpa [hpseudo] using hc2),
      if_pos (by simp [hmulti, hedge])]
  refine ⟨?_, ?_, ?_, ?_⟩
  · intro g' h
    unfold graphAddEdgeD at h ⊢
    by_cases c1 : (!(graphExistsVertex g u) || !(graphExistsVertex g v)) = true
    · rw [if_pos c1] at h; cases h
    rw [if_neg c1] at h
    have hu : graphExistsVertex g u = true := by
      cases hgu : graphExistsVertex g u
      · exact absurd (by simp [hgu]) c1
      · rfl
    have hv : graphExistsVertex g v = true := by
      cases hgv : graphExistsVertex g v
      · exact absurd (by simp [hgv]) c1
      · rfl
    by_cases c2 : (u.id == v.id && !g.pseudoGraph) = true
    · rw [if_pos c2] at h; cases h
    rw [if_neg c2] at h
    by_cases c3 : (!g.multiGraph && graphExistsEdge g u v) = true
    · rw [if_pos c3] at h
      injection h with h; subst h
      exact core g rfl hm rfl hu hv c2 (by simpa [hm] using c3) _
    · rw [if_neg c3] at h
      injection h with h; subst h
      have hlt : u.id < g.list.length := existsVertex_id_lt g u hwf hu
      refine core (g.setAdj u.id (⟨v.id, 0⟩ :: g.adj u.id)) rfl hm rfl hu hv c2 ?_ _
      rw [graphExistsEdge]
      show ((g.setAdj u.id (⟨v.id, 0⟩ :: g.adj u.id)).adj u.id).any _ = true
      rw [setAdj_adj_self g u.id _ hlt]
      simp
  · intro g' h
    unfold graphAddEdgeU at h ⊢
    by_cases c1 : (!(graphExistsVertex g u) || !(graphExistsVertex g v)) = true
    · rw [if_pos c1] at h; cases h
    rw [if_neg c1] at h
    have hu : graphExistsVertex g u = true := by
      cases hgu : graphExistsVertex g u
      · exact absurd (by simp [hgu]) c1
      · rfl
    have hv : graphExistsVertex g v = true := by
      cases hgv : graphExistsVertex g v
      · exact absurd (by simp [hgv]) c1
      · rfl
    by_cases c2 : (u.id == v.id && !g.pseudoGraph) = true
    · rw [if_pos c2] at h; cases h
    rw [if_neg c2] at h
    by_cases c3 : (!g.multiGraph && graphExistsEdge g u v) = true
    · rw [if_pos c3] at h
      injection h with h; subst h
      exact core g rfl hm rfl hu hv c2 (by simpa [hm] using c3) _
    · rw [if_neg c3] at h
      simp only at h
      injection h with h; subst h
      have hlt : u.id < (g.setAdj v.id (⟨u.id, 0⟩ :: g.adj v.id)).list.length := by
        rw [setAdj_listLen]; exact existsVertex_id_lt g u hwf hu
      refine core ((g.setAdj v.id (⟨u.id, 0⟩ :: g.adj v.id)).setAdj u.id
        (⟨v.id, 0⟩ :: (g.setAdj v.id (⟨u.id, 0⟩ :: g.adj v.id)).adj u.id)) rfl hm rfl hu hv c2 ?_ _
      rw [graphExistsEdge]
      show (((g.setAdj v.id _).setAdj u.id
        (⟨v.id, 0⟩ :: (g.setAdj v.id _).adj u.id)).adj u.id).any _ = true
      rw [setAdj_adj_self _ u.id _ hlt]
      simp
  · intro w g' h
    unfold graphAddEdgeWeightD at h ⊢
    by_cases c1 : (!(graphExistsVertex g u) || !(graphExistsVertex g v)) = true
    · rw [if_pos c1] at h; cases h
    rw [if_neg c1] at h
    have hu : graphExistsVertex g u = true := by
      cases hgu : graphExistsVertex g u
      · exact absurd (by simp [hgu]) c1
      · rfl
    have hv : graphExistsVertex g v = true := by
      cases hgv : graphExistsVertex g v
      · exact absurd (by simp [hgv]) c1
      · rfl
    by_cases c2 : (u.id == v.id && !g.pseudoGraph) = true
    · rw [if_pos c2] at h; cases h
    rw [if_neg c2] at h
    by_cases c3 : (!g.multiGraph && graphExistsEdge g u v) = true
    · rw [if_pos c3] at h
      injection h with h; subst h
      exact core g rfl hm rfl hu hv c2 (by simpa [hm] using c3) _
    · rw [if_neg c3] at h
      injection h with h; subst h
      have hlt : u.id < g.list.length := existsVertex_id_lt g u hwf hu
      refine core ({ g.setAdj u.id (⟨v.id, w⟩ :: g.adj u.id) with weighted := true })
        rfl hm rfl hu hv c2 ?_ _
      rw [graphExistsEdge]
      show (({ g.setAdj u.id (⟨v.id, w⟩ :: g.adj u.id) with weighted := true}).adj
        u.id).any _ = true
      have : ({ g.setAdj u.id (⟨v.id, w⟩ :: g.adj u.id) with weighted := true}).adj u.id
          = (g.setAdj u.id (⟨v.id, w⟩ :: g.adj u.id)).adj u.id := rfl
      rw [this, setAdj_adj_self g u.id _ hlt]
      simp
  · intro w g' h
    unfold graphAddEdgeWeightU at h ⊢
    by_cases c1 : (!(graphExistsVertex g u) || !(graphExistsVertex g v)) = true
    · rw [if_pos c1] at h; cases h
    rw [if_neg c1] at h
    have hu : graphExistsVertex g u = true := by
      cases hgu : graphExistsVertex g u
      · exact absurd (by simp [hgu]) c1
      · rfl
    have hv : graphExistsVertex g v = true := by
      cases hgv : graphExistsVertex g v
      · exact absurd (by simp [hgv]) c1
      · rfl
    by_cases c2 : (u.id == v.id && !g.pseudoGraph) = true
    · rw [if_pos c2] at h; cases h
    rw [if_neg c2] at h
    by_cases c3 : (!g.multiGraph && graphExistsEdge g u v) = true
    · rw [if_pos c3] at h
      injection h with h; subst h
      exact core g rfl hm rfl hu hv c2 (by simpa [hm] using c3) _
    · rw [if_neg c3] at h
      simp only at h
      injection h with h; subst h
      have hlt : u.id < (g.setAdj v.id (⟨u.id, w⟩ :: g.adj v.id)).list.length := by
        rw [setAdj_listLen]; exact existsVertex_id_lt g u hwf hu
      refine core ({ (g.setAdj v.id (⟨u.id, w⟩ :: g.adj v.id)).setAdj u.id
        (⟨v.id, w⟩ :: (g.setAdj v.id (⟨u.id, w⟩ :: g.adj v.id)).adj u.id) with
          weighted := true }) rfl hm rfl hu hv c2 ?_ _
      rw [graphExistsEdge]
      show (({ (g.setAdj v.id _).setAdj u.id
        (⟨v.id, w⟩ :: (g.setAdj v.id _).adj u.id) with weighted := true}).adj u.id).any _ = true
      have heq : ({ (g.setAdj v.id (⟨u.id, w⟩ :: g.adj v.id)).setAdj u.id
          (⟨v.id, w⟩ :: (g.setAdj v.id (⟨u.id, w⟩ :: g.adj v.id)).adj u.id) with
            weighted := true}).adj u.id
          = ((g.setAdj v.id (⟨u.id, w⟩ :: g.adj v.id)).setAdj u.id
            (⟨v.id, w⟩ :: (g.setAdj v.id (⟨u.id, w⟩ :: g.adj v.id)).adj u.id)).adj u.id := rfl
      rw [heq, setAdj_adj_self _ u.id _ hlt]
      simp

/-- Witness for C8: the example graph already carries the edge `0 -> 1`, so
adding it (again) leaves the graph itself as the result both times. -/
theorem graphAddEdge_idem_witness :
    graphAddEdgeD exGraphW ⟨0, 10⟩ ⟨1, 11⟩ = some exGraphW :=
  (graphAddEdge_idem exGraphW ⟨0, 10⟩ ⟨1, 11⟩ (by decide) (by decide)).1
    exGraphW (by decide)

/-! ### C10: the cycle detector on a directed two-cycle -/

theorem cdVisit_succ_nil (g : Graph) (f u : Nat) (st : HMap × NArr × Nat) :
    cdVisit g (Nat.succ f) u [] st = st := rfl

theorem cdVisit_succ_cons (g : Graph) (f u : Nat) (e : AdjNode) (es : List AdjNode)
    (par : HMap) (prog : NArr) (cnt : Nat) :
    cdVisit g (Nat.succ f) u (e :: es) (par, prog, cnt) =
      (let cnt1 := if naGet prog e.target = 1 ∧ parOf par u ≠ Int.ofNat e.target
        then cnt + 1 else cnt
       if (hmFind par e.target).isSome then cdVisit g f u es (par, prog, cnt1)
       else
         let st2 := cdVisit g f e.target (g.adj e.target)
           (hmInsert par e.target ⟨Int.ofNat u, Int.ofNat u⟩, naSet prog e.target 1, cnt1)
         cdVisit g f u es (st2.1, naSet st2.2.1 e.target 0, st2.2.2)) := rfl

/-- C10.  On a directed graph with exactly two vertices `x, y` and the two
edges `x -> y` and `y -> x`, `graphExistsCycle` returns `0`: the edge from
the second-visited vertex back to its DFS parent is exempted from the
backward-edge test (the "not the recorded predecessor" clause, written for
undirected graphs) even though the graph is directed and genuinely cyclic. -/
theorem graphExistsCycle_two_cycle (g : Graph) (x y : Vertex) (w1 w2 : Int)
    (hab : x.id ≠ y.id) (hhead : g.vertexHead = [x, y])
    (ha : g.adj x.id = [⟨y.id, w1⟩]) (hb : g.adj y.id = [⟨x.id, w2⟩]) :
    graphExistsCycle g = 0 := by
  have hba : y.id ≠ x.id := Ne.symm hab
  obtain ⟨m, hmf⟩ : ∃ m, dfsFuel g = Nat.succ (Nat.succ (Nat.succ m)) := by
    have h3 : 3 ≤ dfsFuel g := by
      unfold dfsFuel
      rw [hhead]
      simp only [List.length_cons, List.length_nil]
      omega
    exact ⟨dfsFuel g - 3, by omega⟩
  have find_p1_y : hmFind (hmInsert hmEmpty x.id ⟨-1, -1⟩) y.id = none := by
    rw [hmFind_insert, if_neg hba]; rfl
  have find_p1_x : hmFind (hmInsert hmEmpty x.id ⟨-1, -1⟩) x.id = some ⟨-1, -1⟩ := by
    rw [hmFind_insert, if_pos rfl]
  have find_p2_x :
      hmFind (hmInsert (hmInsert hmEmpty x.id ⟨-1, -1⟩) y.id
        ⟨Int.ofNat x.id, Int.ofNat x.id⟩) x.id = some ⟨-1, -1⟩ := by
    rw [hmFind_insert, if_neg hab, find_p1_x]
  have find_p2_y :
      hmFind (hmInsert (hmInsert hmEmpty x.id ⟨-1, -1⟩) y.id
        ⟨Int.ofNat x.id, Int.ofNat x.id⟩) y.id =
        some ⟨Int.ofNat x.id, Int.ofNat x.id⟩ := by
    rw [hmFind_insert, if_pos rfl]
  have inner : cdVisit g (dfsFuel g) x.id (g.adj x.id)
      (hmInsert hmEmpty x.id ⟨-1, -1⟩, naSet [] x.id 1, 0) =
      (hmInsert (hmInsert hmEmpty x.id ⟨-1, -1⟩) y.id ⟨Int.ofNat x.id, Int.ofNat x.id⟩,
       naSet (naSet (naSet [] x.id 1) y.id 1) y.id 0, 0) := by
    rw [hmf, ha, cdVisit_succ_cons]
    have hcnt : ¬(naGet (naSet [] x.id 1) y.id = 1 ∧
        parOf (hmInsert hmEmpty x.id ⟨-1, -1⟩) x.id ≠ Int.ofNat y.id) := by
      rw [naGet_set, if_neg hba]
      simp [naGet]
    rw [if_neg hcnt, find_p1_y]
    simp only [Option.isSome_none, Bool.false_eq_true, if_false]
    rw [hb, cdVisit_succ_cons]
    have hcnt2 : ¬(naGet (naSet (naSet [] x.id 1) y.id 1) x.id = 1 ∧
        parOf (hmInsert (hmInsert hmEmpty x.id ⟨-1, -1⟩) y.id
          ⟨Int.ofNat x.id, Int.ofNat x.id⟩) y.id ≠ Int.ofNat x.id) := by
      rw [parOf, find_p2_y]
      simp
    rw [if_neg hcnt2, find_p2_x]
    simp only [Option.isSome_some, if_true]
    rw [cdVisit_succ_nil, cdVisit_succ_nil]
  unfold graphExistsCycle
  rw [hhead, List.foldl_cons, List.foldl_cons, List.foldl_nil]
  have step1 : cdOuter g (hmEmpty, [], 0) x =
      (hmInsert (hmInsert hmEmpty x.id ⟨-1, -1⟩) y.id ⟨Int.ofNat x.id, Int.ofNat x.id⟩,
       naSet (naSet (naSet (naSet [] x.id 1) y.id 1) y.id 0) x.id 0, 0) := by
    unfold cdOuter
    rw [if_neg (by simp [hmFind, hmEmpty])]
    simp only [inner]
  rw [step1]
  unfold cdOuter
  rw [if_pos (by rw [find_p2_y]; rfl)]

/-- Witness for C10: the concrete two-cycle `4 <-> 7`. -/
theorem graphExistsCycle_two_cycle_witness : graphExistsCycle exTwoCycle = 0 :=
  graphExistsCycle_two_cycle exTwoCycle ⟨7, 0⟩ ⟨4, 0⟩ 0 0 (by decide) (by decide)
    (by decide) (by decide)


/-! ### C6: `graphBuildTranspose` -/

theorem graphGrowFuel_mono (f : Nat) (g : Graph) (i : Nat) :
    g.listSize ≤ (graphGrowFuel f g i).listSize := by
  induction f generalizing g with
  | zero => exact le_refl _
  | succ f ih =>
    by_cases h : g.listSize ≤ i
    · simp only [graphGrowFuel, if_pos h]
      have h2 := ih { g with listSize := g.listSize * 2,
                             list := g.list ++ List.replicate g.listSize ([] : List AdjNode) }
      simp only at h2
      omega
    · simp [graphGrowFuel, h]

theorem graphGrowFuel_covers (f : Nat) (g : Graph) (i : Nat)
    (h0 : 0 < g.listSize) (hf : i < g.listSize + f) :
    i < (graphGrowFuel f g i).listSize := by
  induction f generalizing g with
  | zero => simpa [graphGrowFuel] using hf
  | succ f ih =>
    by_cases h : g.listSize ≤ i
    · simp only [graphGrowFuel, if_pos h]
      refine ih _ ?_ ?_
      · show 0 < g.listSize * 2
        omega
      · show i < g.listSize * 2 + f
        omega
    · simp [graphGrowFuel, h]
      omega

theorem graphGrowFuel_replicate (f : Nat) (g : Graph) (i : Nat)
    (h : g.list = List.replicate g.listSize []) :
    (graphGrowFuel f g i).list =
      List.replicate (graphGrowFuel f g i).listSize [] := by
  induction f generalizing g with
  | zero => simpa [graphGrowFuel] using h
  | succ f ih =>
    by_cases hc : g.listSize ≤ i
    · simp only [graphGrowFuel, if_pos hc]
      refine ih _ ?_
      show g.list ++ List.replicate g.listSize [] =
        List.replicate (g.listSize * 2) []
      rw [h, mul_two, List.replicate_add]
    · simpa [graphGrowFuel, hc] using h

/-- Fields of the graph built by `addVertices` over an all-empty base:
reversed vertex list (given fresh, distinct ids), preserved flags, an
all-empty adjacency array and capacity above every added id. -/
theorem addVertices_spec (vs : List Vertex) (t : Graph)
    (h0 : 0 < t.listSize)
    (hrep : t.list = List.replicate t.listSize [])
    (hfresh : ∀ v ∈ vs, ∀ c ∈ t.vertexHead, c.id ≠ v.id)
    (hnodup : (vs.map (fun v => v.id)).Nodup) :
    (addVertices vs t).vertexHead = vs.reverse ++ t.vertexHead ∧
    (addVertices vs t).multiGraph = t.multiGraph ∧
    (addVertices vs t).pseudoGraph = t.pseudoGraph ∧
    (addVertices vs t).list =
      List.replicate (addVertices vs t).listSize [] ∧
    0 < (addVertices vs t).listSize ∧
    (∀ v ∈ vs, v.id < (addVertices vs t).listSize) ∧
    (∀ c ∈ t.vertexHead, c.id < t.listSize → c.id < (addVertices vs t).listSize) := by
  induction vs generalizing t with
  | nil =>
    refine ⟨by simp [addVertices], rfl, rfl, hrep, h0, by simp, fun c _ h => h⟩
  | cons v vs ih =>
    have hvfresh : ¬(t.vertexHead.any fun c => c.id == v.id) = true := by
      simp only [List.any_eq_true, beq_iff_eq, not_exists, not_and]
      exact fun c hc => hfresh v (by simp) c hc
    have hstep : (graphAddVertex t v).2 =
        graphGrowFuel (v.id + 1)
          { t with vertexHead := v :: t.vertexHead, numVertex := t.numVertex + 1 }
          v.id := by
      unfold graphAddVertex
      rw [if_neg hvfresh]
    set t1 : Graph := { t with vertexHead := v :: t.vertexHead,
                               numVertex := t.numVertex + 1 } with ht1
    set t2 := graphGrowFuel (v.id + 1) t1 v.id with ht2
    have hhead2 : t2.vertexHead = v :: t.vertexHead := by
      rw [ht2]
      exact (graphGrowFuel_fields (v.id + 1) t1 v.id).1
    have hsize2 : 0 < t2.listSize := lt_of_lt_of_le h0 (graphGrowFuel_mono _ t1 _)
    have hrep2 : t2.list = List.replicate t2.listSize [] := by
      rw [ht2]
      exact graphGrowFuel_replicate _ t1 _ hrep
    have hcover : v.id < t2.listSize := by
      rw [ht2]
      exact graphGrowFuel_covers _ t1 _ h0 (by omega)
    have hmono : t.listSize ≤ t2.listSize := graphGrowFuel_mono _ t1 _
    have hmg : t2.multiGraph = t.multiGraph := (graphGrowFuel_fields _ t1 _).2.2.1
    have hpg : t2.pseudoGraph = t.pseudoGraph := (graphGrowFuel_fields _ t1 _).2.2.2.1
    have hfresh2 : ∀ w ∈ vs, ∀ c ∈ t2.vertexHead, c.id ≠ w.id := by
      intro w hw c hc
      rw [hhead2] at hc
      rcases List.mem_cons.mp hc with h | h
      · subst h
        have := hnodup
        simp only [List.map_cons, List.nodup_cons, List.mem_map] at this
        intro he
        exact this.1 ⟨w, hw, he.symm⟩
      · exact hfresh w (by simp [hw]) c h
    have hnodup2 : (vs.map (fun v => v.id)).Nodup := by
      simp only [List.map_cons, List.nodup_cons] at hnodup
      exact hnodup.2
    have hmain := ih t2 hsize2 hrep2 hfresh2 hnodup2
    have hone : addVertices (v :: vs) t = addVertices vs t2 := by
      simp only [addVertices, hstep, ht2]
    refine ⟨?_, ?_, ?_, ?_, ?_, ?_, ?_⟩
    · rw [hone, hmain.1, hhead2]
      simp
    · rw [hone, hmain.2.1, hmg]
    · rw [hone, hmain.2.2.1, hpg]
    · rw [hone]; exact hmain.2.2.2.1
    · rw [hone]; exact hmain.2.2.2.2.1
    · intro w hw
      rw [hone]
      rcases List.mem_cons.mp hw with h | h
      · rw [h]
        exact hmain.2.2.2.2.2.2 v (by rw [hhead2]; simp) hcover
      · exact hmain.2.2.2.2.2.1 w h
    · intro c hc hlt
      rw [hone]
      exact hmain.2.2.2.2.2.2 c (by rw [hhead2]; simp [hc]) (lt_of_lt_of_le hlt hmono)

theorem vertexFind_spec (vs : List Vertex) (i : Nat)
    (h : i ∈ vs.map (fun v => v.id)) :
    ∃ v, vertexFind vs i = some v ∧ v.id = i ∧ v ∈ vs := by
  induction vs with
  | nil => simp at h
  | cons c cs ih =>
    by_cases hc : c.id = i
    · refine ⟨c, ?_, hc, by simp⟩
      simp [vertexFind, List.find?_cons, hc]
    · simp only [List.map_cons, List.mem_cons] at h
      rcases h with h | h
    
      · exact absurd h.symm hc
      · obtain ⟨v, h1, h2, h3⟩ := ih h
        refine ⟨v, ?_, h2, by simp [h3]⟩
        have hbe : (c.id == i) = false := by simp [hc]
        rw [vertexFind] at h1 ⊢
        rw [List.find?_cons, hbe]
        exact h1

theorem existsVertex_of_id_mem (t : Graph) (x : Vertex)
    (h : x.id ∈ t.vertexHead.map (fun v => v.id)) :
    graphExistsVertex t x = true := by
  simp only [graphExistsVertex, List.any_eq_true, beq_iff_eq]
  simp only [List.mem_map] at h
  obtain ⟨c, hc, hid⟩ := h
  exact ⟨c, hc, hid⟩

theorem cnt_setAdj_prepend (t : Graph) (i : Nat) (r : AdjNode)
    (hi : i < t.list.length) (x y : Nat) :
    cnt (t.setAdj i (r :: t.adj i)) x y =
      cnt t x y + (if x = i ∧ r.target = y then 1 else 0) := by
  by_cases hx : x = i
  · subst hx
    rw [cnt, setAdj_adj_self _ _ _ hi]
    by_cases hr : r.target = y
    · simp [cnt, List.filter_cons, hr]
    · simp [cnt, List.filter_cons, hr]
  · rw [cnt, setAdj_adj_other _ _ _ _ hx]
    simp [cnt, hx]

theorem graphExistsEdge_eq_false_of_cnt (t : Graph) (d s1 : Vertex)
    (h : cnt t d.id s1.id = 0) : graphExistsEdge t d s1 = false := by
  cases hany : graphExistsEdge t d s1
  · rfl
  · exfalso
    rw [graphExistsEdge] at hany
    simp only [List.any_eq_true, beq_iff_eq] at hany
    obtain ⟨e, he, ht⟩ := hany
    have hmem : e ∈ (t.adj d.id).filter (fun e => e.target = s1.id) :=
      List.mem_filter.mpr ⟨he, by simpa using ht⟩
    rw [cnt, List.length_eq_zero] at h
    rw [h] at hmem
    exact absurd hmem (List.not_mem_nil e)

theorem cntP_cons (q : Nat × AdjNode) (ps : List (Nat × AdjNode)) (a b : Nat) :
    cntP (q :: ps) a b = cntP ps a b + (if q.1 = a ∧ q.2.target = b then 1 else 0) := by
  rw [cntP, cntP, List.filter_cons]
  by_cases h : q.1 = a ∧ q.2.target = b
  · simp [h]
  · simp [h]

/-- The edge phase of `graphBuildTranspose`: folding the scan pairs through
`graphAddEdgeD` succeeds and adds, for every pair `(a, e)`, one weight-zero
record from `e.target` to `a`. -/
theorem addTransposeEdges_spec (ps : List (Nat × AdjNode)) (t : Graph)
    (hpres : ∀ p ∈ ps, p.1 ∈ t.vertexHead.map (fun v => v.id) ∧
      p.2.target ∈ t.vertexHead.map (fun v => v.id))
    (hps : ∀ p ∈ ps, p.2.target = p.1 → t.pseudoGraph = true)
    (hb : ∀ p ∈ ps, p.2.target < t.list.length)
    (hnm : t.multiGraph = false →
      (∀ p ∈ ps, cnt t p.2.target p.1 = 0) ∧
      (ps.map (fun p => (p.1, p.2.target))).Nodup) :
    ∃ t2, addTransposeEdges ps t = some t2 ∧
      t2.vertexHead = t.vertexHead ∧
      t2.multiGraph = t.multiGraph ∧
      t2.pseudoGraph = t.pseudoGraph ∧
      t2.list.length = t.list.length ∧
      (∀ a b, cnt t2 b a = cnt t b a + cntP ps a b) ∧
      (∀ i, ∀ e ∈ t2.adj i, e ∈ t.adj i ∨ e.weight = 0) := by
  induction ps generalizing t with
  | nil =>
    refine ⟨t, rfl, rfl, rfl, rfl, rfl, ?_, fun i e he => Or.inl he⟩
    intro a b
    simp [cntP]
  | cons q ps ih =>
    obtain ⟨a, e⟩ := q
    obtain ⟨hsrc, hdst⟩ := hpres (a, e) (by simp)
    obtain ⟨src, hfsrc, hsrcid, -⟩ := vertexFind_spec t.vertexHead a hsrc
    obtain ⟨dst, hfdst, hdstid, -⟩ := vertexFind_spec t.vertexHead e.target hdst
    have hevs : graphExistsVertex t src = true :=
      existsVertex_of_id_mem t src (by rw [hsrcid]; exact hsrc)
    have hevd : graphExistsVertex t dst = true :=
      existsVertex_of_id_mem t dst (by rw [hdstid]; exact hdst)
    have hc2 : ¬(dst.id == src.id && !t.pseudoGraph) = true := by
      by_cases hq : e.target = a
      · have := hps (a, e) (by simp) hq
        simp [this]
      · have : dst.id ≠ src.id := by rw [hdstid, hsrcid]; exact hq
        simp [this]
    have hadd : graphAddEdgeD t dst src =
        some (t.setAdj dst.id (⟨src.id, 0⟩ :: t.adj dst.id)) := by
      rw [graphAddEdgeD, if_neg (by simp [hevs, hevd]), if_neg hc2]
      by_cases hmu : t.multiGraph
      · rw [if_neg (by simp [hmu])]
      · have hmu2 : t.multiGraph = false := by
          simpa [Bool.not_eq_true] using hmu
        have hz := (hnm hmu2).1 (a, e) (by simp)
        have hff : graphExistsEdge t dst src = false :=
          graphExistsEdge_eq_false_of_cnt t dst src
            (by rw [hdstid, hsrcid]; exact hz)
        rw [if_neg (by simp [hff])]
    set t1 : Graph := t.setAdj dst.id (⟨src.id, 0⟩ :: t.adj dst.id) with ht1def
    have hlen1 : t1.list.length = t.list.length := by rw [ht1def]; exact setAdj_listLen t _ _
    have hhead1 : t1.vertexHead = t.vertexHead := rfl
    have hmg1 : t1.multiGraph = t.multiGraph := rfl
    have hpg1 : t1.pseudoGraph = t.pseudoGraph := rfl
    have hblt : dst.id < t.list.length := by rw [hdstid]; exact hb (a, e) (by simp)
    have hcnt1 : ∀ x y, cnt t1 x y = cnt t x y +
        (if x = e.target ∧ y = a then 1 else 0) := by
      intro x y
      rw [ht1def, cnt_setAdj_prepend t dst.id _ hblt]
      congr 1
      refine if_congr ?_ rfl rfl
      rw [hdstid]
      constructor
      · rintro ⟨u, v⟩
        have v2 : src.id = y := v
        exact ⟨u, v2.symm.trans hsrcid⟩
      · rintro ⟨u, v⟩
        refine ⟨u, ?_⟩
        show src.id = y
        rw [hsrcid]
        exact v.symm
    have hmain := ih t1
      (fun p hp => by rw [hhead1]; exact hpres p (by simp [hp]))
      (fun p hp hq => by rw [hpg1]; exact hps p (by simp [hp]) hq)
      (fun p hp => by rw [hlen1]; exact hb p (by simp [hp]))
      ?_
    · obtain ⟨t2, h1, h2, h3, h4, h5, h6, h7⟩ := hmain
      refine ⟨t2, ?_, ?_, ?_, ?_, ?_, ?_, ?_⟩
      · rw [show addTransposeEdges ((a, e) :: ps) t =
            (match vertexFind t.vertexHead a, vertexFind t.vertexHead e.target with
             | some src, some dst =>
               (match graphAddEdgeD t dst src with
                | some t1 => addTransposeEdges ps t1
                | none => none)
             | _, _ => none) from rfl]
        rw [hfsrc, hfdst]
        simp only [hadd]
        exact h1
      · rw [h2, hhead1]
      · rw [h3, hmg1]
      · rw [h4, hpg1]
      · rw [h5, hlen1]
      · intro x y
        rw [h6, hcnt1, cntP_cons]
        have hiff : (y = e.target ∧ x = a) ↔ ((a, e).1 = x ∧ (a, e).2.target = y) := by
          constructor
          · rintro ⟨u, v⟩; exact ⟨v.symm, u.symm⟩
          · rintro ⟨u, v⟩; exact ⟨v.symm, u.symm⟩
        simp only [hiff]
        omega
      · intro i e2 he2
        rcases h7 i e2 he2 with h | h
        · rw [ht1def] at h
          by_cases hi : i = dst.id
          · subst hi
            rw [setAdj_adj_self _ _ _ hblt] at h
            rcases List.mem_cons.mp h with h | h
            · subst h; exact Or.inr rfl
            · exact Or.inl h
          · rw [setAdj_adj_other _ _ _ _ hi] at h
            exact Or.inl h
        · exact Or.inr h
    · intro hmu
      obtain ⟨hz, hnd⟩ := hnm (by rw [← hmg1]; exact hmu)
      constructor
      · intro p hp
        have hne : ¬(p.2.target = e.target ∧ p.1 = a) := by
          intro hcon
          simp only [List.map_cons, List.nodup_cons] at hnd
          refine hnd.1 (List.mem_map.mpr ⟨p, hp, ?_⟩)
          show (p.1, p.2.target) = ((a, e).1, (a, e).2.target)
          rw [hcon.1, hcon.2]
        rw [hcnt1, hz p (by simp [hp]), if_neg hne]
      · simp only [List.map_cons, List.nodup_cons] at hnd
        exact hnd.2

theorem mem_edgePairs (g : Graph) (p : Nat × AdjNode) :
    p ∈ edgePairs g ↔ p.1 < g.listSize ∧ p.2 ∈ g.adj p.1 := by
  rw [edgePairs]
  simp only [List.mem_flatten, List.mem_map, List.mem_range]
  constructor
  · rintro ⟨l, ⟨i, hi, rfl⟩, hp⟩
    simp only [List.mem_map] at hp
    obtain ⟨e, he, hpe⟩ := hp
    rw [← hpe]
    exact ⟨hi, he⟩
  · rintro ⟨h1, h2⟩
    exact ⟨(g.adj p.1).map (fun e => (p.1, e)), ⟨p.1, h1, rfl⟩,
      List.mem_map.mpr ⟨p.2, h2, rfl⟩⟩

theorem sum_map_range_ite (n a c : Nat) :
    (((List.range n).map (fun i => if i = a then c else 0)).sum) =
      if a < n then c else 0 := by
  induction n with
  | zero => simp
  | succ n ih =>
    rw [List.range_succ, List.map_append, List.sum_append, ih]
    by_cases h1 : a < n
    · rw [if_pos h1, if_pos (by omega)]
      have : n ≠ a := by omega
      simp [this]
    · by_cases h2 : a = n
      · subst h2
        rw [if_neg h1, if_pos (by omega)]
        simp
    
      · rw [if_neg h1, if_neg (by omega)]
        have : n ≠ a := by omega
        simp [this]

theorem cntP_edgePairs (g : Graph) (hlen : g.list.length = g.listSize)
    (a b : Nat) : cntP (edgePairs g) a b = cnt g a b := by
  rw [cntP, edgePairs]
  rw [← List.countP_eq_length_filter, List.countP_flatten, List.map_map]
  have hterm : ∀ i ∈ List.range g.listSize,
      (List.countP (fun p => decide (p.1 = a ∧ p.2.target = b)) ∘
        (fun i => (g.adj i).map fun e => (i, e))) i
      = (fun i => if i = a then cnt g a b else 0) i := by
    intro i hi
    simp only [Function.comp_apply]
    rw [List.countP_map]
    by_cases hia : i = a
    · subst hia
      rw [if_pos rfl, cnt, ← List.countP_eq_length_filter]
      congr 1
      funext e
      simp
    · rw [if_neg hia]
      rw [List.countP_eq_zero]
      intro e he
      simp [hia]
  rw [List.map_congr_left hterm, sum_map_range_ite]
  by_cases ha : a < g.listSize
  · rw [if_pos ha]
  · rw [if_neg ha]
    have hadj : g.adj a = [] := by
      rw [Graph.adj]
      rw [List.getD_eq_default]
      omega
    rw [cnt, hadj]
    rfl

theorem adj_of_replicate (t : Graph) (h : t.list = List.replicate t.listSize [])
    (i : Nat) : t.adj i = [] := by
  rw [Graph.adj, h]
  by_cases hi : i < t.listSize
  · rw [List.getD_eq_getElem?_getD, List.getElem?_replicate, if_pos hi]
    rfl
  · rw [List.getD_eq_default]
    rw [List.length_replicate]
    omega

theorem edgePairs_keys_nodup (g : Graph) (hwf : WF g) (h : g.multiGraph = false) :
    ((edgePairs g).map (fun p => (p.1, p.2.target))).Nodup := by
  rw [edgePairs, List.map_flatten, List.map_map, List.nodup_flatten]
  constructor
  · intro l hl
    simp only [List.mem_map, List.mem_range, Function.comp_apply] at hl
    obtain ⟨i, hi, rfl⟩ := hl
    rw [List.map_map]
    have : ((fun p => (p.1, p.2.target)) ∘ fun e => (i, e)) =
        ((fun tg => (i, tg)) ∘ (fun (e : AdjNode) => e.target)) := rfl
    rw [this, ← List.map_map]
    refine List.Nodup.map ?_ (WF_adjNodup hwf h i hi)
    intro x y hxy
    injection hxy
  · rw [List.pairwise_map]
    refine List.Pairwise.imp ?_ (List.pairwise_lt_range g.listSize)
    intro i j hij
    rw [List.disjoint_left]
    intro p hp hq
    simp only [Function.comp_apply, List.map_map, List.mem_map] at hp hq
    obtain ⟨e1, -, he1⟩ := hp
    obtain ⟨e2, -, he2⟩ := hq
    have h1 : p.1 = i := by rw [← he1]
    have h2 : p.1 = j := by rw [← he2]
    omega

/-- C6 (amended).  On a well-formed graph, `graphBuildTranspose` succeeds and
returns a graph with the same vertex set (the vertex list re-created in
reverse order, ids and values preserved) whose edge records are exactly the
reversals of the input's records with matching multiplicity; however every
transposed record carries weight `0` (the reversal is performed with the
unweighted `graphAddEdgeD`), so weights are *not* preserved. -/
theorem graphBuildTranspose_spec (g : Graph) (hwf : WF g) :
    ∃ t, graphBuildTranspose g = some t ∧
      t.vertexHead = g.vertexHead.reverse ∧
      (∀ a b : Nat, cnt t b a = cnt g a b) ∧
      (∀ i : Nat, ∀ e ∈ t.adj i, e.weight = 0) := by
  have hbuild : graphBuild g.multiGraph g.pseudoGraph =
      some (graphInit 8 0 [] g.multiGraph g.pseudoGraph false) := by
    rw [graphBuild, if_neg]
    cases hp : g.pseudoGraph
    · simp
    · simp [WF_pm hwf hp]
  have hA := addVertices_spec g.vertexHead
    (graphInit 8 0 [] g.multiGraph g.pseudoGraph false)
    (by simp [graphInit]) (by simp [graphInit])
    (by intro v hv c hc; exact absurd hc (List.not_mem_nil c))
    (WF_nodup hwf)
  set t1 := addVertices g.vertexHead (graphInit 8 0 [] g.multiGraph g.pseudoGraph false)
    with ht1
  obtain ⟨hA1, hA2, hA3, hA4, hA5, hA6, -⟩ := hA
  have hids : ∀ x : Nat, x ∈ vertexIds g →
      x ∈ t1.vertexHead.map (fun v => v.id) := by
    intro x hx
    rw [hA1]
    simp only [graphInit, List.append_nil, List.map_reverse, List.mem_reverse]
    exact hx
  have hlen1 : t1.list.length = t1.listSize := by
    rw [hA4, List.length_replicate]
  have hB := addTransposeEdges_spec (edgePairs g) t1 ?_ ?_ ?_ ?_
  · obtain ⟨t2, hB1, hB2, hB3, hB4, hB5, hB6, hB7⟩ := hB
    refine ⟨t2, ?_, ?_, ?_, ?_⟩
    · rw [graphBuildTranspose, hbuild]
      exact hB1
    · rw [hB2, hA1]
      simp [graphInit]
    · intro a b
      rw [hB6, cnt, adj_of_replicate t1 hA4]
      rw [cntP_edgePairs g (WF_len hwf)]
      simp
    · intro i e he
      rcases hB7 i e he with h | h
      · rw [adj_of_replicate t1 hA4] at h
        exact absurd h (List.not_mem_nil e)
      · exact h
  · intro p hp
    rw [mem_edgePairs] at hp
    constructor
    · refine hids p.1 (WF_slots hwf p.1 hp.1 ?_)
      intro hnil
      rw [hnil] at hp
      exact absurd hp.2 (List.not_mem_nil p.2)
    · exact hids p.2.target (WF_targets hwf p.1 hp.1 p.2 hp.2)
  · intro p hp hq
    rw [mem_edgePairs] at hp
    have hpse : g.pseudoGraph = true :=
      WF_selfloop hwf ⟨p.1, hp.1, p.2, hp.2, hq⟩
    rw [hA3]
    simpa [graphInit] using hpse
  · intro p hp
    rw [mem_edgePairs] at hp
    rw [hlen1]
    have := WF_targets hwf p.1 hp.1 p.2 hp.2
    simp only [vertexIds, List.mem_map] at this
    obtain ⟨c, hc, hcid⟩ := this
    rw [← hcid]
    exact hA6 c hc
  · intro hmu
    have hgm : g.multiGraph = false := by
      rw [hA2] at hmu
      simpa [graphInit] using hmu
    constructor
    · intro p hp
      rw [cnt, adj_of_replicate t1 hA4]
      rfl
    · exact edgePairs_keys_nodup g hwf hgm

/-- Counterexample to C6 as stated: the transpose of the example graph with
the single weighted edge `0 -> 1` (weight `5`) does not contain a reversed
record of weight `5`; the reversed record carries weight `0`. -/
theorem graphBuildTranspose_weight_cex :
    graphBuildTranspose exGraphW = some exGraphWTr ∧
    (∃ e ∈ exGraphW.adj 0, e.target = 1 ∧ e.weight = 5) ∧
    ¬(∃ e ∈ exGraphWTr.adj 1, e.target = 0 ∧ e.weight = 5) := by
  refine ⟨by decide, by decide, by decide⟩

/-- Witness for the amended C6 on the concrete weighted example graph. -/
theorem graphBuildTranspose_spec_witness :
    ∃ t, graphBuildTranspose exGraphW = some t ∧
      t.vertexHead = exGraphW.vertexHead.reverse ∧
      (∀ a b : Nat, cnt t b a = cnt exGraphW a b) ∧
      (∀ i : Nat, ∀ e ∈ t.adj i, e.weight = 0) :=
  graphBuildTranspose_spec exGraphW (by decide)

/-! ### C1: breadth-first search -/

/-- Appending one more edge to a walk. -/
theorem isWalk_append_edge (g : Graph) :
    ∀ (es : List AdjNode) (s u : Nat) (e : AdjNode),
      isWalk g s es u → e ∈ g.adj u → isWalk g s (es ++ [e]) e.target := by
  intro es
  induction es with
  | nil =>
    intro s u e h he
    rw [h] at he
    exact ⟨he, rfl⟩
  | cons a as ih =>
    intro s u e h he
    obtain ⟨ha, hw⟩ := h
    exact ⟨ha, ih _ _ _ hw he⟩

/-- Every adjacency record of any slot occurs in the flattened store. -/
theorem adj_mem_flatten (g : Graph) (i : Nat) (e : AdjNode)
    (he : e ∈ g.adj i) : e ∈ g.list.flatten := by
  unfold Graph.adj at he
  by_cases h : i < g.list.length
  · rw [List.getD_eq_getElem g.list [] h] at he
    exact List.mem_flatten.mpr ⟨g.list[i], List.getElem_mem h, he⟩
  · rw [List.getD_eq_default g.list [] (Nat.le_of_not_lt h)] at he
    exact absurd he (List.not_mem_nil e)

/-- Filtering by a disjunction of disjoint predicates adds the counts. -/
theorem length_filter_or {α : Type} (p q : α → Bool) :
    ∀ l : List α, (∀ x ∈ l, ¬(p x = true ∧ q x = true)) →
      (l.filter (fun x => p x || q x)).length =
        (l.filter p).length + (l.filter q).length := by
  intro l
  induction l with
  | nil => intro _; simp
  | cons a l ih =>
    intro hd
    have hrec := ih (fun x hx => hd x (List.mem_cons_of_mem a hx))
    have hda := hd a (List.mem_cons_self a l)
    cases hp : p a with
    | true =>
      have hq : q a = false := by
        cases hq : q a with
        | true => exact absurd ⟨hp, hq⟩ hda
        | false => rfl
      simp [List.filter_cons, hp, hq, hrec]
      omega
    | false =>
      cases hq : q a with
      | true => simp [List.filter_cons, hp, hq, hrec]; omega
      | false => simp [List.filter_cons, hp, hq, hrec]

/-- What one edge scan does: it appends the previously unseen targets to the
queue, records exactly those at the given depth and predecessor, leaves all
other bindings untouched, and leaves every scanned target seen. -/
theorem bfsScan_spec (depth pred : Int) (es : List AdjNode) :
    ∀ (q0 : List Nat) (seen0 : HMap),
      ∃ new : List Nat,
        (bfsScan depth pred es q0 seen0).1 = q0 ++ new ∧
        new.Nodup ∧
        (∀ v ∈ new, (hmFind seen0 v).isSome = false ∧
          v ∈ es.map (fun e => e.target)) ∧
        (∀ v, hmFind (bfsScan depth pred es q0 seen0).2 v =
          if v ∈ new then some ⟨depth, pred⟩ else hmFind seen0 v) ∧
        (∀ e ∈ es, (hmFind (bfsScan depth pred es q0 seen0).2 e.target).isSome = true) := by
  induction es with
  | nil =>
    intro q0 seen0
    exact ⟨[], by simp [bfsScan], by simp, by simp, by simp [bfsScan], by simp⟩
  | cons e es ih =>
    intro q0 seen0
    cases h : (hmFind seen0 e.target).isSome with
    | true =>
      have hstep : bfsScan depth pred (e :: es) q0 seen0 =
          bfsScan depth pred es q0 seen0 := by
        simp [bfsScan, h]
      obtain ⟨new, h1, h2, h3, h4, h5⟩ := ih q0 seen0
      refine ⟨new, ?_, h2, ?_, ?_, ?_⟩
      · rw [hstep]; exact h1
      · intro v hv
        obtain ⟨hu, hm⟩ := h3 v hv
        exact ⟨hu, by simp only [List.map_cons, List.mem_cons]; exact Or.inr hm⟩
      · intro v; rw [hstep]; exact h4 v
      · intro e' he'
        rcases List.mem_cons.mp he' with rfl | he'
        · rw [hstep, h4 e'.target]
          by_cases hm : e'.target ∈ new
          · simp [hm]
          · simp [hm, h]
        · rw [hstep]; exact h5 e' he'
    | false =>
      have hstep : bfsScan depth pred (e :: es) q0 seen0 =
          bfsScan depth pred es (q0 ++ [e.target])
            (hmInsert seen0 e.target ⟨depth, pred⟩) := by
        simp [bfsScan, h]
      obtain ⟨new, h1, h2, h3, h4, h5⟩ :=
        ih (q0 ++ [e.target]) (hmInsert seen0 e.target ⟨depth, pred⟩)
      refine ⟨e.target :: new, ?_, ?_, ?_, ?_, ?_⟩
      · rw [hstep, h1]; simp
      · refine List.Nodup.cons ?_ h2
        intro hmem
        have hx := (h3 e.target hmem).1
        rw [hmFind_insert, if_pos rfl] at hx
        simp at hx
      · intro v hv
        rcases List.mem_cons.mp hv with rfl | hv
        · exact ⟨h, by simp⟩
        · obtain ⟨hu, hm⟩ := h3 v hv
          rw [hmFind_insert] at hu
          refine ⟨?_, by simp only [List.map_cons, List.mem_cons]; exact Or.inr hm⟩
          by_cases hveq : v = e.target
          · rw [if_pos hveq] at hu; simp at hu
          · rw [if_neg hveq] at hu; exact hu
      · intro v
        rw [hstep, h4 v]
        by_cases hm1 : v ∈ new
        · simp [hm1]
        · rw [if_neg hm1, hmFind_insert]
          by_cases hveq : v = e.target
          · rw [if_pos hveq, if_pos (by simp [hveq])]
          · rw [if_neg hveq, if_neg (by simp [hveq, hm1])]
      · intro e' he'
        rcases List.mem_cons.mp he' with rfl | he'
        · rw [hstep, h4 e'.target]
          by_cases hm : e'.target ∈ new
          · simp [hm]
          · rw [if_neg hm, hmFind_insert, if_pos rfl]; rfl
        · rw [hstep]; exact h5 e' he'

/-- The BFS loop invariant is preserved by every iteration, and the fuel
`|queue| + |unseen candidates| + 1` is enough to drain the queue: each
enqueue consumes a distinct previously unseen candidate target. -/
theorem bfsLoop_inv (g : Graph) (s : Nat) :
    ∀ (f : Nat) (q : List Nat) (seen : HMap) (log : List Nat),
      BfsInv g s q seen log →
      q.length + bfsUnseen g seen + 1 ≤ f →
      BfsInv g s [] (bfsLoop g f q seen log).1 (bfsLoop g f q seen log).2 := by
  intro f
  induction f with
  | zero => intro q seen log _ hf; omega
  | succ f ih =>
    intro q seen log hinv hf
    cases q with
    | nil =>
      simp only [bfsLoop]
      exact hinv
    | cons c q =>
      obtain ⟨I1, I2, I3, I4, I5, I6, I7, I8⟩ := hinv
      obtain ⟨nc, hnc⟩ := Option.isSome_iff_exists.mp (I1 c (List.mem_cons_self c q))
      have hdc : bfsDepth seen c = nc.value := by simp [bfsDepth, hnc]
      obtain ⟨new, hq1, hnodup, hunseen, hfind, hall⟩ :=
        bfsScan_spec (bfsDepth seen c + 1) (Int.ofNat c) (g.adj c) q seen
      have hstep : bfsLoop g (f + 1) (c :: q) seen log =
          bfsLoop g f (bfsScan (bfsDepth seen c + 1) (Int.ofNat c) (g.adj c) q seen).1
            (bfsScan (bfsDepth seen c + 1) (Int.ofNat c) (g.adj c) q seen).2
            (log ++ [c]) := rfl
      set seen' := (bfsScan (bfsDepth seen c + 1) (Int.ofNat c) (g.adj c) q seen).2 with hseen'
      have hpres : ∀ v n, hmFind seen v = some n → hmFind seen' v = some n := by
        intro v n h
        rw [hfind v, if_neg]
        · exact h
        · intro hm
          have hx := (hunseen v hm).1
          rw [h] at hx
          simp at hx
      have hnew : ∀ v ∈ new, hmFind seen' v =
          some ⟨bfsDepth seen c + 1, Int.ofNat c⟩ := by
        intro v hm
        rw [hfind v, if_pos hm]
      have hcases : ∀ v n, hmFind seen' v = some n →
          hmFind seen v = some n ∨
            (v ∈ new ∧ n = ⟨bfsDepth seen c + 1, Int.ofNat c⟩) := by
        intro v n h
        rw [hfind v] at h
        by_cases hm : v ∈ new
        · rw [if_pos hm] at h
          exact Or.inr ⟨hm, (Option.some_inj.mp h).symm⟩
        · rw [if_neg hm] at h
          exact Or.inl h
      have hdepth' : ∀ v n, hmFind seen v = some n →
          bfsDepth seen' v = bfsDepth seen v := by
        intro v n h
        simp [bfsDepth, hpres v n h, h]
      have hdnew : ∀ v ∈ new, bfsDepth seen' v = bfsDepth seen c + 1 := by
        intro v hm
        simp [bfsDepth, hnew v hm]
      rw [List.map_cons, List.pairwise_cons] at I3
      obtain ⟨hhead, htail⟩ := I3
      have hqseen : ∀ u ∈ q, ∃ nu, hmFind seen u = some nu := fun u hu =>
        Option.isSome_iff_exists.mp (I1 u (List.mem_cons_of_mem c hu))
      have hle_c : ∀ v n, hmFind seen v = some n → n.value ≤ bfsDepth seen c + 1 :=
        fun v n h => I4 v n h c (List.mem_cons_self c q)
      have hcu : ∀ u ∈ q, bfsDepth seen c ≤ bfsDepth seen u ∧
          bfsDepth seen u ≤ bfsDepth seen c + 1 :=
        fun u hu => hhead _ (List.mem_map_of_mem _ hu)
      have hmapq : q.map (bfsDepth seen') = q.map (bfsDepth seen) := by
        apply List.map_congr_left
        intro u hu
        obtain ⟨nu, hnu⟩ := hqseen u hu
        exact hdepth' u nu hnu
      rw [hstep]
      refine ih _ _ _ ?_ ?_
      · rw [hq1]
        refine ⟨?_, ?_, ?_, ?_, ?_, ?_, ?_, ?_⟩
        · intro v hv
          rcases List.mem_append.mp hv with hv | hv
          · obtain ⟨nv, hnv⟩ := hqseen v hv
            rw [hpres v nv hnv]; rfl
          · rw [hnew v hv]; rfl
        · intro v n h
          rcases hcases v n h with h0 | ⟨hm, hneq⟩
          · exact I2 v n h0
          · have hnv : n.value = bfsDepth seen c + 1 := by rw [hneq]
            obtain ⟨es, hw, hlen⟩ := I2 c nc hnc
            obtain ⟨e, he, het⟩ := List.mem_map.mp (hunseen v hm).2
            refine ⟨es ++ [e], ?_, ?_⟩
            · rw [← het]
              exact isWalk_append_edge g es s c e hw he
            · rw [hnv, hdc]
              push_cast [List.length_append, List.length_cons, List.length_nil]
              omega
        · rw [List.map_append, hmapq]
          apply List.pairwise_append.mpr
          refine ⟨htail, ?_, ?_⟩
          · apply List.pairwise_of_forall_mem_list
            intro x hx y hy
            obtain ⟨a, ha, rfl⟩ := List.mem_map.mp hx
            obtain ⟨b, hb, rfl⟩ := List.mem_map.mp hy
            rw [hdnew a ha, hdnew b hb]
            exact ⟨le_refl _, by omega⟩
          · intro x hx y hy
            obtain ⟨b, hb, rfl⟩ := List.mem_map.mp hy
            rw [hdnew b hb]
            obtain ⟨hx1, hx2⟩ := hhead x hx
            exact ⟨by omega, by omega⟩
        · intro v n h u hu
          rcases List.mem_append.mp hu with hu | hu
          · obtain ⟨nu, hnu⟩ := hqseen u hu
            rw [hdepth' u nu hnu]
            rcases hcases v n h with h0 | ⟨hm, hneq⟩
            · exact I4 v n h0 u (List.mem_cons_of_mem c hu)
            · have hnv : n.value = bfsDepth seen c + 1 := by rw [hneq]
              have h1 := (hcu u hu).1
              omega
          · rw [hdnew u hu]
            rcases hcases v n h with h0 | ⟨hm, hneq⟩
            · have := hle_c v n h0
              omega
            · have hnv : n.value = bfsDepth seen c + 1 := by rw [hneq]
              omega
        · intro v n h
          rcases hcases v n h with h0 | ⟨hm, hneq⟩
          · by_cases hvc : v = c
            · have hn : n = nc := by
                rw [hvc, hnc] at h0
                exact (Option.some_inj.mp h0).symm
              refine Or.inr ?_
              rw [hvc]
              intro e he
              obtain ⟨n2, hn2⟩ := Option.isSome_iff_exists.mp (hall e he)
              refine ⟨n2, hn2, ?_⟩
              rw [hn]
              rcases hcases e.target n2 hn2 with h2 | ⟨_, hneq2⟩
              · have := hle_c e.target n2 h2
                omega
              · have hnv2 : n2.value = bfsDepth seen c + 1 := by rw [hneq2]
                omega
            · rcases I5 v n h0 with hq | hcl
              · rcases List.mem_cons.mp hq with rfl | hq
                · exact absurd rfl hvc
                · exact Or.inl (List.mem_append_left _ hq)
              · refine Or.inr ?_
                intro e he
                obtain ⟨n2, hn2, hb⟩ := hcl e he
                exact ⟨n2, hpres _ _ hn2, hb⟩
          · exact Or.inl (List.mem_append_right _ hm)
        · have hgoal : ((log ++ [c]) ++ (q ++ new)) = (log ++ c :: q) ++ new := by
            simp [List.append_assoc]
          rw [hgoal, List.nodup_append]
          refine ⟨I6, hnodup, ?_⟩
          intro a ha hanew
          have h1 : (hmFind seen a).isSome = true := (I7 a).mpr (by
            rcases List.mem_append.mp ha with h | h
            · exact Or.inl h
            · exact Or.inr h)
          have h2 := (hunseen a hanew).1
          rw [h1] at h2
          simp at h2
        · intro v
          constructor
          · intro hvs
            obtain ⟨n, hn⟩ := Option.isSome_iff_exists.mp hvs
            rcases hcases v n hn with h0 | ⟨hm, _⟩
            · rcases (I7 v).mp (by rw [h0]; rfl) with h | h
              · exact Or.inl (List.mem_append_left _ h)
              · rcases List.mem_cons.mp h with rfl | h
                · exact Or.inl (List.mem_append_right _ (List.mem_singleton.mpr rfl))
                · exact Or.inr (List.mem_append_left _ h)
            · exact Or.inr (List.mem_append_right _ hm)
          · intro hv
            rcases hv with hv | hv
            · rcases List.mem_append.mp hv with h | h
              · obtain ⟨n, hn⟩ := Option.isSome_iff_exists.mp ((I7 v).mpr (Or.inl h))
                rw [hpres v n hn]; rfl
              · have hvc : v = c := List.mem_singleton.mp h
                subst hvc
                rw [hpres v nc hnc]; rfl
            · rcases List.mem_append.mp hv with h | h
              · obtain ⟨nv, hnv⟩ := hqseen v h
                rw [hpres v nv hnv]; rfl
              · rw [hnew v h]; rfl
        · obtain ⟨n0, h0, hv0⟩ := I8
          exact ⟨n0, hpres s n0 h0, hv0⟩
      · rw [hq1, List.length_append]
        have hsub : new ⊆ bfsCands g := by
          intro v hv
          obtain ⟨e, he, het⟩ := List.mem_map.mp (hunseen v hv).2
          rw [← het]
          exact List.mem_dedup.mpr (List.mem_map.mpr ⟨e, adj_mem_flatten g c e he, rfl⟩)
        have hpt : ∀ x ∈ bfsCands g,
            (!(hmFind seen x).isSome) =
              ((!(hmFind seen' x).isSome) || decide (x ∈ new)) := by
          intro x hx
          by_cases hm : x ∈ new
          · have h1 := (hunseen x hm).1
            have h2 := hnew x hm
            simp [h1, h2, hm]
          · have h2 : hmFind seen' x = hmFind seen x := by rw [hfind x, if_neg hm]
            simp [h2, hm]
        have hsplit : ((bfsCands g).filter (fun t => !(hmFind seen t).isSome)).length =
            ((bfsCands g).filter (fun t => !(hmFind seen' t).isSome)).length +
              ((bfsCands g).filter (fun t => decide (t ∈ new))).length := by
          rw [List.filter_congr hpt]
          apply length_filter_or
          rintro x hx ⟨h1, h2⟩
          have hx2 := hnew x (of_decide_eq_true h2)
          rw [hx2] at h1
          simp at h1
        have hnewle : new.length ≤
            ((bfsCands g).filter (fun t => decide (t ∈ new))).length := by
          have hsubf : new ⊆ (bfsCands g).filter (fun t => decide (t ∈ new)) := by
            intro v hv
            exact List.mem_filter.mpr ⟨hsub hv, by simp [hv]⟩
          exact (List.subperm_of_subset hnodup hsubf).length_le
        have hflen : (c :: q).length + bfsUnseen g seen + 1 ≤ f + 1 := hf
        unfold bfsUnseen at hflen ⊢
        rw [List.length_cons] at hflen
        omega

/-- **C1.** For every graph and every source vertex, the map returned by
`breadthFirstSearch` contains an entry exactly for the vertices reachable
from the source; the recorded depth of each entry is the length of some walk
from the source and is at most the length of every walk from the source
(i.e. it equals the shortest-path edge count); and the visit (dequeue) order
lists every reachable vertex exactly once. -/
theorem breadthFirstSearch_spec (g : Graph) (s : Vertex) :
    (∀ v : Nat, (hmFind (breadthFirstSearch g s) v).isSome = true ↔
      Reachable g s.id v) ∧
    (∀ v n, hmFind (breadthFirstSearch g s) v = some n →
      (∃ es, isWalk g s.id es v ∧ (n.value : Int) = es.length) ∧
      (∀ es, isWalk g s.id es v → n.value ≤ (es.length : Int))) ∧
    (bfsVisitOrder g s).Nodup ∧
    (∀ v : Nat, v ∈ bfsVisitOrder g s ↔ Reachable g s.id v) := by
  have hfind0 : ∀ v, hmFind (hmInsert hmEmpty s.id ⟨0, -1⟩) v =
      if s.id = v then some ⟨0, -1⟩ else none := by
    intro v; rfl
  have hbd0 : bfsDepth (hmInsert hmEmpty s.id ⟨0, -1⟩) s.id = 0 := by
    simp [bfsDepth, hfind0]
  have hinv0 : BfsInv g s.id [s.id] (hmInsert hmEmpty s.id ⟨0, -1⟩) [] := by
    refine ⟨?_, ?_, ?_, ?_, ?_, ?_, ?_, ?_⟩
    · intro v hv
      rw [List.mem_singleton.mp hv, hfind0, if_pos rfl]
      rfl
    · intro v n h
      rw [hfind0 v] at h
      by_cases hv : s.id = v
      · rw [if_pos hv] at h
        have hn : n = ⟨0, -1⟩ := (Option.some_inj.mp h).symm
        exact ⟨[], hv.symm, by rw [hn]; rfl⟩
      · rw [if_neg hv] at h
        exact absurd h (by simp)
    · simp
    · intro v n h u hu
      rw [hfind0 v] at h
      by_cases hv : s.id = v
      · rw [if_pos hv] at h
        have hn : n = ⟨0, -1⟩ := (Option.some_inj.mp h).symm
        rw [List.mem_singleton.mp hu, hbd0, hn]
        decide
      · rw [if_neg hv] at h
        exact absurd h (by simp)
    · intro v n h
      rw [hfind0 v] at h
      by_cases hv : s.id = v
      · exact Or.inl (List.mem_singleton.mpr hv.symm)
      · rw [if_neg hv] at h
        exact absurd h (by simp)
    · simp
    · intro v
      rw [hfind0 v]
      by_cases hv : s.id = v
      · rw [if_pos hv]
        simp [hv.symm]
      · rw [if_neg hv]
        simp
        exact fun h => hv h.symm
    · exact ⟨⟨0, -1⟩, by rw [hfind0, if_pos rfl], rfl⟩
  have hfuel : [s.id].length + bfsUnseen g (hmInsert hmEmpty s.id ⟨0, -1⟩) + 1 ≤
      bfsBound g := by
    have hU : bfsUnseen g (hmInsert hmEmpty s.id ⟨0, -1⟩) ≤ (bfsCands g).length :=
      List.length_filter_le _ _
    have hB : bfsBound g = (bfsCands g).length + 2 := rfl
    rw [hB, List.length_singleton]
    omega
  have hI := bfsLoop_inv g s.id (bfsBound g) [s.id]
    (hmInsert hmEmpty s.id ⟨0, -1⟩) [] hinv0 hfuel
  set R := bfsLoop g (bfsBound g) [s.id] (hmInsert hmEmpty s.id ⟨0, -1⟩) [] with hR
  obtain ⟨F1, F2, F3, F4, F5, F6, F7, F8⟩ := hI
  have hopt : ∀ (es : List AdjNode) (u v : Nat), isWalk g u es v →
      ∀ nu, hmFind R.1 u = some nu →
        ∃ nv, hmFind R.1 v = some nv ∧ nv.value ≤ nu.value + es.length := by
    intro es
    induction es with
    | nil =>
      intro u v hw nu hnu
      rw [hw]
      exact ⟨nu, hnu, by simp⟩
    | cons e es ih =>
      intro u v hw nu hnu
      obtain ⟨he, hw'⟩ := hw
      rcases F5 u nu hnu with hq | hcl
      · exact absurd hq (List.not_mem_nil u)
      · obtain ⟨n2, hn2, hb⟩ := hcl e he
        obtain ⟨nv, hnv, hbv⟩ := ih e.target v hw' n2 hn2
        refine ⟨nv, hnv, ?_⟩
        push_cast [List.length_cons]
        omega
  have hbfs : breadthFirstSearch g s = R.1 := rfl
  have hvo : bfsVisitOrder g s = R.2 := rfl
  rw [hbfs, hvo]
  refine ⟨?_, ?_, ?_, ?_⟩
  · intro v
    constructor
    · intro h
      obtain ⟨n, hn⟩ := Option.isSome_iff_exists.mp h
      obtain ⟨es, hw, _⟩ := F2 v n hn
      exact ⟨es, hw⟩
    · rintro ⟨es, hw⟩
      obtain ⟨n0, h0, _⟩ := F8
      obtain ⟨nv, hnv, _⟩ := hopt es s.id v hw n0 h0
      rw [hnv]
      rfl
  · intro v n hn
    refine ⟨F2 v n hn, ?_⟩
    intro es hw
    obtain ⟨n0, h0, hv0⟩ := F8
    obtain ⟨nv, hnv, hbv⟩ := hopt es s.id v hw n0 h0
    have hx : n = nv := by
      rw [hn] at hnv
      exact Option.some_inj.mp hnv
    have hnv' : n.value = nv.value := by rw [hx]
    omega
  · simpa using F6
  · intro v
    constructor
    · intro h
      have hs := (F7 v).mpr (Or.inl h)
      obtain ⟨n, hn⟩ := Option.isSome_iff_exists.mp hs
      obtain ⟨es, hw, _⟩ := F2 v n hn
      exact ⟨es, hw⟩
    · rintro ⟨es, hw⟩
      obtain ⟨n0, h0, _⟩ := F8
      obtain ⟨nv, hnv, _⟩ := hopt es s.id v hw n0 h0
      rcases (F7 v).mp (by rw [hnv]; rfl) with h | h
      · exact h
      · exact absurd h (List.not_mem_nil v)

/-! ### C4: topological sort -/

theorem foldl_add_length (L : List (List AdjNode)) :
    ∀ a : Nat, L.foldl (fun a l => a + l.length) a = a + (L.map List.length).sum := by
  induction L with
  | nil => intro a; simp
  | cons s L ih =>
    intro a
    simp only [List.foldl_cons, List.map_cons, List.sum_cons, ih]
    omega

theorem totalAdj_eq (g : Graph) : totalAdj g = (g.list.map List.length).sum := by
  unfold totalAdj
  rw [foldl_add_length]
  omega

theorem sum_getD_range (S : List (List AdjNode)) :
    ((Finset.range S.length).sum fun i => (S.getD i []).length) =
      (S.map List.length).sum := by
  induction S with
  | nil => simp
  | cons s S ih =>
    rw [List.length_cons, Finset.sum_range_succ']
    simp only [List.getD_cons_succ, List.getD_cons_zero, List.map_cons, List.sum_cons]
    omega

theorem sum_map_nodup_le (S : List (List AdjNode)) (l : List Nat) (hn : l.Nodup) :
    (l.map (fun v => (S.getD v []).length)).sum ≤ (S.map List.length).sum := by
  have h1 : (l.map (fun v => (S.getD v []).length)).sum =
      l.toFinset.sum (fun v => (S.getD v []).length) :=
    (List.sum_toFinset _ hn).symm
  rw [h1, ← Finset.sum_filter_add_sum_filter_not l.toFinset (fun v => v < S.length)]
  have h2 : (l.toFinset.filter (fun v => ¬ v < S.length)).sum
      (fun v => (S.getD v []).length) = 0 := by
    apply Finset.sum_eq_zero
    intro v hv
    rw [List.getD_eq_default]
    · rfl
    · exact Nat.le_of_not_lt (Finset.mem_filter.mp hv).2
  rw [h2, Nat.add_zero, ← sum_getD_range S]
  apply Finset.sum_le_sum_of_subset
  intro v hv
  exact Finset.mem_range.mpr (Finset.mem_filter.mp hv).2

theorem sum_filter_mono (w : Nat → Nat) (p q : Nat → Bool) :
    ∀ l : List Nat, (∀ v ∈ l, q v = true → p v = true) →
      ((l.filter q).map w).sum ≤ ((l.filter p).map w).sum := by
  intro l
  induction l with
  | nil => intro _; simp
  | cons a l ih =>
    intro h
    have hrec := ih (fun v hv => h v (List.mem_cons_of_mem a hv))
    cases hq : q a with
    | true =>
      have hp := h a (List.mem_cons_self a l) hq
      simp [List.filter_cons, hq, hp]
      omega
    | false =>
      cases hp : p a with
      | true =>
        simp [List.filter_cons, hq, hp]
        omega
      | false =>
        simp [List.filter_cons, hq, hp]
        exact hrec

theorem sum_filter_drop (w : Nat → Nat) (p q : Nat → Bool) (t : Nat) :
    ∀ l : List Nat, t ∈ l → p t = true → q t = false →
      (∀ v, v ≠ t → q v = p v) →
      ((l.filter q).map w).sum + w t ≤ ((l.filter p).map w).sum := by
  intro l
  induction l with
  | nil => intro ht; exact absurd ht (List.not_mem_nil t)
  | cons a l ih =>
    intro ht hp hq hpt
    by_cases hat : a = t
    · rw [hat]
      simp [List.filter_cons, hq, hp]
      have hmono : ((l.filter q).map w).sum ≤ ((l.filter p).map w).sum := by
        apply sum_filter_mono
        intro v _ hqv
        by_cases hvt : v = t
        · rw [hvt] at hqv; rw [hqv] at hq; exact absurd hq (by simp)
        · rw [← hpt v hvt]; exact hqv
      omega
    · have ht' : t ∈ l := by
        rcases List.mem_cons.mp ht with h | h
        · exact absurd h.symm hat
        · exact h
      have hrec := ih ht' hp hq hpt
      have haq : q a = p a := hpt a hat
      cases hpa : p a with
      | true =>
        simp [List.filter_cons, haq, hpa]
        omega
      | false =>
        simp [List.filter_cons, haq, hpa]
        exact hrec

theorem sum_map_one_add (h : Nat → Nat) :
    ∀ l : List Nat, (l.map (fun v => 1 + h v)).sum = l.length + (l.map h).sum := by
  intro l
  induction l with
  | nil => simp
  | cons a l ih => simp [ih]; omega

/-- Adjacency lists read off distinct ids (what `allIds` provides) jointly
never exceed the total adjacency size. -/
theorem sum_adj_nodup_le (g : Graph) (l : List Nat) (hn : l.Nodup) :
    (l.map (fun v => (g.adj v).length)).sum ≤ totalAdj g := by
  rw [totalAdj_eq]
  have : (fun v => (g.adj v).length) = (fun v => (g.list.getD v []).length) := rfl
  rw [this]
  exact sum_map_nodup_le g.list l hn

theorem length_allIds_le (g : Graph) :
    (allIds g).length ≤ g.vertexHead.length + totalAdj g := by
  unfold allIds
  have h1 := List.Sublist.length_le (List.dedup_sublist
    (vertexIds g ++ g.list.flatten.map (fun e => e.target)))
  rw [List.length_append, List.length_map] at h1
  have h2 : g.list.flatten.length = totalAdj g := by
    rw [totalAdj_eq]
    simp [List.length_flatten]
  have h3 : (vertexIds g).length = g.vertexHead.length := by
    unfold vertexIds
    rw [List.length_map]
  omega

/-- The global fuel bound: any visit of any root with any discovery map fits
inside `dfsFuel`. -/
theorem parSlack_fuel (g : Graph) (par : HMap) (r : Nat) :
    (g.adj r).length + parSlack g par + 1 ≤ dfsFuel g := by
  have h1 : parSlack g par ≤ ((allIds g).map (fun v => 1 + (g.adj v).length)).sum := by
    unfold parSlack
    have hfil := sum_filter_mono (fun v => 1 + (g.adj v).length)
      (fun _ => true) (fun v => !(hmFind par v).isSome) (allIds g)
      (fun v _ _ => rfl)
    rw [List.filter_true] at hfil
    exact hfil
  have h2 : ((allIds g).map (fun v => 1 + (g.adj v).length)).sum =
      (allIds g).length + ((allIds g).map (fun v => (g.adj v).length)).sum :=
    sum_map_one_add _ (allIds g)
  have h3 := sum_adj_nodup_le g (allIds g) (List.nodup_dedup _)
  have h4 := length_allIds_le g
  have h5 : (g.adj r).length ≤ totalAdj g := by
    have := sum_adj_nodup_le g [r] (List.nodup_singleton r)
    simpa using this
  unfold dfsFuel
  omega

/-- Discovering an undiscovered id strictly shrinks the DFS slack by its
full cost. -/
theorem parSlack_insert (g : Graph) (par : HMap) (t : Nat) (n : HNode)
    (hmem : t ∈ allIds g) (hun : (hmFind par t).isSome = false) :
    parSlack g (hmInsert par t n) + 1 + (g.adj t).length ≤ parSlack g par := by
  unfold parSlack
  have hdrop := sum_filter_drop (fun v => 1 + (g.adj v).length)
    (fun v => !(hmFind par v).isSome)
    (fun v => !(hmFind (hmInsert par t n) v).isSome) t (allIds g) hmem
    (by
      show (!(hmFind par t).isSome) = true
      rw [hun]
      rfl)
    (by
      show (!(hmFind (hmInsert par t n) t).isSome) = false
      rw [hmFind_insert, if_pos rfl]
      rfl)
    (by
      intro v hvt
      show (!(hmFind (hmInsert par t n) v).isSome) = (!(hmFind par v).isSome)
      rw [hmFind_insert, if_neg hvt])
  have hbeta : (fun v => 1 + (g.adj v).length) t = 1 + (g.adj t).length := rfl
  rw [hbeta] at hdrop
  omega

/-- Monotone growth of the discovery map can only shrink the slack. -/
theorem parSlack_mono (g : Graph) (par par' : HMap)
    (h : ∀ v n, hmFind par v = some n → hmFind par' v = some n) :
    parSlack g par' ≤ parSlack g par := by
  unfold parSlack
  apply sum_filter_mono
  intro v _ hq
  show (!(hmFind par v).isSome) = true
  have hq' : (!(hmFind par' v).isSome) = true := hq
  cases hfp : hmFind par v with
  | none => rfl
  | some n =>
    rw [h v n hfp] at hq'
    simp at hq'

/-- Under well-formedness every edge record's target is a graph vertex. -/
theorem WF_adj_target (g : Graph) (hwf : WF g) (i : Nat) (e : AdjNode)
    (he : e ∈ g.adj i) : e.target ∈ vertexIds g := by
  obtain ⟨h1, _, _, _, _, h6, _⟩ := hwf
  by_cases hi : i < g.listSize
  · exact h6 i hi e he
  · unfold Graph.adj at he
    rw [List.getD_eq_default] at he
    · exact absurd he (List.not_mem_nil e)
    · omega

/-- Every edge record's target is a discoverable id. -/
theorem target_mem_allIds (g : Graph) (i : Nat) (e : AdjNode)
    (he : e ∈ g.adj i) : e.target ∈ allIds g := by
  unfold allIds
  apply List.mem_dedup.mpr
  apply List.mem_append_right
  exact List.mem_map.mpr ⟨e, adj_mem_flatten g i e he, rfl⟩

theorem tsVisit_succ_nil (g : Graph) (f u : Nat) (st : HMap × NArr × List Vertex) :
    tsVisit g (f + 1) u [] st = st := rfl

theorem tsVisit_succ_cons (g : Graph) (f u : Nat) (e : AdjNode) (es : List AdjNode)
    (par : HMap) (prog : NArr) (out : List Vertex) :
    tsVisit g (f + 1) u (e :: es) (par, prog, out) =
      (if (hmFind par e.target).isSome then tsVisit g f u es (par, prog, out)
       else
         let par1 := hmInsert par e.target ⟨Int.ofNat u, Int.ofNat u⟩
         let st2 := tsVisit g f e.target (g.adj e.target) (par1, naSet prog e.target 1, out)
         tsVisit g f u es
           (st2.1, naSet st2.2.1 e.target 0,
            Vertex.mk e.target (vertexValue g e.target) :: st2.2.2)) := rfl

/-- The main correctness induction for the topological-sort DFS visitor:
with enough fuel, a visit scans all its edges, leaves the stack flags as it
found them, only adds discoveries, and maintains `TsInv`. -/
theorem tsVisit_correct (g : Graph) (hwf : WF g) (hacyc : Acyclic g) :
    ∀ (f u : Nat) (es : List AdjNode) (par : HMap) (prog : NArr) (out : List Vertex),
      (∀ e ∈ es, e ∈ g.adj u) →
      es.length + parSlack g par + 1 ≤ f →
      naGet prog u = 1 →
      (∀ v, naGet prog v = 1 → ∃ cs, isWalk g v cs u) →
      TsInv g par prog out →
      (∀ v, naGet (tsVisit g f u es (par, prog, out)).2.1 v = naGet prog v) ∧
      (∀ v n, hmFind par v = some n →
        hmFind (tsVisit g f u es (par, prog, out)).1 v = some n) ∧
      (∀ e ∈ es, (hmFind (tsVisit g f u es (par, prog, out)).1 e.target).isSome = true) ∧
      (∃ pre, (tsVisit g f u es (par, prog, out)).2.2 = pre ++ out) ∧
      TsInv g (tsVisit g f u es (par, prog, out)).1
        (tsVisit g f u es (par, prog, out)).2.1
        (tsVisit g f u es (par, prog, out)).2.2 := by
  intro f
  induction f with
  | zero =>
    intro u es par prog out hes hf hu hchain hinv
    omega
  | succ f ih =>
    intro u es par prog out hes hf hu hchain hinv
    obtain ⟨T1, T2, T3, T4, T5, T6, T7⟩ := hinv
    cases es with
    | nil =>
      rw [tsVisit_succ_nil]
      exact ⟨fun v => rfl, fun v n h => h,
        fun e he => absurd he (List.not_mem_nil e),
        ⟨[], rfl⟩, T1, T2, T3, T4, T5, T6, T7⟩
    | cons e es =>
      by_cases hseen : (hmFind par e.target).isSome = true
      · have hstep : tsVisit g (f + 1) u (e :: es) (par, prog, out) =
            tsVisit g f u es (par, prog, out) := by
          rw [tsVisit_succ_cons, if_pos hseen]
        rw [hstep]
        have hres := ih u es par prog out
          (fun e' he' => hes e' (List.mem_cons_of_mem e he'))
          (by rw [List.length_cons] at hf; omega) hu hchain
          ⟨T1, T2, T3, T4, T5, T6, T7⟩
        obtain ⟨P1, P2, P3, P4, P5⟩ := hres
        refine ⟨P1, P2, ?_, P4, P5⟩
        intro e' he'
        rcases List.mem_cons.mp he' with rfl | he'
        · obtain ⟨n, hn⟩ := Option.isSome_iff_exists.mp hseen
          rw [P2 e'.target n hn]
          rfl
        · exact P3 e' he'
      · have hseen' : (hmFind par e.target).isSome = false := by
          cases h2 : (hmFind par e.target).isSome
          · rfl
          · exact absurd h2 hseen
        have headj : e ∈ g.adj u := hes e (List.mem_cons_self e es)
        have htall : e.target ∈ allIds g := target_mem_allIds g u e headj
        have htu : e.target ≠ u := by
          intro h
          exact hacyc u [e] (by simp) ⟨headj, h.symm⟩
        have hprogt0 : naGet prog e.target = 0 := by
          rcases T3 e.target with h | h
          · exact h
          · exfalso
            have hx := (T1 e.target).mpr (Or.inl h)
            rw [hseen'] at hx
            simp at hx
        set par1 := hmInsert par e.target ⟨Int.ofNat u, Int.ofNat u⟩ with hpar1
        set prog1 := naSet prog e.target 1 with hprog1
        set st2 := tsVisit g f e.target (g.adj e.target) (par1, prog1, out) with hst2
        have hstep : tsVisit g (f + 1) u (e :: es) (par, prog, out) =
            tsVisit g f u es
              (st2.1, naSet st2.2.1 e.target 0,
               Vertex.mk e.target (vertexValue g e.target) :: st2.2.2) := by
          rw [tsVisit_succ_cons, if_neg (by rw [hseen']; simp)]
        have hins := parSlack_insert g par e.target ⟨Int.ofNat u, Int.ofNat u⟩ htall hseen'
        rw [← hpar1] at hins
        have hprog1t : naGet prog1 e.target = 1 := by
          rw [hprog1, naGet_set, if_pos rfl]
        have hchain_t : ∀ v, naGet prog1 v = 1 → ∃ cs, isWalk g v cs e.target := by
          intro v hv
          by_cases hvt : v = e.target
          · exact ⟨[], hvt.symm⟩
          · rw [hprog1, naGet_set, if_neg hvt] at hv
            obtain ⟨cs, hcs⟩ := hchain v hv
            exact ⟨cs ++ [e], isWalk_append_edge g cs v u e hcs headj⟩
        have hinv1 : TsInv g par1 prog1 out := by
          refine ⟨?_, ?_, ?_, T4, T5, T6, ?_⟩
          · intro v
            by_cases hvt : v = e.target
            · constructor
              · intro _
                left
                rw [hvt, hprog1, naGet_set, if_pos rfl]
              · intro _
                rw [hvt, hpar1, hmFind_insert, if_pos rfl]
                rfl
            · have h1 : hmFind par1 v = hmFind par v := by
                rw [hpar1, hmFind_insert, if_neg hvt]
              have h2 : naGet prog1 v = naGet prog v := by
                rw [hprog1, naGet_set, if_neg hvt]
              rw [h1, h2]
              exact T1 v
          · intro v hv
            by_cases hvt : v = e.target
            · exfalso
              have hx := (T1 v).mpr (Or.inr hv)
              rw [hvt, hseen'] at hx
              simp at hx
            · rw [hprog1, naGet_set, if_neg hvt]
              exact T2 v hv
          · intro v
            by_cases hvt : v = e.target
            · right
              rw [hprog1, naGet_set, if_pos hvt]
            · rw [hprog1, naGet_set, if_neg hvt]
              exact T3 v
          · intro v hv
            by_cases hvt : v = e.target
            · rw [hvt]
              exact WF_adj_target g hwf u e headj
            · rw [hpar1, hmFind_insert, if_neg hvt] at hv
              exact T7 v hv
        have hfuel_dive : (g.adj e.target).length + parSlack g par1 + 1 ≤ f := by
          rw [List.length_cons] at hf
          omega
        have hdive := ih e.target (g.adj e.target) par1 prog1 out
          (fun e' he' => he') hfuel_dive hprog1t hchain_t hinv1
        obtain ⟨Q1, Q2, Q3, Q4, Q5⟩ := hdive
        rw [← hst2] at Q1 Q2 Q3 Q4 Q5
        obtain ⟨U1, U2, U3, U4, U5, U6, U7⟩ := Q5
        have hQ1t : naGet st2.2.1 e.target = 1 := (Q1 e.target).trans hprog1t
        have h_t_par1 : hmFind par1 e.target = some ⟨Int.ofNat u, Int.ofNat u⟩ := by
          rw [hpar1, hmFind_insert, if_pos rfl]
        have h_t_seen_st2 : (hmFind st2.1 e.target).isSome = true := by
          rw [Q2 e.target _ h_t_par1]
          rfl
        have hclosed : ∀ e' ∈ g.adj e.target, e'.target ∈ st2.2.2.map Vertex.id := by
          intro e' he'
          obtain ⟨n2, hn2⟩ := Option.isSome_iff_exists.mp (Q3 e' he')
          rcases (U1 e'.target).mp (by rw [hn2]; rfl) with hpr | hout
          · exfalso
            rw [Q1 e'.target] at hpr
            obtain ⟨cs, hcs⟩ := hchain_t e'.target hpr
            exact hacyc e.target (e' :: cs) (by simp) ⟨he', hcs⟩
          · exact hout
        have h_t_notin : e.target ∉ st2.2.2.map Vertex.id := by
          intro hmem
          exact (U2 e.target hmem) hQ1t
        have hprog3 : ∀ v, naGet (naSet st2.2.1 e.target 0) v =
            if v = e.target then 0 else naGet prog v := by
          intro v
          rw [naGet_set]
          by_cases hvt : v = e.target
          · rw [if_pos hvt, if_pos hvt]
          · rw [if_neg hvt, if_neg hvt, Q1 v, hprog1, naGet_set, if_neg hvt]
        have hu3 : naGet (naSet st2.2.1 e.target 0) u = 1 := by
          rw [hprog3, if_neg (fun h => htu h.symm)]
          exact hu
        have hchain3 : ∀ v, naGet (naSet st2.2.1 e.target 0) v = 1 →
            ∃ cs, isWalk g v cs u := by
          intro v hv
          rw [hprog3] at hv
          by_cases hvt : v = e.target
          · rw [if_pos hvt] at hv
            exact absurd hv (by simp)
          · rw [if_neg hvt] at hv
            exact hchain v hv
        have hfuel3 : es.length + parSlack g st2.1 + 1 ≤ f := by
          have hmono : parSlack g st2.1 ≤ parSlack g par1 := parSlack_mono g par1 st2.1 Q2
          rw [List.length_cons] at hf
          omega
        have hmem3 : ∀ v, v ≠ e.target →
            (v ∈ (Vertex.mk e.target (vertexValue g e.target) :: st2.2.2).map Vertex.id ↔
              v ∈ st2.2.2.map Vertex.id) := by
          intro v hvt
          simp only [List.map_cons, List.mem_cons]
          constructor
          · rintro (h | h)
            · exact absurd h hvt
            · exact h
          · exact fun h => Or.inr h
        have hinv3 : TsInv g st2.1 (naSet st2.2.1 e.target 0)
            (Vertex.mk e.target (vertexValue g e.target) :: st2.2.2) := by
          refine ⟨?_, ?_, ?_, ?_, ?_, ?_, U7⟩
          · intro v
            rw [hprog3]
            by_cases hvt : v = e.target
            · rw [if_pos hvt]
              constructor
              · intro _
                right
                rw [hvt]
                simp
              · intro _
                rw [hvt]
                exact h_t_seen_st2
            · rw [if_neg hvt, hmem3 v hvt]
              have hpv : naGet st2.2.1 v = naGet prog v := by
                rw [Q1 v, hprog1, naGet_set, if_neg hvt]
              rw [U1 v, hpv]
          · intro v hv
            rw [hprog3]
            by_cases hvt : v = e.target
            · rw [if_pos hvt]
              simp
            · rw [if_neg hvt]
              have hv' := (hmem3 v hvt).mp hv
              have hx := U2 v hv'
              rw [Q1 v, hprog1, naGet_set, if_neg hvt] at hx
              exact hx
          · intro v
            rw [hprog3]
            by_cases hvt : v = e.target
            · rw [if_pos hvt]
              exact Or.inl rfl
            · rw [if_neg hvt]
              exact T3 v
          · simp only [List.map_cons, List.nodup_cons]
            exact ⟨h_t_notin, U4⟩
          · intro l1 x l2 hsplit e' he'
            cases l1 with
            | nil =>
              simp only [List.nil_append] at hsplit
              injection hsplit with h1 h2
              rw [← h1] at he'
              rw [← h2]
              exact hclosed e' he'
            | cons y l1' =>
              simp only [List.cons_append] at hsplit
              injection hsplit with h1 h2
              exact U5 l1' x l2 h2 e' he'
          · intro x hx
            rcases List.mem_cons.mp hx with rfl | hx
            · rfl
            · exact U6 x hx
        have hres := ih u es st2.1 (naSet st2.2.1 e.target 0)
          (Vertex.mk e.target (vertexValue g e.target) :: st2.2.2)
          (fun e' he' => hes e' (List.mem_cons_of_mem e he'))
          hfuel3 hu3 hchain3 hinv3
        obtain ⟨P1, P2, P3, P4, P5⟩ := hres
        rw [hstep]
        refine ⟨?_, ?_, ?_, ?_, P5⟩
        · intro v
          rw [P1 v, hprog3 v]
          by_cases hvt : v = e.target
          · rw [if_pos hvt, hvt, hprogt0]
          · rw [if_neg hvt]
        · intro v n h
          have hvt : v ≠ e.target := by
            intro hh
            rw [hh] at h
            rw [h] at hseen'
            simp at hseen'
          have h1 : hmFind par1 v = some n := by
            rw [hpar1, hmFind_insert, if_neg hvt]
            exact h
          exact P2 v n (Q2 v n h1)
        · intro e' he'
          rcases List.mem_cons.mp he' with rfl | he'
          · rw [P2 e'.target _ (Q2 e'.target _ h_t_par1)]
            rfl
          · exact P3 e' he'
        · obtain ⟨pre3, hp3⟩ := P4
          obtain ⟨pre2, hp2⟩ := Q4
          refine ⟨pre3 ++ Vertex.mk e.target (vertexValue g e.target) :: pre2, ?_⟩
          rw [hp3, hp2]
          simp

/-- One outer iteration of `topologicalSort` preserves the invariant, keeps
all stack flags clear, only adds discoveries, and leaves the handled vertex
discovered. -/
theorem tsOuter_correct (g : Graph) (hwf : WF g) (hacyc : Acyclic g)
    (st : HMap × NArr × List Vertex) (v : Vertex) (hv : v ∈ g.vertexHead)
    (hinv : TsInv g st.1 st.2.1 st.2.2) (hzero : ∀ x, naGet st.2.1 x = 0) :
    TsInv g (tsOuter g st v).1 (tsOuter g st v).2.1 (tsOuter g st v).2.2 ∧
    (∀ x, naGet (tsOuter g st v).2.1 x = 0) ∧
    (∀ x n, hmFind st.1 x = some n → hmFind (tsOuter g st v).1 x = some n) ∧
    ((hmFind (tsOuter g st v).1 v.id).isSome = true) ∧
    (∃ pre, (tsOuter g st v).2.2 = pre ++ st.2.2) := by
  obtain ⟨T1, T2, T3, T4, T5, T6, T7⟩ := hinv
  by_cases hs : (hmFind st.1 v.id).isSome = true
  · have hstep : tsOuter g st v = st := by
      unfold tsOuter
      rw [if_pos hs]
    rw [hstep]
    exact ⟨⟨T1, T2, T3, T4, T5, T6, T7⟩, hzero, fun x n h => h, hs, ⟨[], rfl⟩⟩
  · have hseen' : (hmFind st.1 v.id).isSome = false := by
      cases h2 : (hmFind st.1 v.id).isSome
      · rfl
      · exact absurd h2 hs
    set par1 := hmInsert st.1 v.id ⟨-1, -1⟩ with hpar1
    set prog1 := naSet st.2.1 v.id 1 with hprog1
    set st2 := tsVisit g (dfsFuel g) v.id (g.adj v.id) (par1, prog1, st.2.2) with hst2
    have hstep : tsOuter g st v =
        (st2.1, naSet st2.2.1 v.id 0, Vertex.mk v.id v.value :: st2.2.2) := by
      unfold tsOuter
      rw [if_neg (by rw [hseen']; simp)]
    have hvid : v.id ∈ vertexIds g := List.mem_map.mpr ⟨v, hv, rfl⟩
    have hval : vertexValue g v.id = v.value := by
      obtain ⟨v', hfind, hid, hmem⟩ :=
        vertexFind_spec g.vertexHead v.id (List.mem_map.mpr ⟨v, hv, rfl⟩)
      have hvv : v' = v := by
        obtain ⟨_, _, hnd, _⟩ := hwf
        exact List.inj_on_of_nodup_map hnd hmem hv (by rw [hid])
      unfold vertexValue
      rw [hfind, hvv]
    have hprog1v : naGet prog1 v.id = 1 := by
      rw [hprog1, naGet_set, if_pos rfl]
    have hchain1 : ∀ x, naGet prog1 x = 1 → ∃ cs, isWalk g x cs v.id := by
      intro x hx
      by_cases hxv : x = v.id
      · exact ⟨[], hxv.symm⟩
      · rw [hprog1, naGet_set, if_neg hxv, hzero x] at hx
        exact absurd hx (by simp)
    have hinv1 : TsInv g par1 prog1 st.2.2 := by
      refine ⟨?_, ?_, ?_, T4, T5, T6, ?_⟩
      · intro x
        by_cases hxv : x = v.id
        · constructor
          · intro _
            left
            rw [hxv]
            exact hprog1v
          · intro _
            rw [hxv, hpar1, hmFind_insert, if_pos rfl]
            rfl
        · have h1 : hmFind par1 x = hmFind st.1 x := by
            rw [hpar1, hmFind_insert, if_neg hxv]
          have h2 : naGet prog1 x = naGet st.2.1 x := by
            rw [hprog1, naGet_set, if_neg hxv]
          rw [h1, h2]
          exact T1 x
      · intro x hx
        by_cases hxv : x = v.id
        · exfalso
          have h1 := (T1 x).mpr (Or.inr hx)
          rw [hxv, hseen'] at h1
          simp at h1
        · rw [hprog1, naGet_set, if_neg hxv, hzero x]
          simp
      · intro x
        by_cases hxv : x = v.id
        · right
          rw [hprog1, naGet_set, if_pos hxv]
        · left
          rw [hprog1, naGet_set, if_neg hxv]
          exact hzero x
      · intro x hx
        by_cases hxv : x = v.id
        · rw [hxv]
          exact hvid
        · rw [hpar1, hmFind_insert, if_neg hxv] at hx
          exact T7 x hx
    have hdive := tsVisit_correct g hwf hacyc (dfsFuel g) v.id (g.adj v.id)
      par1 prog1 st.2.2 (fun e' he' => he') (parSlack_fuel g par1 v.id)
      hprog1v hchain1 hinv1
    obtain ⟨Q1, Q2, Q3, Q4, Q5⟩ := hdive
    rw [← hst2] at Q1 Q2 Q3 Q4 Q5
    obtain ⟨U1, U2, U3, U4, U5, U6, U7⟩ := Q5
    have hQ1t : naGet st2.2.1 v.id = 1 := (Q1 v.id).trans hprog1v
    have h_t_par1 : hmFind par1 v.id = some ⟨-1, -1⟩ := by
      rw [hpar1, hmFind_insert, if_pos rfl]
    have hclosed : ∀ e' ∈ g.adj v.id, e'.target ∈ st2.2.2.map Vertex.id := by
      intro e' he'
      obtain ⟨n2, hn2⟩ := Option.isSome_iff_exists.mp (Q3 e' he')
      rcases (U1 e'.target).mp (by rw [hn2]; rfl) with hpr | hout
      · exfalso
        rw [Q1 e'.target] at hpr
        obtain ⟨cs, hcs⟩ := hchain1 e'.target hpr
        exact hacyc v.id (e' :: cs) (by simp) ⟨he', hcs⟩
      · exact hout
    have h_t_notin : v.id ∉ st2.2.2.map Vertex.id := by
      intro hmem
      exact (U2 v.id hmem) hQ1t
    have hprog3 : ∀ x, naGet (naSet st2.2.1 v.id 0) x =
        if x = v.id then 0 else naGet st.2.1 x := by
      intro x
      rw [naGet_set]
      by_cases hxv : x = v.id
      · rw [if_pos hxv, if_pos hxv]
      · rw [if_neg hxv, if_neg hxv, Q1 x, hprog1, naGet_set, if_neg hxv]
    have hmem3 : ∀ x, x ≠ v.id →
        (x ∈ (Vertex.mk v.id v.value :: st2.2.2).map Vertex.id ↔
          x ∈ st2.2.2.map Vertex.id) := by
      intro x hxv
      simp only [List.map_cons, List.mem_cons]
      constructor
      · rintro (h | h)
        · exact absurd h hxv
        · exact h
      · exact fun h => Or.inr h
    rw [hstep]
    refine ⟨⟨?_, ?_, ?_, ?_, ?_, ?_, U7⟩, ?_, ?_, ?_, ?_⟩
    · intro x
      rw [hprog3]
      by_cases hxv : x = v.id
      · rw [if_pos hxv]
        constructor
        · intro _
          right
          rw [hxv]
          simp
        · intro _
          rw [hxv, Q2 v.id _ h_t_par1]
          rfl
      · rw [if_neg hxv, hmem3 x hxv]
        have hpx : naGet st2.2.1 x = naGet st.2.1 x := by
          rw [Q1 x, hprog1, naGet_set, if_neg hxv]
        rw [U1 x, hpx]
    · intro x hx
      rw [hprog3]
      by_cases hxv : x = v.id
      · rw [if_pos hxv]
        simp
      · rw [if_neg hxv, hzero x]
        simp
    · intro x
      rw [hprog3]
      by_cases hxv : x = v.id
      · rw [if_pos hxv]
        exact Or.inl rfl
      · rw [if_neg hxv]
        exact Or.inl (hzero x)
    · simp only [List.map_cons, List.nodup_cons]
      exact ⟨h_t_notin, U4⟩
    · intro l1 x l2 hsplit e' he'
      cases l1 with
      | nil =>
        simp only [List.nil_append] at hsplit
        injection hsplit with h1 h2
        rw [← h1] at he'
        rw [← h2]
        exact hclosed e' he'
      | cons y l1' =>
        simp only [List.cons_append] at hsplit
        injection hsplit with h1 h2
        exact U5 l1' x l2 h2 e' he'
    · intro x hx
      rcases List.mem_cons.mp hx with rfl | hx
      · exact hval.symm
      · exact U6 x hx
    · intro x
      rw [hprog3]
      by_cases hxv : x = v.id
      · rw [if_pos hxv]
      · rw [if_neg hxv]
        exact hzero x
    · intro x n h
      have hxv : x ≠ v.id := by
        intro hh
        rw [hh] at h
        rw [h] at hseen'
        simp at hseen'
      have h1 : hmFind par1 x = some n := by
        rw [hpar1, hmFind_insert, if_neg hxv]
        exact h
      exact Q2 x n h1
    · rw [Q2 v.id _ h_t_par1]
      rfl
    · obtain ⟨pre2, hp2⟩ := Q4
      exact ⟨Vertex.mk v.id v.value :: pre2, by rw [hp2]; rfl⟩

/-- Folding the outer loop over any set of graph vertices. -/
theorem tsFold_correct (g : Graph) (hwf : WF g) (hacyc : Acyclic g) :
    ∀ (vs : List Vertex) (st : HMap × NArr × List Vertex),
      (∀ x ∈ vs, x ∈ g.vertexHead) →
      TsInv g st.1 st.2.1 st.2.2 →
      (∀ x, naGet st.2.1 x = 0) →
      TsInv g (vs.foldl (tsOuter g) st).1 (vs.foldl (tsOuter g) st).2.1
        (vs.foldl (tsOuter g) st).2.2 ∧
      (∀ x, naGet (vs.foldl (tsOuter g) st).2.1 x = 0) ∧
      (∀ x n, hmFind st.1 x = some n →
        hmFind (vs.foldl (tsOuter g) st).1 x = some n) ∧
      (∀ x ∈ vs, (hmFind (vs.foldl (tsOuter g) st).1 x.id).isSome = true) := by
  intro vs
  induction vs with
  | nil =>
    intro st _ hinv hzero
    exact ⟨hinv, hzero, fun x n h => h, fun x hx => absurd hx (List.not_mem_nil x)⟩
  | cons v vs ih =>
    intro st hmem hinv hzero
    have hstep := tsOuter_correct g hwf hacyc st v (hmem v (List.mem_cons_self v vs))
      hinv hzero
    obtain ⟨S1, S2, S3, S4, S5⟩ := hstep
    have hrec := ih (tsOuter g st v)
      (fun x hx => hmem x (List.mem_cons_of_mem v hx)) S1 S2
    obtain ⟨R1, R2, R3, R4⟩ := hrec
    rw [List.foldl_cons]
    refine ⟨R1, R2, ?_, ?_⟩
    · intro x n h
      exact R3 x n (S3 x n h)
    · intro x hx
      rcases List.mem_cons.mp hx with rfl | hx
      · obtain ⟨n, hn⟩ := Option.isSome_iff_exists.mp S4
        rw [R3 x.id n hn]
        rfl
      · exact R4 x hx

/-- Populated adjacency slots lie inside the adjacency array. -/
theorem adj_lt_of_mem (g : Graph) (u : Nat) (e : AdjNode) (he : e ∈ g.adj u) :
    u < g.list.length := by
  by_contra h
  unfold Graph.adj at he
  rw [List.getD_eq_default g.list [] (Nat.le_of_not_lt h)] at he
  exact absurd he (List.not_mem_nil e)

/-- A rank function that strictly drops along every edge certifies
acyclicity. -/
theorem acyclic_of_rank (g : Graph) (r : Nat → Nat)
    (h : ∀ u < g.list.length, ∀ e ∈ g.adj u, r e.target < r u) : Acyclic g := by
  have hstep : ∀ u (e : AdjNode), e ∈ g.adj u → r e.target < r u := by
    intro u e he
    exact h u (adj_lt_of_mem g u e he) e he
  have hwalk : ∀ (es : List AdjNode) (u v : Nat), isWalk g u es v → r v ≤ r u := by
    intro es
    induction es with
    | nil =>
      intro u v hw
      rw [hw]
    | cons e es ihe =>
      intro u v hw
      obtain ⟨he, hw'⟩ := hw
      have h1 := ihe e.target v hw'
      have h2 := hstep u e he
      omega
  intro u c hne hw
  cases c with
  | nil => exact hne rfl
  | cons e es =>
    obtain ⟨he, hw'⟩ := hw
    have h1 := hwalk es e.target u hw'
    have h2 := hstep u e he
    omega

/-- **C4.** For every well-formed directed acyclic graph, the list returned
by `topologicalSort` contains each vertex of the graph exactly once (its
ids are a permutation of the graph's vertex ids, with the stored values),
and every vertex lists all of its out-neighbours strictly later in the
returned order — i.e. for every edge `(u, v)`, `u` appears before `v`. -/
theorem topologicalSort_spec (g : Graph) (hwf : WF g) (hacyc : Acyclic g) :
    ((topologicalSort g).map Vertex.id).Perm (vertexIds g) ∧
    (∀ x ∈ topologicalSort g, x.value = vertexValue g x.id) ∧
    (∀ l1 x l2, topologicalSort g = l1 ++ x :: l2 →
      ∀ e ∈ g.adj x.id, e.target ∈ l2.map Vertex.id) := by
  have h0 : TsInv g hmEmpty ([] : NArr) ([] : List Vertex) := by
    refine ⟨?_, ?_, ?_, ?_, ?_, ?_, ?_⟩
    · intro v
      constructor
      · intro h
        exact absurd h (by simp [hmEmpty, hmFind])
      · rintro (h | h)
        · exact absurd h (by simp [naGet])
        · exact absurd h (List.not_mem_nil v)
    · intro v hv
      exact absurd hv (by simp)
    · intro v
      exact Or.inl rfl
    · simp
    · intro l1 x l2 hsplit
      exact absurd hsplit (by simp)
    · intro x hx
      exact absurd hx (List.not_mem_nil x)
    · intro v hv
      exact absurd hv (by simp [hmEmpty, hmFind])
  have hfold := tsFold_correct g hwf hacyc g.vertexHead (hmEmpty, [], [])
    (fun x hx => hx) h0 (fun x => rfl)
  obtain ⟨Hinv, Hzero, Hmono, Hall⟩ := hfold
  obtain ⟨W1, W2, W3, W4, W5, W6, W7⟩ := Hinv
  have hts : topologicalSort g =
      (g.vertexHead.foldl (tsOuter g) (hmEmpty, [], [])).2.2 := rfl
  rw [hts]
  have hmemiff : ∀ i, i ∈ ((g.vertexHead.foldl (tsOuter g)
      (hmEmpty, [], [])).2.2.map Vertex.id) ↔ i ∈ vertexIds g := by
    intro i
    constructor
    · intro h
      exact W7 i ((W1 i).mpr (Or.inr h))
    · intro h
      obtain ⟨x, hx, hxi⟩ := List.mem_map.mp h
      have hsome := Hall x hx
      rcases (W1 x.id).mp hsome with hpr | hout
      · rw [Hzero x.id] at hpr
        exact absurd hpr (by simp)
      · rw [← hxi]
        exact hout
  refine ⟨?_, W6, W5⟩
  apply List.Subperm.antisymm
  · exact List.subperm_of_subset W4 (fun i hi => (hmemiff i).mp hi)
  · obtain ⟨_, _, hnd, _⟩ := hwf
    exact List.subperm_of_subset hnd (fun i hi => (hmemiff i).mpr hi)

/-- Witness for C4 at the concrete weighted graph `0 -> 1`. -/
theorem topologicalSort_spec_witness :
    WF exGraphW ∧ Acyclic exGraphW ∧
    (((topologicalSort exGraphW).map Vertex.id).Perm (vertexIds exGraphW) ∧
    (∀ x ∈ topologicalSort exGraphW, x.value = vertexValue exGraphW x.id) ∧
    (∀ l1 x l2, topologicalSort exGraphW = l1 ++ x :: l2 →
      ∀ e ∈ exGraphW.adj x.id, e.target ∈ l2.map Vertex.id)) := by
  have hwf : WF exGraphW := by decide
  have hacyc : Acyclic exGraphW :=
    acyclic_of_rank exGraphW (fun u => if u = 0 then 1 else 0) (by decide)
  exact ⟨hwf, hacyc, topologicalSort_spec exGraphW hwf hacyc⟩

/-! ### C2: Bellman-Ford -/

theorem walkWeight_nil : walkWeight [] = 0 := rfl

theorem walkWeight_cons (e : AdjNode) (es : List AdjNode) :
    walkWeight (e :: es) = e.weight + walkWeight es := rfl

theorem walkWeight_append (es1 es2 : List AdjNode) :
    walkWeight (es1 ++ es2) = walkWeight es1 + walkWeight es2 := by
  induction es1 with
  | nil => simp [walkWeight]
  | cons e es ih =>
    rw [List.cons_append, walkWeight_cons, walkWeight_cons, ih]
    ring

theorem isWalk_trans (g : Graph) :
    ∀ (es1 : List AdjNode) (u x : Nat) (es2 : List AdjNode) (v : Nat),
      isWalk g u es1 x → isWalk g x es2 v → isWalk g u (es1 ++ es2) v := by
  intro es1
  induction es1 with
  | nil =>
    intro u x es2 v h1 h2
    rw [h1] at h2
    exact h2
  | cons e es ih =>
    intro u x es2 v h1 h2
    obtain ⟨he, hw⟩ := h1
    exact ⟨he, ih _ _ _ _ hw h2⟩

theorem mem_walkVerts_split (g : Graph) :
    ∀ (es : List AdjNode) (u v x : Nat), isWalk g u es v → x ∈ walkVerts u es →
      ∃ c r, es = c ++ r ∧ isWalk g u c x ∧ isWalk g x r v := by
  intro es
  induction es with
  | nil =>
    intro u v x hw hx
    have hxu : x = u := by simpa [walkVerts] using hx
    exact ⟨[], [], rfl, hxu, hw.trans hxu.symm⟩
  | cons e es ih =>
    intro u v x hw hx
    obtain ⟨he, hw'⟩ := hw
    by_cases hxu : x = u
    · exact ⟨[], e :: es, rfl, hxu, by rw [hxu]; exact ⟨he, hw'⟩⟩
    · have hx' : x ∈ walkVerts e.target es := by
        simp only [walkVerts, List.map_cons, List.mem_cons] at hx ⊢
        rcases hx with h | h | h
        · exact absurd h hxu
        · exact Or.inl h
        · exact Or.inr h
      obtain ⟨c, r, hsplit, hc, hr⟩ := ih e.target v x hw' hx'
      exact ⟨e :: c, r, by rw [hsplit]; rfl, ⟨he, hc⟩, hr⟩

theorem walk_cut (g : Graph) :
    ∀ (es : List AdjNode) (u v : Nat), isWalk g u es v →
      ¬ (walkVerts u es).Nodup →
      ∃ es' x c, isWalk g u es' v ∧ es'.length < es.length ∧
        Reachable g u x ∧ c ≠ [] ∧ isWalk g x c x ∧
        walkWeight es = walkWeight es' + walkWeight c := by
  intro es
  induction es with
  | nil =>
    intro u v hw hnd
    exact absurd (by simp [walkVerts]) hnd
  | cons e es ih =>
    intro u v hw hnd
    obtain ⟨he, hw'⟩ := hw
    by_cases hu : u ∈ walkVerts e.target es
    · obtain ⟨c, r, hsplit, hc, hr⟩ := mem_walkVerts_split g es e.target v u hw' hu
      refine ⟨r, u, e :: c, hr, ?_, ⟨[], rfl⟩, by simp, ⟨he, hc⟩, ?_⟩
      · rw [hsplit]
        simp only [List.length_cons, List.length_append]
        omega
      · rw [hsplit, walkWeight_cons, walkWeight_append, walkWeight_cons]
        ring
    · have hnd' : ¬ (walkVerts e.target es).Nodup := by
        intro hok
        apply hnd
        have hvv : walkVerts u (e :: es) = u :: walkVerts e.target es := by
          simp [walkVerts]
        rw [hvv]
        exact List.nodup_cons.mpr ⟨hu, hok⟩
      obtain ⟨es', x, c, hw2, hlen, hreach, hcne, hcyc, hwt⟩ := ih e.target v hw' hnd'
      obtain ⟨rs, hrs⟩ := hreach
      refine ⟨e :: es', x, c, ⟨he, hw2⟩, ?_, ⟨e :: rs, ⟨he, hrs⟩⟩, hcne, hcyc, ?_⟩
      · rw [List.length_cons, List.length_cons]
        omega
      · rw [walkWeight_cons, walkWeight_cons, hwt]
        ring

theorem walk_to_simple (g : Graph) (s : Nat)
    (hnc : ∀ x c, Reachable g s x → c ≠ [] → isWalk g x c x → 0 ≤ walkWeight c) :
    ∀ (n : Nat) (es : List AdjNode) (v : Nat), es.length ≤ n → isWalk g s es v →
      ∃ ps, isWalk g s ps v ∧ (walkVerts s ps).Nodup ∧
        walkWeight ps ≤ walkWeight es := by
  intro n
  induction n with
  | zero =>
    intro es v hlen hw
    have hnil : es = [] := List.length_eq_zero.mp (Nat.le_zero.mp hlen)
    subst hnil
    exact ⟨[], hw, by simp [walkVerts], le_refl _⟩
  | succ n ih =>
    intro es v hlen hw
    by_cases hnd : (walkVerts s es).Nodup
    · exact ⟨es, hw, hnd, le_refl _⟩
    · obtain ⟨es', x, c, hw2, hlt, hreach, hcne, hcyc, hwt⟩ := walk_cut g es s v hw hnd
      obtain ⟨ps, h1, h2, h3⟩ := ih es' v (by omega) hw2
      refine ⟨ps, h1, h2, ?_⟩
      have hge := hnc x c hreach hcne hcyc
      omega

theorem walk_to_simple_ex (g : Graph) (s : Nat) :
    ∀ (n : Nat) (es : List AdjNode) (v : Nat), es.length ≤ n → isWalk g s es v →
      ∃ ps, isWalk g s ps v ∧ (walkVerts s ps).Nodup := by
  intro n
  induction n with
  | zero =>
    intro es v hlen hw
    have hnil : es = [] := List.length_eq_zero.mp (Nat.le_zero.mp hlen)
    subst hnil
    exact ⟨[], hw, by simp [walkVerts]⟩
  | succ n ih =>
    intro es v hlen hw
    by_cases hnd : (walkVerts s es).Nodup
    · exact ⟨es, hw, hnd⟩
    · obtain ⟨es', x, c, hw2, hlt, _, _, _, _⟩ := walk_cut g es s v hw hnd
      exact ih es' v (by omega) hw2

theorem relax_edge_some (alt : Nat) (e : AdjNode) (m : HMap) (cur altN : HNode)
    (h1 : hmFind m e.target = some cur) (h2 : hmFind m alt = some altN) :
    relax_edge alt e m =
      if altN.value ≠ INF ∧ cur.value > altN.value + e.weight then
        (true, hmInsert m e.target ⟨altN.value + e.weight, Int.ofNat alt⟩)
      else (false, m) := by
  unfold relax_edge
  rw [h1, h2]

theorem relax_edge_none (alt : Nat) (e : AdjNode) (m : HMap)
    (h : hmFind m e.target = none ∨ hmFind m alt = none) :
    relax_edge alt e m = (false, m) := by
  rcases h with h | h
  · cases h2 : hmFind m alt <;> simp [relax_edge, h, h2]
  · cases h1 : hmFind m e.target <;> simp [relax_edge, h, h1]

theorem relax_edge_isSome (alt : Nat) (e : AdjNode) (m : HMap) (v : Nat) :
    (hmFind (relax_edge alt e m).2 v).isSome = (hmFind m v).isSome := by
  cases h1 : hmFind m e.target with
  | none => rw [relax_edge_none _ _ _ (Or.inl h1)]
  | some cur =>
    cases h2 : hmFind m alt with
    | none => rw [relax_edge_none _ _ _ (Or.inr h2)]
    | some altN =>
      rw [relax_edge_some _ _ _ _ _ h1 h2]
      by_cases hc : altN.value ≠ INF ∧ cur.value > altN.value + e.weight
      · rw [if_pos hc]
        show (hmFind (hmInsert m e.target
          ⟨altN.value + e.weight, Int.ofNat alt⟩) v).isSome = (hmFind m v).isSome
        rw [hmFind_insert]
        by_cases hv : v = e.target
        · rw [if_pos hv, hv, h1]
          rfl
        · rw [if_neg hv]
      · rw [if_neg hc]

theorem relax_edge_sound (g : Graph) (s u : Nat) (e : AdjNode) (m : HMap)
    (he : e ∈ g.adj u) (hs : SSound g s m) : SSound g s (relax_edge u e m).2 := by
  cases h1 : hmFind m e.target with
  | none => rw [relax_edge_none _ _ _ (Or.inl h1)]; exact hs
  | some cur =>
    cases h2 : hmFind m u with
    | none => rw [relax_edge_none _ _ _ (Or.inr h2)]; exact hs
    | some altN =>
      rw [relax_edge_some _ _ _ _ _ h1 h2]
      by_cases hc : altN.value ≠ INF ∧ cur.value > altN.value + e.weight
      · rw [if_pos hc]
        intro v n h
        show _ ∨ _
        rw [show ((true, hmInsert m e.target
          ⟨altN.value + e.weight, Int.ofNat u⟩) : Bool × HMap).2 =
            hmInsert m e.target ⟨altN.value + e.weight, Int.ofNat u⟩ from rfl,
          hmFind_insert] at h
        by_cases hv : v = e.target
        · rw [if_pos hv] at h
          have hn : n = ⟨altN.value + e.weight, Int.ofNat u⟩ :=
            (Option.some_inj.mp h).symm
          rcases hs u altN h2 with hINF | ⟨es, hw, hwt⟩
          · exact absurd hINF hc.1
          · right
            refine ⟨es ++ [e], ?_, ?_⟩
            · rw [hv]
              exact isWalk_append_edge g es s u e hw he
            · rw [walkWeight_append, walkWeight_cons, walkWeight_nil, hwt, hn]
              ring
        · rw [if_neg hv] at h
          exact hs v n h
      · rw [if_neg hc]
        exact hs

theorem relax_edge_fst_false (alt : Nat) (e : AdjNode) (m : HMap)
    (h : (relax_edge alt e m).1 = false) : (relax_edge alt e m).2 = m := by
  cases h1 : hmFind m e.target with
  | none => rw [relax_edge_none _ _ _ (Or.inl h1)]
  | some cur =>
    cases h2 : hmFind m alt with
    | none => rw [relax_edge_none _ _ _ (Or.inr h2)]
    | some altN =>
      rw [relax_edge_some _ _ _ _ _ h1 h2] at h ⊢
      by_cases hc : altN.value ≠ INF ∧ cur.value > altN.value + e.weight
      · rw [if_pos hc] at h
        exact absurd h (by simp)
      · rw [if_neg hc]

theorem relaxList_eq (u : Nat) (e : AdjNode) (es : List AdjNode) (m : HMap) :
    relaxList u (e :: es) m = relaxList u es (relax_edge u e m).2 := rfl

theorem relaxList_le (u : Nat) :
    ∀ (es : List AdjNode) (m : HMap) (v : Nat) (n' : HNode),
      hmFind (relaxList u es m) v = some n' →
      ∃ n, hmFind m v = some n ∧ n'.value ≤ n.value := by
  intro es
  induction es with
  | nil => intro m v n' h; exact ⟨n', h, le_refl _⟩
  | cons e es ih =>
    intro m v n' h
    rw [relaxList_eq] at h
    obtain ⟨n1, hn1, hle1⟩ := ih _ v n' h
    obtain ⟨n0, hn0, hle0⟩ := relax_edge_le u e m v n1 hn1
    exact ⟨n0, hn0, le_trans hle1 hle0⟩

theorem relaxList_isSome (u : Nat) :
    ∀ (es : List AdjNode) (m : HMap) (v : Nat),
      (hmFind (relaxList u es m) v).isSome = (hmFind m v).isSome := by
  intro es
  induction es with
  | nil => intro m v; rfl
  | cons e es ih =>
    intro m v
    rw [relaxList_eq, ih, relax_edge_isSome]

theorem relaxList_sound (g : Graph) (s u : Nat) :
    ∀ (es : List AdjNode) (m : HMap), (∀ e ∈ es, e ∈ g.adj u) →
      SSound g s m → SSound g s (relaxList u es m) := by
  intro es
  induction es with
  | nil => intro m _ hs; exact hs
  | cons e es ih =>
    intro m hes hs
    rw [relaxList_eq]
    exact ih _ (fun e' he' => hes e' (List.mem_cons_of_mem e he'))
      (relax_edge_sound g s u e m (hes e (List.mem_cons_self e es)) hs)

theorem relaxVerts_le (g : Graph) :
    ∀ (vs : List Vertex) (m : HMap) (v : Nat) (n' : HNode),
      hmFind (vs.foldl (fun m x => relaxList x.id (g.adj x.id) m) m) v = some n' →
      ∃ n, hmFind m v = some n ∧ n'.value ≤ n.value := by
  intro vs
  induction vs with
  | nil => intro m v n' h; exact ⟨n', h, le_refl _⟩
  | cons x vs ih =>
    intro m v n' h
    rw [List.foldl_cons] at h
    obtain ⟨n1, hn1, hle1⟩ := ih _ v n' h
    obtain ⟨n0, hn0, hle0⟩ := relaxList_le x.id (g.adj x.id) m v n1 hn1
    exact ⟨n0, hn0, le_trans hle1 hle0⟩

theorem relaxVerts_isSome (g : Graph) :
    ∀ (vs : List Vertex) (m : HMap) (v : Nat),
      (hmFind (vs.foldl (fun m x => relaxList x.id (g.adj x.id) m) m) v).isSome =
        (hmFind m v).isSome := by
  intro vs
  induction vs with
  | nil => intro m v; rfl
  | cons x vs ih =>
    intro m v
    rw [List.foldl_cons, ih, relaxList_isSome]

theorem relaxVerts_sound (g : Graph) (s : Nat) :
    ∀ (vs : List Vertex) (m : HMap),
      SSound g s m →
      SSound g s (vs.foldl (fun m x => relaxList x.id (g.adj x.id) m) m) := by
  intro vs
  induction vs with
  | nil => intro m hs; exact hs
  | cons x vs ih =>
    intro m hs
    rw [List.foldl_cons]
    exact ih _ (relaxList_sound g s x.id (g.adj x.id) m (fun e' he' => he') hs)

theorem relaxPass_le (g : Graph) (m : HMap) (v : Nat) (n' : HNode)
    (h : hmFind (relaxPass g m) v = some n') :
    ∃ n, hmFind m v = some n ∧ n'.value ≤ n.value :=
  relaxVerts_le g g.vertexHead m v n' h

theorem relaxPass_isSome (g : Graph) (m : HMap) (v : Nat) :
    (hmFind (relaxPass g m) v).isSome = (hmFind m v).isSome :=
  relaxVerts_isSome g g.vertexHead m v

theorem relaxPass_sound (g : Graph) (s : Nat) (m : HMap) (hs : SSound g s m) :
    SSound g s (relaxPass g m) :=
  relaxVerts_sound g s g.vertexHead m hs

theorem ssInit_fold_find (vs : List Vertex) :
    ∀ (m0 : HMap) (v : Nat),
      hmFind (vs.foldl (fun m x => hmInsert m x.id ⟨INF, -1⟩) m0) v =
        if v ∈ vs.map Vertex.id then some ⟨INF, -1⟩ else hmFind m0 v := by
  induction vs with
  | nil =>
    intro m0 v
    simp
  | cons x vs ih =>
    intro m0 v
    rw [List.foldl_cons, ih]
    by_cases hm : v ∈ vs.map Vertex.id
    · rw [if_pos hm, if_pos (by simp [hm])]
    · rw [if_neg hm, hmFind_insert]
      by_cases hv : v = x.id
      · rw [if_pos hv, if_pos (by simp [hv])]
      · rw [if_neg hv, if_neg (by
          simp only [List.map_cons, List.mem_cons]
          rintro (h | h)
          · exact hv h
          · exact hm h)]

theorem ssInit_find (g : Graph) (s : Vertex) (v : Nat) :
    hmFind (ssInit g s) v =
      if v = s.id then some ⟨0, -1⟩
      else if v ∈ vertexIds g then some ⟨INF, -1⟩ else none := by
  unfold ssInit
  rw [hmFind_insert]
  by_cases hv : v = s.id
  · rw [if_pos hv, if_pos hv]
  · rw [if_neg hv, if_neg hv, ssInit_fold_find]
    unfold vertexIds
    rfl

theorem ssInit_dom (g : Graph) (s : Vertex) (v : Nat) (hv : v ∈ vertexIds g) :
    (hmFind (ssInit g s) v).isSome = true := by
  rw [ssInit_find]
  by_cases h : v = s.id
  · rw [if_pos h]; rfl
  · rw [if_neg h, if_pos hv]; rfl

theorem ssInit_sound (g : Graph) (s : Vertex) : SSound g s.id (ssInit g s) := by
  intro v n h
  rw [ssInit_find] at h
  by_cases hv : v = s.id
  · rw [if_pos hv] at h
    right
    refine ⟨[], hv, ?_⟩
    rw [walkWeight_nil, ← Option.some_inj.mp h]
  · rw [if_neg hv] at h
    by_cases hm : v ∈ vertexIds g
    · rw [if_pos hm] at h
      left
      rw [← Option.some_inj.mp h]
    · rw [if_neg hm] at h
      exact absurd h (by simp)

theorem passes_isSome (g : Graph) (s : Vertex) :
    ∀ (k : Nat) (v : Nat),
      (hmFind ((relaxPass g)^[k] (ssInit g s)) v).isSome =
        (hmFind (ssInit g s) v).isSome := by
  intro k
  induction k with
  | zero => intro v; rfl
  | succ k ih =>
    intro v
    rw [Function.iterate_succ_apply', relaxPass_isSome]
    exact ih v

theorem passes_sound (g : Graph) (s : Vertex) :
    ∀ k : Nat, SSound g s.id ((relaxPass g)^[k] (ssInit g s)) := by
  intro k
  induction k with
  | zero => exact ssInit_sound g s
  | succ k ih =>
    rw [Function.iterate_succ_apply']
    exact relaxPass_sound g s.id _ ih

theorem WF_adj_source (g : Graph) (hwf : WF g) (u : Nat) (e : AdjNode)
    (he : e ∈ g.adj u) : u ∈ vertexIds g := by
  have hlt := adj_lt_of_mem g u e he
  obtain ⟨h1, _, _, _, h5, _⟩ := hwf
  rw [h1] at hlt
  exact h5 u hlt (fun hnil => by rw [hnil] at he; exact absurd he (List.not_mem_nil e))

theorem isWalk_append_last (g : Graph) :
    ∀ (es : List AdjNode) (e : AdjNode) (u0 v : Nat),
      isWalk g u0 (es ++ [e]) v →
      ∃ u, isWalk g u0 es u ∧ e ∈ g.adj u ∧ v = e.target := by
  intro es
  induction es with
  | nil =>
    intro e u0 v hw
    obtain ⟨he, hv⟩ := hw
    exact ⟨u0, rfl, he, hv⟩
  | cons a es ih =>
    intro e u0 v hw
    obtain ⟨ha, hw'⟩ := hw
    obtain ⟨u, h1, h2, h3⟩ := ih e a.target v hw'
    exact ⟨u, ⟨ha, h1⟩, h2, h3⟩

theorem walkVerts_append_last (u : Nat) (es : List AdjNode) (e : AdjNode) :
    walkVerts u (es ++ [e]) = walkVerts u es ++ [e.target] := by
  unfold walkVerts
  rw [List.map_append, List.map_cons, List.map_nil]
  rfl

theorem walk_targets_ids (g : Graph) (hwf : WF g) :
    ∀ (es : List AdjNode) (u v : Nat), isWalk g u es v →
      ∀ x ∈ es.map (fun e => e.target), x ∈ vertexIds g := by
  intro es
  induction es with
  | nil =>
    intro u v _ x hx
    exact absurd hx (by simp)
  | cons e es ih =>
    intro u v hw x hx
    obtain ⟨he, hw'⟩ := hw
    rcases List.mem_cons.mp hx with h | h
    · rw [h]
      exact WF_adj_target g hwf u e he
    · exact ih e.target v hw' x h

theorem reach_mem_ids (g : Graph) (hwf : WF g) (s : Nat) (hs : s ∈ vertexIds g)
    (v : Nat) (hr : Reachable g s v) : v ∈ vertexIds g := by
  obtain ⟨es, hw⟩ := hr
  rcases List.eq_nil_or_concat es with rfl | ⟨es', e, rfl⟩
  · rw [hw]
    exact hs
  · rw [List.concat_eq_append] at hw
    obtain ⟨u, _, _, hv⟩ := isWalk_append_last g es' e s v hw
    rw [hv]
    exact walk_targets_ids g hwf (es' ++ [e]) s v hw e.target
      (by simp)

theorem simple_len_le (g : Graph) (hwf : WF g) (s : Nat) (hs : s ∈ vertexIds g) :
    ∀ (es : List AdjNode) (v : Nat), isWalk g s es v →
      (walkVerts s es).Nodup → es.length + 1 ≤ g.numVertex := by
  intro es v hw hnd
  have hsub : walkVerts s es ⊆ vertexIds g := by
    intro x hx
    unfold walkVerts at hx
    rcases List.mem_cons.mp hx with h | h
    · rw [h]
      exact hs
    · exact walk_targets_ids g hwf es s v hw x h
  have hlen := (List.subperm_of_subset hnd hsub).length_le
  have h1 : (walkVerts s es).length = es.length + 1 := by
    unfold walkVerts
    rw [List.length_cons, List.length_map]
  have h2 : (vertexIds g).length = g.numVertex := by
    unfold vertexIds
    rw [List.length_map]
    exact hwf.2.1.symm
  omega

/-- During a full pass, once the scan reaches the slot of `u`, the edge
`u -> e.target` is relaxed against a source value that can only have
improved, so the target ends the pass below `B + w(e)`. -/
theorem relaxPass_bound (g : Graph) (hwf : WF g) (m : HMap) (u : Nat) (e : AdjNode)
    (he : e ∈ g.adj u)
    (hdom : ∀ v ∈ vertexIds g, (hmFind m v).isSome = true)
    (B : Int) (hB : ∀ nu, hmFind m u = some nu → nu.value ≤ B) (hBINF : B < INF) :
    ∀ nv, hmFind (relaxPass g m) e.target = some nv → nv.value ≤ B + e.weight := by
  intro nv hnv
  have hu := WF_adj_source g hwf u e he
  obtain ⟨x, hx, hxid⟩ := List.mem_map.mp hu
  obtain ⟨vs1, vs2, hsplit⟩ := List.append_of_mem hx
  unfold relaxPass at hnv
  rw [hsplit, List.foldl_append, List.foldl_cons] at hnv
  set m1 := vs1.foldl (fun m v => relaxList v.id (g.adj v.id) m) m with hm1
  have hB1 : ∀ nu, hmFind m1 u = some nu → nu.value ≤ B := by
    intro nu h
    rw [hm1] at h
    obtain ⟨n0, hn0, hle⟩ := relaxVerts_le g vs1 m u nu h
    exact le_trans hle (hB n0 hn0)
  have hdom1 : ∀ v ∈ vertexIds g, (hmFind m1 v).isSome = true := by
    intro v hv
    rw [hm1, relaxVerts_isSome g vs1 m v]
    exact hdom v hv
  obtain ⟨es1, es2, hes⟩ := List.append_of_mem he
  rw [hxid, hes] at hnv
  have hrl : relaxList u (es1 ++ e :: es2) m1 =
      relaxList u es2 (relax_edge u e (relaxList u es1 m1)).2 := by
    unfold relaxList
    rw [List.foldl_append, List.foldl_cons]
  rw [hrl] at hnv
  set m2 := relaxList u es1 m1 with hm2
  have hB2 : ∀ nu, hmFind m2 u = some nu → nu.value ≤ B := by
    intro nu h
    rw [hm2] at h
    obtain ⟨n0, hn0, hle⟩ := relaxList_le u es1 m1 u nu h
    exact le_trans hle (hB1 n0 hn0)
  have hdom2 : ∀ v ∈ vertexIds g, (hmFind m2 v).isSome = true := by
    intro v hv
    rw [hm2, relaxList_isSome u es1 m1 v]
    exact hdom1 v hv
  obtain ⟨nu2, hnu2⟩ := Option.isSome_iff_exists.mp (hdom2 u hu)
  obtain ⟨nt2, hnt2⟩ := Option.isSome_iff_exists.mp
    (hdom2 e.target (WF_adj_target g hwf u e he))
  have hafter : ∀ nt, hmFind (relax_edge u e m2).2 e.target = some nt →
      nt.value ≤ B + e.weight := by
    intro nt hnt
    rw [relax_edge_some u e m2 nt2 nu2 hnt2 hnu2] at hnt
    by_cases hc : nu2.value ≠ INF ∧ nt2.value > nu2.value + e.weight
    · rw [if_pos hc] at hnt
      rw [show ((true, hmInsert m2 e.target
          ⟨nu2.value + e.weight, Int.ofNat u⟩) : Bool × HMap).2 =
            hmInsert m2 e.target ⟨nu2.value + e.weight, Int.ofNat u⟩ from rfl] at hnt
      rw [hmFind_insert, if_pos rfl] at hnt
      have hnteq : nt = ⟨nu2.value + e.weight, Int.ofNat u⟩ :=
        (Option.some_inj.mp hnt).symm
      have hvv : nt.value = nu2.value + e.weight := by rw [hnteq]
      have hble := hB2 nu2 hnu2
      omega
    · rw [if_neg hc] at hnt
      rw [show ((false, m2) : Bool × HMap).2 = m2 from rfl] at hnt
      have hnteq : nt = nt2 := by
        rw [hnt2] at hnt
        exact (Option.some_inj.mp hnt).symm
      have hne : nu2.value ≠ INF := by
        have := hB2 nu2 hnu2
        intro heq
        omega
      rcases not_and_or.mp hc with h | h
      · exact absurd hne h
      · have hle := not_lt.mp h
        have hble := hB2 nu2 hnu2
        have hvv : nt.value = nt2.value := by rw [hnteq]
        omega
  obtain ⟨nt3, hnt3, hle3⟩ := relaxVerts_le g vs2 _ e.target nv hnv
  obtain ⟨nt4, hnt4, hle4⟩ := relaxList_le u es2 _ e.target nt3 hnt3
  have hfin := hafter nt4 hnt4
  omega

/-- Upper bound after `k` passes: the recorded distance of `v` is below the
weight of every simple path of at most `k` edges. -/
theorem passes_ub (g : Graph) (s : Vertex) (hwf : WF g)
    (hrange : PathsInRange g s.id) :
    ∀ (k : Nat) (v : Nat) (es : List AdjNode), isWalk g s.id es v →
      (walkVerts s.id es).Nodup → es.length ≤ k →
      ∀ n, hmFind ((relaxPass g)^[k] (ssInit g s)) v = some n →
        n.value ≤ walkWeight es := by
  intro k
  induction k with
  | zero =>
    intro v es hw hnd hlen n hn
    have hnil : es = [] := List.length_eq_zero.mp (Nat.le_zero.mp hlen)
    subst hnil
    rw [Function.iterate_zero_apply] at hn
    rw [hw, ssInit_find, if_pos rfl] at hn
    have hneq : n = ⟨0, -1⟩ := (Option.some_inj.mp hn).symm
    rw [hneq, walkWeight_nil]
  | succ k ih =>
    intro v es hw hnd hlen n hn
    rw [Function.iterate_succ_apply'] at hn
    by_cases hlen' : es.length ≤ k
    · obtain ⟨n0, hn0, hle⟩ := relaxPass_le g _ v n hn
      have := ih v es hw hnd hlen' n0 hn0
      omega
    · have hlen2 : es.length = k + 1 := by omega
      have hne : es ≠ [] := by
        intro h
        rw [h] at hlen2
        simp at hlen2
      obtain ⟨es', e, rfl⟩ := (List.eq_nil_or_concat es).resolve_left hne
      rw [List.concat_eq_append] at hw hnd hlen2 ⊢
      obtain ⟨u, hw', he, hv⟩ := isWalk_append_last g es' e s.id v hw
      rw [walkVerts_append_last] at hnd
      have hnd' : (walkVerts s.id es').Nodup := List.Nodup.of_append_left hnd
      have hlen3 : es'.length ≤ k := by
        rw [List.length_append] at hlen2
        simp at hlen2
        omega
      have hBfact : ∀ nu, hmFind ((relaxPass g)^[k] (ssInit g s)) u = some nu →
          nu.value ≤ walkWeight es' :=
        fun nu hnu => ih u es' hw' hnd' hlen3 nu hnu
      have hBINF : walkWeight es' < INF := (hrange u es' hw' hnd').2
      have hdom : ∀ x ∈ vertexIds g,
          (hmFind ((relaxPass g)^[k] (ssInit g s)) x).isSome = true := by
        intro x hx
        rw [passes_isSome]
        exact ssInit_dom g s x hx
      have hb := relaxPass_bound g hwf _ u e he hdom (walkWeight es')
        hBfact hBINF n (by rw [← hv]; exact hn)
      rw [walkWeight_append, walkWeight_cons, walkWeight_nil]
      omega

theorem detectList_cons (u : Nat) (e : AdjNode) (es : List AdjNode) (m : HMap) :
    detectList u (e :: es) m =
      (if (relax_edge u e m).1 then (true, (relax_edge u e m).2)
       else detectList u es (relax_edge u e m).2) := rfl

theorem detectList_all_false (u : Nat) :
    ∀ (es : List AdjNode) (m : HMap),
      (∀ e ∈ es, (relax_edge u e m).1 = false) →
      detectList u es m = (false, m) := by
  intro es
  induction es with
  | nil => intro m _; rfl
  | cons e es ih =>
    intro m h
    have h1 := h e (List.mem_cons_self e es)
    have h2 := relax_edge_fst_false u e m h1
    rw [detectList_cons, if_neg (by simp [h1]), h2]
    exact ih m (fun e' he' => h e' (List.mem_cons_of_mem e he'))

theorem detectList_false_inv (u : Nat) :
    ∀ (es : List AdjNode) (m : HMap) (b : Bool) (m' : HMap),
      detectList u es m = (b, m') → b = false →
      m' = m ∧ ∀ e ∈ es, (relax_edge u e m).1 = false := by
  intro es
  induction es with
  | nil =>
    intro m b m' h _
    have h2 : ((false : Bool), m) = (b, m') := h
    injection h2 with _ hm
    exact ⟨hm.symm, fun e he => absurd he (List.not_mem_nil e)⟩
  | cons e es ih =>
    intro m b m' h hb
    rw [detectList_cons] at h
    cases h1 : (relax_edge u e m).1 with
    | false =>
      rw [if_neg (by simp [h1]), relax_edge_fst_false u e m h1] at h
      obtain ⟨hm, hall⟩ := ih m b m' h hb
      refine ⟨hm, ?_⟩
      intro e' he'
      rcases List.mem_cons.mp he' with rfl | he'
      · exact h1
      · exact hall e' he'
    | true =>
      rw [if_pos (by simp [h1])] at h
      injection h with hb2 _
      rw [← hb2] at hb
      simp at hb

theorem detectVerts_cons (g : Graph) (v : Vertex) (vs : List Vertex) (m : HMap) :
    detectVerts g (v :: vs) m =
      (if (detectList v.id (g.adj v.id) m).1 then
        (true, (detectList v.id (g.adj v.id) m).2)
       else detectVerts g vs (detectList v.id (g.adj v.id) m).2) := rfl

theorem detectVerts_all_false (g : Graph) :
    ∀ (vs : List Vertex) (m : HMap),
      (∀ v ∈ vs, ∀ e ∈ g.adj v.id, (relax_edge v.id e m).1 = false) →
      detectVerts g vs m = (false, m) := by
  intro vs
  induction vs with
  | nil => intro m _; rfl
  | cons v vs ih =>
    intro m h
    have h1 := detectList_all_false v.id (g.adj v.id) m
      (h v (List.mem_cons_self v vs))
    rw [detectVerts_cons, h1]
    rw [if_neg (by simp)]
    exact ih m (fun v' hv' => h v' (List.mem_cons_of_mem v hv'))

theorem detectVerts_false_inv (g : Graph) :
    ∀ (vs : List Vertex) (m : HMap) (b : Bool) (m' : HMap),
      detectVerts g vs m = (b, m') → b = false →
      m' = m ∧ ∀ v ∈ vs, ∀ e ∈ g.adj v.id, (relax_edge v.id e m).1 = false := by
  intro vs
  induction vs with
  | nil =>
    intro m b m' h _
    have h2 : ((false : Bool), m) = (b, m') := h
    injection h2 with _ hm
    exact ⟨hm.symm, fun v hv => absurd hv (List.not_mem_nil v)⟩
  | cons v vs ih =>
    intro m b m' h hb
    rw [detectVerts_cons] at h
    cases h1 : (detectList v.id (g.adj v.id) m).1 with
    | false =>
      obtain ⟨hm1, hall1⟩ := detectList_false_inv v.id (g.adj v.id) m _ _ rfl h1
      rw [if_neg (by simp [h1]), hm1] at h
      obtain ⟨hm, hall⟩ := ih m b m' h hb
      refine ⟨hm, ?_⟩
      intro v' hv'
      rcases List.mem_cons.mp hv' with rfl | hv'
      · exact hall1
      · exact hall v' hv'
    | true =>
      rw [if_pos (by simp [h1])] at h
      injection h with hb2 _
      rw [← hb2] at hb
      simp at hb

/-- In a stable map whose reachable vertices are all finite, distances obey
the triangle inequality along every walk out of a reachable vertex. -/
theorem stable_walk (g : Graph) (s : Nat) (M : HMap)
    (hstab : ∀ u (e : AdjNode), e ∈ g.adj u → ∀ nu nt, hmFind M u = some nu →
      hmFind M e.target = some nt → nu.value ≠ INF →
      nt.value ≤ nu.value + e.weight)
    (hfin : ∀ x, Reachable g s x → ∃ n, hmFind M x = some n ∧ n.value < INF) :
    ∀ (c : List AdjNode) (x y : Nat), isWalk g x c y → Reachable g s x →
      ∀ nx ny, hmFind M x = some nx → hmFind M y = some ny →
        ny.value ≤ nx.value + walkWeight c := by
  intro c
  induction c with
  | nil =>
    intro x y hw hr nx ny hnx hny
    rw [hw, hnx] at hny
    have heq : nx = ny := Option.some_inj.mp hny
    have hv : ny.value = nx.value := by rw [heq]
    rw [walkWeight_nil]
    omega
  | cons e c ih =>
    intro x y hw hr nx ny hnx hny
    obtain ⟨he, hw'⟩ := hw
    obtain ⟨nfx, hnfx, hlt⟩ := hfin x hr
    have heq : nfx = nx := by
      rw [hnx] at hnfx
      exact (Option.some_inj.mp hnfx).symm
    have hxlt : nx.value < INF := by
      rw [← heq]
      exact hlt
    have hrt : Reachable g s e.target := by
      obtain ⟨rs, hrs⟩ := hr
      exact ⟨rs ++ [e], isWalk_append_edge g rs s x e hrs he⟩
    obtain ⟨nt, hnt, _⟩ := hfin e.target hrt
    have hstep := hstab x e he nx nt hnx hnt (by omega)
    have hrec := ih e.target y hw' hrt nt ny hnt hny
    rw [walkWeight_cons]
    omega

/-- Bellman-Ford in the unbounded-integer model, for a well-formed graph
whose simple-path weights from the source all lie strictly inside the
`INT_MAX` sentinel range: if a negative-weight cycle is reachable from the
source the returned map is empty; otherwise every graph vertex gets an entry
whose distance is realised by a walk from the source and bounds every walk
from the source (the optimum), with unreachable vertices left at the
sentinel. -/
theorem bellmanFord_plain_spec (g : Graph) (s : Vertex) (hwf : WF g)
    (hs : s ∈ g.vertexHead) (hrange : PathsInRange g s.id) :
    (NegCycleReachable g s.id →
      singleSourceShortestPath_bellmanFord g s = hmEmpty) ∧
    (¬ NegCycleReachable g s.id →
      ∀ v ∈ vertexIds g,
        ∃ n, hmFind (singleSourceShortestPath_bellmanFord g s) v = some n ∧
          (Reachable g s.id v →
            (∃ es, isWalk g s.id es v ∧ walkWeight es = n.value) ∧
            (∀ es, isWalk g s.id es v → n.value ≤ walkWeight es)) ∧
          (¬ Reachable g s.id v → n.value = INF)) := by
  have hsid : s.id ∈ vertexIds g := List.mem_map.mpr ⟨s, hs, rfl⟩
  have hnum : 1 ≤ g.numVertex := by
    have h2 := hwf.2.1
    have h3 : 0 < g.vertexHead.length := List.length_pos.mpr
      (fun hnil => by rw [hnil] at hs; exact absurd hs (List.not_mem_nil s))
    omega
  have hdef : singleSourceShortestPath_bellmanFord g s =
      (if (detectVerts g g.vertexHead
            ((relaxPass g)^[g.numVertex - 1] (ssInit g s))).1 then hmEmpty
       else (detectVerts g g.vertexHead
            ((relaxPass g)^[g.numVertex - 1] (ssInit g s))).2) := rfl
  set M := (relaxPass g)^[g.numVertex - 1] (ssInit g s) with hM
  have hdom : ∀ x ∈ vertexIds g, (hmFind M x).isSome = true := by
    intro x hx
    rw [hM, passes_isSome]
    exact ssInit_dom g s x hx
  have hsound : SSound g s.id M := by
    rw [hM]
    exact passes_sound g s (g.numVertex - 1)
  have hub : ∀ (v : Nat) (ps : List AdjNode), isWalk g s.id ps v →
      (walkVerts s.id ps).Nodup → ∀ n, hmFind M v = some n →
        n.value ≤ walkWeight ps := by
    intro v ps hpw hpnd n hn
    have hlen := simple_len_le g hwf s.id hsid ps v hpw hpnd
    exact passes_ub g s hwf hrange (g.numVertex - 1) v ps hpw hpnd
      (by omega) n (by rw [← hM]; exact hn)
  have hfin : ∀ x, Reachable g s.id x →
      ∃ n, hmFind M x = some n ∧ n.value < INF := by
    intro x hr
    obtain ⟨es, hw⟩ := hr
    obtain ⟨ps, hpw, hpnd⟩ :=
      walk_to_simple_ex g s.id es.length es x (le_refl _) hw
    have hx : x ∈ vertexIds g := reach_mem_ids g hwf s.id hsid x ⟨es, hw⟩
    obtain ⟨n, hn⟩ := Option.isSome_iff_exists.mp (hdom x hx)
    refine ⟨n, hn, ?_⟩
    have h1 := hub x ps hpw hpnd n hn
    have h2 := (hrange x ps hpw hpnd).2
    omega
  constructor
  · -- a reachable negative cycle forces the empty result
    intro hneg
    by_cases hdet1 : (detectVerts g g.vertexHead M).1 = true
    · rw [hdef, if_pos hdet1]
    · exfalso
      have hdet2 : (detectVerts g g.vertexHead M).1 = false := by
        cases h : (detectVerts g g.vertexHead M).1
        · rfl
        · exact absurd h hdet1
      obtain ⟨_, hstab_all⟩ := detectVerts_false_inv g g.vertexHead M _ _ rfl hdet2
      have hstab : ∀ u (e : AdjNode), e ∈ g.adj u → ∀ nu nt,
          hmFind M u = some nu → hmFind M e.target = some nt →
          nu.value ≠ INF → nt.value ≤ nu.value + e.weight := by
        intro u e he nu nt hnu hnt hne
        have hu := WF_adj_source g hwf u e he
        obtain ⟨x, hx, hxid⟩ := List.mem_map.mp hu
        have hfalse := hstab_all x hx e (by rw [hxid]; exact he)
        rw [hxid] at hfalse
        rw [relax_edge_some u e M nt nu hnt hnu] at hfalse
        by_cases hc : nu.value ≠ INF ∧ nt.value > nu.value + e.weight
        · rw [if_pos hc] at hfalse
          exact absurd hfalse (by simp)
        · rcases not_and_or.mp hc with h | h
          · exact absurd hne h
          · exact not_lt.mp h
      obtain ⟨x0, rs0, c, hw0, hcne, hcyc, hlt⟩ := hneg
      have hr0 : Reachable g s.id x0 := ⟨rs0, hw0⟩
      obtain ⟨n0, hn0, _⟩ := hfin x0 hr0
      have hcontra := stable_walk g s.id M hstab hfin c x0 x0 hcyc hr0 n0 n0 hn0 hn0
      omega
  · -- no reachable negative cycle: the detection pass finds nothing and the
    -- map after the main passes is optimal
    intro hneg
    have hncw : ∀ x c, Reachable g s.id x → c ≠ [] → isWalk g x c x →
        0 ≤ walkWeight c := by
      intro x c hr hcne hcyc
      by_contra hlt
      obtain ⟨rs, hrs⟩ := hr
      exact hneg ⟨x, rs, c, hrs, hcne, hcyc, not_le.mp hlt⟩
    have hstab_false : ∀ v ∈ g.vertexHead, ∀ e ∈ g.adj v.id,
        (relax_edge v.id e M).1 = false := by
      intro v hv e he
      have hvid : v.id ∈ vertexIds g := List.mem_map.mpr ⟨v, hv, rfl⟩
      obtain ⟨nu, hnu⟩ := Option.isSome_iff_exists.mp (hdom v.id hvid)
      obtain ⟨nt, hnt⟩ := Option.isSome_iff_exists.mp
        (hdom e.target (WF_adj_target g hwf v.id e he))
      rw [relax_edge_some v.id e M nt nu hnt hnu]
      by_cases hc : nu.value ≠ INF ∧ nt.value > nu.value + e.weight
      · exfalso
        obtain ⟨hne, hgt⟩ := hc
        rcases hsound v.id nu hnu with hINF | ⟨es, hw, hwt⟩
        · exact hne hINF
        · have hw2 : isWalk g s.id (es ++ [e]) e.target :=
            isWalk_append_edge g es s.id v.id e hw he
          obtain ⟨ps, hpw, hpnd, hple⟩ := walk_to_simple g s.id hncw
            (es ++ [e]).length (es ++ [e]) e.target (le_refl _) hw2
          have h1 := hub e.target ps hpw hpnd nt hnt
          rw [walkWeight_append, walkWeight_cons, walkWeight_nil, hwt] at hple
          omega
      · rw [if_neg hc]
    have hdet := detectVerts_all_false g g.vertexHead M hstab_false
    have hres : singleSourceShortestPath_bellmanFord g s = M := by
      rw [hdef, hdet]
      rfl
    rw [hres]
    intro v hv
    obtain ⟨n, hn⟩ := Option.isSome_iff_exists.mp (hdom v hv)
    refine ⟨n, hn, ?_, ?_⟩
    · intro hr
      obtain ⟨nf, hnf, hflt⟩ := hfin v hr
      have hne : nf = n := by
        rw [hn] at hnf
        exact (Option.some_inj.mp hnf).symm
      have hnlt : n.value < INF := by
        rw [← hne]
        exact hflt
      constructor
      · rcases hsound v n hn with hINF | hok
        · omega
        · exact hok
      · intro es hw
        obtain ⟨ps, hpw, hpnd, hple⟩ := walk_to_simple g s.id hncw
          es.length es v (le_refl _) hw
        have h1 := hub v ps hpw hpnd n hn
        omega
    · intro hnr
      rcases hsound v n hn with hINF | ⟨es, hw, _⟩
      · exact hINF
      · exact absurd ⟨es, hw⟩ hnr

/-- **C2 counterexample.** On `exStuckGraph` the execution is free of
undefined behaviour — the faithful `int`-arithmetic run returns a result,
equal to the unbounded-model run — a negative cycle (`1 -> 1` of weight
`-1`) is reachable from the source `0`, and yet the returned map is
non-empty: relaxing `0 -> 1` computes `0 + INT_MAX` (in range), which is
not strictly below the target's `INT_MAX` sentinel, so the reachable vertex
`1` is stuck at the sentinel, every relaxation out of it is short-circuited
by the sentinel guard before any addition, and the cycle is never
detected. -/
theorem bellmanFord_cex :
    WF exStuckGraph ∧
    singleSourceShortestPath_bellmanFord_c exStuckGraph ⟨0, 0⟩ =
      some (singleSourceShortestPath_bellmanFord exStuckGraph ⟨0, 0⟩) ∧
    NegCycleReachable exStuckGraph 0 ∧
    singleSourceShortestPath_bellmanFord exStuckGraph ⟨0, 0⟩ ≠ hmEmpty ∧
    Reachable exStuckGraph 0 1 ∧
    hmFind (singleSourceShortestPath_bellmanFord exStuckGraph ⟨0, 0⟩) 1 =
      some ⟨INF, -1⟩ := by
  refine ⟨?_, ?_, ⟨1, [⟨1, INF⟩], [⟨1, -1⟩], ?_, ?_, ?_, ?_⟩,
    ?_, ⟨[⟨1, INF⟩], ?_⟩, ?_⟩
  · decide
  · decide
  · decide
  · simp
  · decide
  · decide
  · decide
  · decide
  · decide

theorem relax_edge_c_some (alt : Nat) (e : AdjNode) (m : HMap) (r : Bool × HMap)
    (h : relax_edge_c alt e m = some r) : relax_edge alt e m = r := by
  cases h1 : hmFind m e.target with
  | none =>
    rw [relax_edge_none alt e m (Or.inl h1)]
    unfold relax_edge_c at h
    cases h2 : hmFind m alt <;> simp only [h1, h2] at h <;>
      exact Option.some_inj.mp h
  | some cur =>
    cases h2 : hmFind m alt with
    | none =>
      rw [relax_edge_none alt e m (Or.inr h2)]
      unfold relax_edge_c at h
      simp only [h1, h2] at h
      exact Option.some_inj.mp h
    | some altN =>
      rw [relax_edge_some alt e m cur altN h1 h2]
      unfold relax_edge_c at h
      simp only [h1, h2] at h
      by_cases hI : altN.value = INF
      · rw [if_pos hI] at h
        rw [if_neg (fun hc => hc.1 hI)]
        exact Option.some_inj.mp h
      · rw [if_neg hI] at h
        by_cases hov : altN.value + e.weight < INT_MIN ∨ INF < altN.value + e.weight
        · rw [if_pos hov] at h
          exact absurd h (by simp)
        · rw [if_neg hov] at h
          by_cases hgt : cur.value > altN.value + e.weight
          · rw [if_pos hgt] at h
            rw [if_pos ⟨hI, hgt⟩]
            exact Option.some_inj.mp h
          · rw [if_neg hgt] at h
            rw [if_neg (fun hc => hgt hc.2)]
            exact Option.some_inj.mp h

theorem relaxList_c_eq (u : Nat) (e : AdjNode) (es : List AdjNode) (m : HMap) :
    relaxList_c u (e :: es) m =
      (relax_edge_c u e m).bind fun rm => relaxList_c u es rm.2 := rfl

theorem relaxList_c_some (u : Nat) :
    ∀ (es : List AdjNode) (m M : HMap), relaxList_c u es m = some M →
      relaxList u es m = M := by
  intro es
  induction es with
  | nil =>
    intro m M h
    exact Option.some_inj.mp h
  | cons e es ih =>
    intro m M h
    rw [relaxList_c_eq] at h
    obtain ⟨rm, h1, h2⟩ := Option.bind_eq_some.mp h
    rw [relaxList_eq, relax_edge_c_some u e m rm h1]
    exact ih rm.2 M h2

theorem relaxVerts_c_eq (g : Graph) (v : Vertex) (vs : List Vertex) (m : HMap) :
    relaxVerts_c g (v :: vs) m =
      (relaxList_c v.id (g.adj v.id) m).bind fun m1 => relaxVerts_c g vs m1 := rfl

theorem relaxVerts_c_some (g : Graph) :
    ∀ (vs : List Vertex) (m M : HMap), relaxVerts_c g vs m = some M →
      vs.foldl (fun m x => relaxList x.id (g.adj x.id) m) m = M := by
  intro vs
  induction vs with
  | nil =>
    intro m M h
    exact Option.some_inj.mp h
  | cons v vs ih =>
    intro m M h
    rw [relaxVerts_c_eq] at h
    obtain ⟨m1, h1, h2⟩ := Option.bind_eq_some.mp h
    rw [List.foldl_cons, relaxList_c_some v.id (g.adj v.id) m m1 h1]
    exact ih m1 M h2

theorem relaxPasses_c_eq (g : Graph) (k : Nat) (m : HMap) :
    relaxPasses_c g (k + 1) m =
      (relaxVerts_c g g.vertexHead m).bind fun m1 => relaxPasses_c g k m1 := rfl

theorem relaxPasses_c_some (g : Graph) :
    ∀ (k : Nat) (m M : HMap), relaxPasses_c g k m = some M →
      (relaxPass g)^[k] m = M := by
  intro k
  induction k with
  | zero =>
    intro m M h
    exact Option.some_inj.mp h
  | succ k ih =>
    intro m M h
    rw [relaxPasses_c_eq] at h
    obtain ⟨m1, h1, h2⟩ := Option.bind_eq_some.mp h
    rw [Function.iterate_succ_apply]
    have hp : relaxPass g m = m1 := relaxVerts_c_some g g.vertexHead m m1 h1
    rw [hp]
    exact ih m1 M h2

theorem detectList_c_eq (u : Nat) (e : AdjNode) (es : List AdjNode) (m : HMap) :
    detectList_c u (e :: es) m =
      (relax_edge_c u e m).bind fun rm =>
        if rm.1 then some (true, rm.2) else detectList_c u es rm.2 := rfl

theorem detectList_c_some (u : Nat) :
    ∀ (es : List AdjNode) (m : HMap) (r : Bool × HMap),
      detectList_c u es m = some r → detectList u es m = r := by
  intro es
  induction es with
  | nil =>
    intro m r h
    exact Option.some_inj.mp h
  | cons e es ih =>
    intro m r h
    rw [detectList_c_eq] at h
    obtain ⟨rm, h1, h2⟩ := Option.bind_eq_some.mp h
    rw [detectList_cons, relax_edge_c_some u e m rm h1]
    by_cases hb : rm.1 = true
    · rw [if_pos hb] at h2 ⊢
      exact Option.some_inj.mp h2
    · rw [if_neg hb] at h2 ⊢
      exact ih rm.2 r h2

theorem detectVerts_c_eq (g : Graph) (v : Vertex) (vs : List Vertex) (m : HMap) :
    detectVerts_c g (v :: vs) m =
      (detectList_c v.id (g.adj v.id) m).bind fun rm =>
        if rm.1 then some (true, rm.2) else detectVerts_c g vs rm.2 := rfl

theorem detectVerts_c_some (g : Graph) :
    ∀ (vs : List Vertex) (m : HMap) (r : Bool × HMap),
      detectVerts_c g vs m = some r → detectVerts g vs m = r := by
  intro vs
  induction vs with
  | nil =>
    intro m r h
    exact Option.some_inj.mp h
  | cons v vs ih =>
    intro m r h
    rw [detectVerts_c_eq] at h
    obtain ⟨rm, h1, h2⟩ := Option.bind_eq_some.mp h
    rw [detectVerts_cons, detectList_c_some v.id (g.adj v.id) m rm h1]
    by_cases hb : rm.1 = true
    · rw [if_pos hb] at h2 ⊢
      exact Option.some_inj.mp h2
    · rw [if_neg hb] at h2 ⊢
      exact ih rm.2 r h2

/-- On every defined (overflow-free) execution, the faithful `int` model of
Bellman-Ford agrees with the unbounded-integer model. -/
theorem bf_c_some (g : Graph) (s : Vertex) (M : HMap)
    (h : singleSourceShortestPath_bellmanFord_c g s = some M) :
    singleSourceShortestPath_bellmanFord g s = M := by
  unfold singleSourceShortestPath_bellmanFord_c at h
  obtain ⟨m1, h1, h2⟩ := Option.bind_eq_some.mp h
  obtain ⟨nm, h3, h4⟩ := Option.map_eq_some'.mp h2
  have hp := relaxPasses_c_some g (g.numVertex - 1) (ssInit g s) m1 h1
  have hd := detectVerts_c_some g g.vertexHead m1 nm h3
  show (if (detectVerts g g.vertexHead
        ((relaxPass g)^[g.numVertex - 1] (ssInit g s))).1 then hmEmpty
      else (detectVerts g g.vertexHead
        ((relaxPass g)^[g.numVertex - 1] (ssInit g s))).2) = M
  rw [hp, hd]
  exact h4

/-- **C2 (amended).** For a well-formed graph, a source vertex of it whose
simple-path weights all lie strictly inside the `INT_MAX` sentinel range,
and an execution free of signed-overflow undefined behaviour (the faithful
32-bit `int` run returns a result), Bellman-Ford behaves as specified: if a
negative-weight cycle is reachable from the source the returned map is
empty; otherwise every graph vertex gets an entry whose distance is
realised by a walk from the source and bounds every walk from the source
(the optimum), with unreachable vertices left at the sentinel.  Without
these provisos the claim is false: see the counterexample. -/
theorem bellmanFord_spec (g : Graph) (s : Vertex) (M : HMap) (hwf : WF g)
    (hs : s ∈ g.vertexHead) (hrange : PathsInRange g s.id)
    (hrun : singleSourceShortestPath_bellmanFord_c g s = some M) :
    (NegCycleReachable g s.id → M = hmEmpty) ∧
    (¬ NegCycleReachable g s.id →
      ∀ v ∈ vertexIds g,
        ∃ n, hmFind M v = some n ∧
          (Reachable g s.id v →
            (∃ es, isWalk g s.id es v ∧ walkWeight es = n.value) ∧
            (∀ es, isWalk g s.id es v → n.value ≤ walkWeight es)) ∧
          (¬ Reachable g s.id v → n.value = INF)) := by
  rw [← bf_c_some g s M hrun]
  exact bellmanFord_plain_spec g s hwf hs hrange

/-- Witness for the amended C2 at the concrete graph `0 -> 1` (weight `5`),
whose faithful `int` run is defined and overflow-free. -/
theorem bellmanFord_spec_witness :
    WF exGraphW ∧ (⟨0, 10⟩ : Vertex) ∈ exGraphW.vertexHead ∧
    PathsInRange exGraphW 0 ∧
    singleSourceShortestPath_bellmanFord_c exGraphW ⟨0, 10⟩ =
      some (singleSourceShortestPath_bellmanFord exGraphW ⟨0, 10⟩) ∧
    (¬ NegCycleReachable exGraphW 0 →
      ∀ v ∈ vertexIds exGraphW,
        ∃ n, hmFind (singleSourceShortestPath_bellmanFord exGraphW ⟨0, 10⟩)
            v = some n ∧
          (Reachable exGraphW 0 v →
            (∃ es, isWalk exGraphW 0 es v ∧ walkWeight es = n.value) ∧
            (∀ es, isWalk exGraphW 0 es v → n.value ≤ walkWeight es)) ∧
          (¬ Reachable exGraphW 0 v → n.value = INF)) := by
  have h1 : WF exGraphW := by decide
  have h2 : (⟨0, 10⟩ : Vertex) ∈ exGraphW.vertexHead := by decide
  have h3 : PathsInRange exGraphW 0 := by
    intro v es hw hnd
    cases es with
    | nil => decide
    | cons e es' =>
      obtain ⟨he, hw'⟩ := hw
      have hadj0 : exGraphW.adj 0 = [⟨1, 5⟩] := by decide
      rw [hadj0] at he
      have heq : e = ⟨1, 5⟩ := by simpa using he
      subst heq
      cases es' with
      | nil => decide
      | cons e2 es'' =>
        obtain ⟨he2, _⟩ := hw'
        have he2' : e2 ∈ exGraphW.adj 1 := he2
        have hadj1 : exGraphW.adj 1 = [] := by decide
        rw [hadj1] at he2'
        exact absurd he2' (List.not_mem_nil e2)
  have h4 : singleSourceShortestPath_bellmanFord_c exGraphW ⟨0, 10⟩ =
      some (singleSourceShortestPath_bellmanFord exGraphW ⟨0, 10⟩) := by decide
  exact ⟨h1, h2, h3, h4, (bellmanFord_spec exGraphW ⟨0, 10⟩ _ h1 h2 h3 h4).2⟩

/-! ### C5: the binary min-heap -/

theorem parent_lt (j : Nat) (h : 0 < j) : parent_pos j < j := by
  unfold parent_pos
  omega

theorem parent_left (i : Nat) : parent_pos (left_pos i) = i := by
  unfold parent_pos left_pos
  omega

theorem parent_right (i : Nat) : parent_pos (right_pos i) = i := by
  unfold parent_pos right_pos
  omega

theorem child_cases (i c : Nat) (hp : parent_pos c = i) (hc : 0 < c) :
    c = left_pos i ∨ c = right_pos i := by
  unfold parent_pos at hp
  unfold left_pos right_pos
  omega

theorem isDescF_congr (i : Nat) :
    ∀ (jb f f' j : Nat), j ≤ jb → j < f → j < f' →
      isDescF i f j = isDescF i f' j := by
  intro jb
  induction jb with
  | zero =>
    intro f f' j hj hf hf'
    obtain ⟨fa, rfl⟩ : ∃ fa, f = fa + 1 := ⟨f - 1, by omega⟩
    obtain ⟨fb, rfl⟩ : ∃ fb, f' = fb + 1 := ⟨f' - 1, by omega⟩
    have hj0 : j = 0 := by omega
    subst hj0
    unfold isDescF
    by_cases hji : (0 : Nat) = i
    · rw [if_pos hji, if_pos hji]
    · rw [if_neg hji, if_neg hji, if_pos rfl, if_pos rfl]
  | succ jb ih =>
    intro f f' j hj hf hf'
    obtain ⟨fa, rfl⟩ : ∃ fa, f = fa + 1 := ⟨f - 1, by omega⟩
    obtain ⟨fb, rfl⟩ : ∃ fb, f' = fb + 1 := ⟨f' - 1, by omega⟩
    unfold isDescF
    by_cases hji : j = i
    · rw [if_pos hji, if_pos hji]
    · rw [if_neg hji, if_neg hji]
      by_cases hj0 : j = 0
      · rw [if_pos hj0, if_pos hj0]
      · rw [if_neg hj0, if_neg hj0]
        have hplt : parent_pos j < j := parent_lt j (by omega)
        exact ih fa fb (parent_pos j) (by omega) (by omega) (by omega)

theorem isDesc_eq (i j : Nat) :
    isDesc i j =
      (if j = i then true else if j = 0 then false else isDesc i (parent_pos j)) := by
  unfold isDesc
  conv_lhs => rw [show j + 1 = (j) + 1 from rfl]
  unfold isDescF
  by_cases hji : j = i
  · rw [if_pos hji, if_pos hji]
  · rw [if_neg hji, if_neg hji]
    by_cases hj0 : j = 0
    · rw [if_pos hj0, if_pos hj0]
    · rw [if_neg hj0, if_neg hj0]
      have hplt : parent_pos j < j := parent_lt j (by omega)
      exact isDescF_congr i (parent_pos j) j (parent_pos j + 1) (parent_pos j)
        (le_refl _) (by omega) (by omega)

theorem desc_refl (i : Nat) : isDesc i i = true := by
  rw [isDesc_eq, if_pos rfl]

theorem desc_ge (i : Nat) : ∀ j, isDesc i j = true → i ≤ j := by
  intro j
  induction j using Nat.strong_induction_on with
  | _ j ih =>
    intro hd
    rw [isDesc_eq] at hd
    by_cases hji : j = i
    · omega
    · rw [if_neg hji] at hd
      by_cases hj0 : j = 0
      · rw [if_pos hj0] at hd
        exact absurd hd (by simp)
      · rw [if_neg hj0] at hd
        have hplt : parent_pos j < j := parent_lt j (by omega)
        have := ih (parent_pos j) hplt hd
        omega

theorem desc_parent_of (i : Nat) (j : Nat) (hd : isDesc i j = true) (hji : j ≠ i) :
    j ≠ 0 ∧ isDesc i (parent_pos j) = true := by
  rw [isDesc_eq, if_neg hji] at hd
  by_cases hj0 : j = 0
  · rw [if_pos hj0] at hd
    exact absurd hd (by simp)
  · rw [if_neg hj0] at hd
    exact ⟨hj0, hd⟩

theorem desc_of_parent (i j : Nat) (hj0 : j ≠ 0)
    (hd : isDesc i (parent_pos j) = true) : isDesc i j = true := by
  rw [isDesc_eq]
  by_cases hji : j = i
  · rw [if_pos hji]
  · rw [if_neg hji, if_neg hj0]
    exact hd

theorem desc_trans (i j : Nat) : ∀ k, isDesc i j = true → isDesc j k = true →
    isDesc i k = true := by
  intro k
  induction k using Nat.strong_induction_on with
  | _ k ih =>
    intro hij hjk
    by_cases hkj : k = j
    · rw [hkj]
      exact hij
    · obtain ⟨hk0, hpar⟩ := desc_parent_of j k hjk hkj
      have hplt : parent_pos k < k := parent_lt k (by omega)
      exact desc_of_parent i k hk0 (ih (parent_pos k) hplt hij hpar)

theorem desc_child (i : Nat) (c : Nat) (hp : parent_pos c = i) (hc : 0 < c) :
    isDesc i c = true :=
  desc_of_parent i c (by omega) (by rw [hp]; exact desc_refl i)

theorem desc_linear (a b : Nat) : ∀ j, isDesc a j = true → isDesc b j = true →
    isDesc a b = true ∨ isDesc b a = true := by
  intro j
  induction j using Nat.strong_induction_on with
  | _ j ih =>
    intro haj hbj
    by_cases hja : j = a
    · right
      rw [← hja]
      exact hbj
    · by_cases hjb : j = b
      · left
        rw [← hjb]
        exact haj
      · obtain ⟨hj0, hpa⟩ := desc_parent_of a j haj hja
        obtain ⟨_, hpb⟩ := desc_parent_of b j hbj hjb
        exact ih (parent_pos j) (parent_lt j (by omega)) hpa hpb

theorem desc_child_split (i : Nat) : ∀ j, isDesc i j = true → j ≠ i →
    isDesc (left_pos i) j = true ∨ isDesc (right_pos i) j = true := by
  intro j
  induction j using Nat.strong_induction_on with
  | _ j ih =>
    intro hd hji
    obtain ⟨hj0, hpar⟩ := desc_parent_of i j hd hji
    by_cases hpi : parent_pos j = i
    · rcases child_cases i j hpi (by omega) with h | h
      · left
        rw [h]
        exact desc_refl _
      · right
        rw [h]
        exact desc_refl _
    · rcases ih (parent_pos j) (parent_lt j (by omega)) hpar hpi with h | h
      · exact Or.inl (desc_of_parent _ j hj0 h)
      · exact Or.inr (desc_of_parent _ j hj0 h)

theorem not_desc_sibling (i s c : Nat) (hps : parent_pos s = i) (hpc : parent_pos c = i)
    (hsc : s ≠ c) (hsi : i < s) (hci : i < c) : isDesc s c = false := by
  cases hd : isDesc s c with
  | false => rfl
  | true =>
    exfalso
    obtain ⟨hc0, hpar⟩ := desc_parent_of s c hd (fun h => hsc h.symm)
    rw [hpc] at hpar
    have := desc_ge s i hpar
    omega

theorem getD_set {α : Type} (l : List α) (i j : Nat) (b d : α) (hi : i < l.length) :
    (l.set i b).getD j d = if j = i then b else l.getD j d := by
  by_cases hjl : j < l.length
  · rw [List.getD_eq_getElem (l.set i b) d (by rw [List.length_set]; exact hjl),
      List.getElem_set]
    by_cases hj : j = i
    · rw [if_pos hj, if_pos hj.symm]
    · rw [if_neg hj, if_neg (fun h => hj h.symm), List.getD_eq_getElem l d hjl]
  · have hj : j ≠ i := by omega
    rw [if_neg hj, List.getD_eq_default l d (by omega),
      List.getD_eq_default (l.set i b) d (by rw [List.length_set]; omega)]

theorem heapSwap_arrLen (h : Heap) (i s : Nat) :
    (heapSwap h i s).arr.length = h.arr.length := by
  unfold heapSwap
  rw [List.length_set, List.length_set]

theorem heapSwap_idAt (h : Heap) (i s : Nat) (hi : i < h.arr.length)
    (hs : s < h.arr.length) (j : Nat) :
    (heapSwap h i s).idAt j =
      if j = s then h.idAt i else if j = i then h.idAt s else h.idAt j := by
  show ((h.arr.set i (h.idAt s)).set s (h.idAt i)).getD j 0 = _
  rw [getD_set _ s j _ _ (by rw [List.length_set]; exact hs),
    getD_set _ i j _ _ hi]
  rfl

theorem heapSwap_posGet (h : Heap) (i s : Nat) (x : Nat) :
    naGet (heapSwap h i s).pos x =
      if x = h.idAt s then naGet h.pos (h.idAt i)
      else if x = h.idAt i then naGet h.pos (h.idAt s)
      else naGet h.pos x := by
  show naGet (naSet (naSet h.pos (h.idAt i) (naGet h.pos (h.idAt s)))
      (h.idAt s) (naGet h.pos (h.idAt i))) x = _
  rw [naGet_set]
  by_cases hx : x = h.idAt s
  · rw [if_pos hx, if_pos hx]
  · rw [if_neg hx, if_neg hx, naGet_set]

theorem posOK_inj (size : Nat) (h : Heap) (hpos : PosOK size h)
    (j1 j2 : Nat) (h1 : j1 < size) (h2 : j2 < size)
    (heq : h.idAt j1 = h.idAt j2) : j1 = j2 := by
  have e1 := hpos j1 h1
  have e2 := hpos j2 h2
  rw [heq] at e1
  omega

theorem heapSwap_posOK (h : Heap) (size i s : Nat) (hpos : PosOK size h)
    (hi : i < size) (hs : s < size) (his : i ≠ s)
    (hsz : size ≤ h.arr.length) :
    PosOK size (heapSwap h i s) := by
  have hne : h.idAt i ≠ h.idAt s := by
    intro heq
    exact his (posOK_inj size h hpos i s hi hs heq)
  intro j hj
  rw [heapSwap_idAt h i s (by omega) (by omega) j]
  by_cases hjs : j = s
  · rw [if_pos hjs, heapSwap_posGet, if_neg hne, if_pos rfl, hpos s hs, hjs]
  · rw [if_neg hjs]
    by_cases hji : j = i
    · rw [if_pos hji, heapSwap_posGet, if_pos rfl, hpos i hi, hji]
    · rw [if_neg hji, heapSwap_posGet]
      have hne1 : h.idAt j ≠ h.idAt s := by
        intro heq
        exact hjs (posOK_inj size h hpos j s hj hs heq)
      have hne2 : h.idAt j ≠ h.idAt i := by
        intro heq
        exact hji (posOK_inj size h hpos j i hj hi heq)
      rw [if_neg hne1, if_neg hne2]
      exact hpos j hj

/-- Among the slots of a (sub)heap the root key is minimal. -/
theorem subtree_root_min (m : HMap) (size : Nat) (h : Heap) (r : Nat)
    (hgood : ∀ j, j < size → isDesc r j = true → j ≠ r →
      hkey m (h.idAt (parent_pos j)) ≤ hkey m (h.idAt j)) :
    ∀ j, j < size → isDesc r j = true →
      hkey m (h.idAt r) ≤ hkey m (h.idAt j) := by
  intro j
  induction j using Nat.strong_induction_on with
  | _ j ih =>
    intro hj hd
    by_cases hjr : j = r
    · rw [hjr]
    · obtain ⟨hj0, hpar⟩ := desc_parent_of r j hd hjr
      have hplt : parent_pos j < j := parent_lt j (by omega)
      have h1 := ih (parent_pos j) hplt (by omega) hpar
      have h2 := hgood j hj hd hjr
      omega

theorem left_gt (i : Nat) : i < left_pos i := by
  unfold left_pos
  omega

theorem right_gt (i : Nat) : i < right_pos i := by
  unfold right_pos
  omega

theorem smallestIdx_spec (m : HMap) (size : Nat) (h : Heap) (i : Nat) :
    (smallestIdx m size h i = i ∨ smallestIdx m size h i = left_pos i ∨
      smallestIdx m size h i = right_pos i) ∧
    (smallestIdx m size h i ≠ i →
      i < smallestIdx m size h i ∧ smallestIdx m size h i < size ∧
      hkey m (h.idAt (smallestIdx m size h i)) < hkey m (h.idAt i)) ∧
    (left_pos i < size →
      hkey m (h.idAt (smallestIdx m size h i)) ≤ hkey m (h.idAt (left_pos i))) ∧
    (right_pos i < size →
      hkey m (h.idAt (smallestIdx m size h i)) ≤ hkey m (h.idAt (right_pos i))) ∧
    hkey m (h.idAt (smallestIdx m size h i)) ≤ hkey m (h.idAt i) := by
  have hli := left_gt i
  have hri := right_gt i
  simp only [smallestIdx]
  by_cases h1 : left_pos i < size ∧ hkey m (h.idAt (left_pos i)) < hkey m (h.idAt i)
  · rw [if_pos h1]
    by_cases h2 : right_pos i < size ∧
        hkey m (h.idAt (right_pos i)) < hkey m (h.idAt (left_pos i))
    · rw [if_pos h2]
      refine ⟨Or.inr (Or.inr rfl), fun _ => ⟨by omega, h2.1, by omega⟩,
        fun _ => by omega, fun _ => le_refl _, by omega⟩
    · rw [if_neg h2]
      refine ⟨Or.inr (Or.inl rfl), fun _ => ⟨by omega, h1.1, h1.2⟩,
        fun _ => le_refl _, ?_, le_of_lt h1.2⟩
      intro hrs
      rcases not_and_or.mp h2 with h | h
      · exact absurd hrs h
      · have := not_lt.mp h
        omega
  · rw [if_neg h1]
    by_cases h2 : right_pos i < size ∧
        hkey m (h.idAt (right_pos i)) < hkey m (h.idAt i)
    · rw [if_pos h2]
      refine ⟨Or.inr (Or.inr rfl), fun _ => ⟨by omega, h2.1, h2.2⟩,
        ?_, fun _ => le_refl _, le_of_lt h2.2⟩
      intro hls
      rcases not_and_or.mp h1 with h | h
      · exact absurd hls h
      · have := not_lt.mp h
        omega
    · rw [if_neg h2]
      refine ⟨Or.inl rfl, fun hne => absurd rfl hne, ?_, ?_, le_refl _⟩
      · intro hls
        rcases not_and_or.mp h1 with h | h
        · exact absurd hls h
        · exact not_lt.mp h
      · intro hrs
        rcases not_and_or.mp h2 with h | h
        · exact absurd hrs h
        · exact not_lt.mp h

theorem heapifyF_succ (m : HMap) (size f : Nat) (h : Heap) (i : Nat) :
    heapifyF m size (f + 1) h i =
      (if smallestIdx m size h i ≠ i then
        heapifyF m size f (heapSwap h i (smallestIdx m size h i))
          (smallestIdx m size h i)
       else h) := rfl

/-- The sift-down specification: with the two child subtrees already heaps,
`_heapify` makes the whole subtree of `i` a heap, touches no slot outside
that subtree, permutes ids within it (never increasing the root key), and
keeps every `heap_pos` field consistent. -/
theorem heapify_spec (m : HMap) (size : Nat) :
    ∀ (f : Nat) (h : Heap) (i : Nat),
      size ≤ f + i →
      size ≤ h.arr.length →
      PosOK size h →
      (∀ j, j < size → isDesc i j = true → j ≠ i → parent_pos j ≠ i →
        hkey m (h.idAt (parent_pos j)) ≤ hkey m (h.idAt j)) →
      (∀ j, j < size → isDesc i j = true → j ≠ i →
        hkey m ((heapifyF m size f h i).idAt (parent_pos j)) ≤
          hkey m ((heapifyF m size f h i).idAt j)) ∧
      (∀ j, isDesc i j = false ∨ size ≤ j →
        (heapifyF m size f h i).idAt j = h.idAt j) ∧
      (∀ j, j < size → isDesc i j = true →
        ∃ j', j' < size ∧ isDesc i j' = true ∧
          (heapifyF m size f h i).idAt j = h.idAt j') ∧
      hkey m ((heapifyF m size f h i).idAt i) ≤ hkey m (h.idAt i) ∧
      PosOK size (heapifyF m size f h i) ∧
      (heapifyF m size f h i).arr.length = h.arr.length := by
  intro f
  induction f with
  | zero =>
    intro h i hfuel hsz hpos hpre
    have hvac : ∀ j, j < size → isDesc i j = true → False := by
      intro j hj hd
      have := desc_ge i j hd
      omega
    exact ⟨fun j hj hd _ => absurd hd (by intro hh; exact hvac j hj hh),
      fun j _ => rfl,
      fun j hj hd => absurd hd (by intro hh; exact hvac j hj hh),
      le_refl _, hpos, rfl⟩
  | succ f ih =>
    intro h i hfuel hsz hpos hpre
    obtain ⟨scases, sne, sleft, sright, sle⟩ := smallestIdx_spec m size h i
    by_cases hsi : smallestIdx m size h i = i
    · have hstep : heapifyF m size (f + 1) h i = h := by
        rw [heapifyF_succ, if_neg (not_not_intro hsi)]
      rw [hstep]
      refine ⟨?_, fun j _ => rfl, fun j hj hd => ⟨j, hj, hd, rfl⟩,
        le_refl _, hpos, rfl⟩
      intro j hj hd hji
      by_cases hpj : parent_pos j = i
      · rw [hpj]
        have hj0 : 0 < j := by
          have := desc_ge i j hd
          omega
        rcases child_cases i j hpj hj0 with hc | hc
        · rw [hc]
          have := sleft (by rw [← hc]; exact hj)
          rw [hsi] at this
          exact this
        · rw [hc]
          have := sright (by rw [← hc]; exact hj)
          rw [hsi] at this
          exact this
      · exact hpre j hj hd hji hpj
    · set s := smallestIdx m size h i with hs
      obtain ⟨hslb, hsub, hskey⟩ := sne hsi
      have his : i ≠ s := fun hh => hsi hh.symm
      have hilt : i < size := by omega
      have hs0 : 0 < s := by omega
      have hps : parent_pos s = i := by
        rcases scases with hc | hc | hc
        · exact absurd hc hsi
        · rw [hc]
          exact parent_left i
        · rw [hc]
          exact parent_right i
      have hdis : isDesc i s = true := desc_child i s hps hs0
      have hstep : heapifyF m size (f + 1) h i =
          heapifyF m size f (heapSwap h i s) s := by
        rw [heapifyF_succ, if_pos hsi, ← hs]
      have hlen1 : (heapSwap h i s).arr.length = h.arr.length :=
        heapSwap_arrLen h i s
      have hid1 : ∀ j, (heapSwap h i s).idAt j =
          if j = s then h.idAt i else if j = i then h.idAt s else h.idAt j :=
        heapSwap_idAt h i s (by omega) (by omega)
      have hmin : ∀ j, j < size → isDesc s j = true →
          hkey m (h.idAt s) ≤ hkey m (h.idAt j) := by
        apply subtree_root_min
        intro j hj hd hjs
        have hjge := desc_ge s j hd
        have hj0 : j ≠ 0 := by omega
        have hpge := desc_ge s (parent_pos j) (desc_parent_of s j hd hjs).2
        exact hpre j hj (desc_trans i s j hdis hd) (by omega) (by omega)
      have hrec := ih (heapSwap h i s) s (by omega) (by rw [hlen1]; omega)
        (heapSwap_posOK h size i s hpos hilt hsub his hsz) ?pre
      case pre =>
        intro j hj hd hjs hpjs
        have hjge := desc_ge s j hd
        have hj0 : j ≠ 0 := by omega
        have hpge := desc_ge s (parent_pos j) (desc_parent_of s j hd hjs).2
        rw [hid1 j, if_neg hjs, if_neg (by omega), hid1 (parent_pos j),
          if_neg hpjs, if_neg (by omega)]
        exact hpre j hj (desc_trans i s j hdis hd) (by omega) (by omega)
      obtain ⟨R1, R2, R3, R4, R5, R6⟩ := hrec
      have hnotdesc_si : isDesc s i = false := by
        cases hx : isDesc s i with
        | false => rfl
        | true =>
          have := desc_ge s i hx
          omega
      have hQi : (heapifyF m size f (heapSwap h i s) s).idAt i = h.idAt s := by
        rw [R2 i (Or.inl hnotdesc_si), hid1 i, if_neg his, if_pos rfl]
      rw [hstep]
      refine ⟨?_, ?_, ?_, ?_, R5, by rw [R6, hlen1]⟩
      · -- the heap property on the whole subtree of i
        intro j hj hd hji
        by_cases hpj : parent_pos j = i
        · have hj0 : 0 < j := by
            have := desc_ge i j hd
            omega
          by_cases hjs : j = s
          · -- the edge i -> s
            rw [hpj, hQi, hjs]
            obtain ⟨j', hj'1, hj'2, hj'3⟩ := R3 s hsub (desc_refl s)
            rw [hj'3, hid1 j']
            by_cases hj's : j' = s
            · rw [if_pos hj's]
              omega
            · rw [if_neg hj's, if_neg (by
                have := desc_ge s j' hj'2
                omega)]
              exact hmin j' hj'1 hj'2
          · -- the edge i -> other child
            have hnd : isDesc s j = false := by
              rcases child_cases i j hpj hj0 with hc | hc <;>
                rcases scases with hx | hx | hx
              · exact absurd hx hsi
              · rw [hc, hx] at hjs ⊢
                exact absurd rfl hjs
              · rw [hc, hx] at hjs ⊢
                exact not_desc_sibling i (right_pos i) (left_pos i)
                  (parent_right i) (parent_left i)
                  (by intro hh; unfold left_pos right_pos at hh; omega)
                  (right_gt i) (left_gt i)
              · exact absurd hx hsi
              · rw [hc, hx] at hjs ⊢
                exact not_desc_sibling i (left_pos i) (right_pos i)
                  (parent_left i) (parent_right i)
                  (by intro hh; unfold left_pos right_pos at hh; omega)
                  (left_gt i) (right_gt i)
              · rw [hc, hx] at hjs ⊢
                exact absurd rfl hjs
            rw [hpj, hQi, R2 j (Or.inl hnd), hid1 j, if_neg hjs, if_neg hji]
            rcases child_cases i j hpj hj0 with hc | hc
            · rw [hc]
              exact sleft (by rw [← hc]; exact hj)
            · rw [hc]
              exact sright (by rw [← hc]; exact hj)
        · -- an edge strictly below the children of i
          by_cases hdsj : isDesc s j = true
          · have hjs : j ≠ s := by
              intro hh
              rw [hh] at hpj
              exact hpj hps
            exact R1 j hj hdsj hjs
          · have hjs : j ≠ s := by
              intro hh
              rw [hh] at hdsj
              exact hdsj (desc_refl s)
            have hj0 : j ≠ 0 := by
              have := desc_ge i j hd
              intro hh
              omega
            have hndp : isDesc s (parent_pos j) = false := by
              cases hx : isDesc s (parent_pos j) with
              | false => rfl
              | true => exact absurd (desc_of_parent s j hj0 hx) hdsj
            have hpns : parent_pos j ≠ s := by
              intro hh
              exact hdsj (desc_of_parent s j hj0 (by rw [hh]; exact desc_refl s))
            rw [R2 j (Or.inl (by cases hx : isDesc s j; rfl; exact absurd hx hdsj)),
              R2 (parent_pos j) (Or.inl hndp),
              hid1 j, if_neg hjs, if_neg hji,
              hid1 (parent_pos j), if_neg hpns, if_neg hpj]
            exact hpre j hj hd hji hpj
      · -- frame: slots outside the subtree of i are untouched
        intro j hj
        have hnds : isDesc s j = false ∨ size ≤ j := by
          rcases hj with hj | hj
          · left
            cases hx : isDesc s j with
            | false => rfl
            | true => exact absurd (desc_trans i s j hdis hx) (by rw [hj]; simp)
          · right
            exact hj
        rw [R2 j hnds, hid1 j]
        rcases hj with hj | hj
        · rw [if_neg (by intro hh; rw [hh] at hj; rw [hdis] at hj; simp at hj),
            if_neg (by intro hh; rw [hh] at hj; rw [desc_refl i] at hj; simp at hj)]
        · rw [if_neg (by omega), if_neg (by omega)]
      · -- content: ids within the subtree come from the subtree
        intro j hj hd
        by_cases hdsj : isDesc s j = true
        · obtain ⟨j', hj'1, hj'2, hj'3⟩ := R3 j hj hdsj
          rw [hj'3, hid1 j']
          by_cases hj's : j' = s
          · rw [if_pos hj's]
            exact ⟨i, hilt, desc_refl i, rfl⟩
          · rw [if_neg hj's, if_neg (by
              have := desc_ge s j' hj'2
              omega)]
            exact ⟨j', hj'1, desc_trans i s j' hdis hj'2, rfl⟩
        · have hjs : j ≠ s := by
            intro hh
            rw [hh] at hdsj
            exact hdsj (desc_refl s)
          rw [R2 j (Or.inl (by cases hx : isDesc s j; rfl; exact absurd hx hdsj)),
            hid1 j, if_neg hjs]
          by_cases hji : j = i
          · rw [if_pos hji]
            exact ⟨s, hsub, hdis, rfl⟩
          · rw [if_neg hji]
            exact ⟨j, hj, hd, rfl⟩
      · -- the root key never increases
        rw [hQi]
        omega

theorem buildPos_frame : ∀ (vs : List Vertex) (k : Nat) (p : NArr) (x : Nat),
    x ∉ vs.map (fun v => v.id) → naGet (buildPos vs k p) x = naGet p x := by
  intro vs
  induction vs with
  | nil => intro k p x _; rfl
  | cons v vs ih =>
    intro k p x hx
    have hx1 : x ∉ vs.map (fun v => v.id) := by
      intro hh
      exact hx (by simp only [List.map_cons, List.mem_cons]; exact Or.inr hh)
    have hx2 : x ≠ v.id := by
      intro hh
      exact hx (by simp only [List.map_cons, List.mem_cons]; exact Or.inl hh)
    show naGet (buildPos vs (k + 1) (naSet p v.id k)) x = naGet p x
    rw [ih (k + 1) (naSet p v.id k) x hx1, naGet_set, if_neg hx2]

theorem buildPos_spec : ∀ (vs : List Vertex) (k : Nat) (p : NArr),
    (vs.map (fun v => v.id)).Nodup →
    ∀ j, j < vs.length →
      naGet (buildPos vs k p) ((vs.map (fun v => v.id)).getD j 0) = k + j := by
  intro vs
  induction vs with
  | nil => intro k p _ j hj; simp at hj
  | cons v vs ih =>
    intro k p hnd j hj
    rw [List.map_cons] at hnd ⊢
    have hnd' := List.nodup_cons.mp hnd
    cases j with
    | zero =>
      rw [List.getD_cons_zero]
      show naGet (buildPos vs (k + 1) (naSet p v.id k)) v.id = k + 0
      rw [buildPos_frame vs (k + 1) _ v.id hnd'.1, naGet_set, if_pos rfl]
      omega
    | succ j =>
      rw [List.getD_cons_succ]
      show naGet (buildPos vs (k + 1) (naSet p v.id k))
        ((vs.map (fun v => v.id)).getD j 0) = k + (j + 1)
      rw [ih (k + 1) _ hnd'.2 j (by rw [List.length_cons] at hj; omega)]
      omega

theorem heapFill_idAt (vs : List Vertex) (j : Nat) :
    (heapFill vs).idAt j = (vs.map (fun v => v.id)).getD j 0 := rfl

theorem heapFill_len (vs : List Vertex) :
    (heapFill vs).arr.length = vs.length := by
  show (vs.map (fun v => v.id)).length = vs.length
  rw [List.length_map]

theorem heapFill_posOK (vs : List Vertex) (hnd : (vs.map (fun v => v.id)).Nodup) :
    PosOK vs.length (heapFill vs) := by
  intro j hj
  rw [heapFill_idAt]
  show naGet (buildPos vs 0 []) ((vs.map (fun v => v.id)).getD j 0) = j
  rw [buildPos_spec vs 0 [] hnd j hj]
  omega

theorem desc_zero (j : Nat) : isDesc 0 j = true := by
  induction j using Nat.strong_induction_on with
  | _ j ih =>
    rw [isDesc_eq]
    by_cases hj : j = 0
    · rw [if_pos hj]
    · rw [if_neg hj, if_neg hj]
      exact ih (parent_pos j) (parent_lt j (by omega))

theorem heapBuildLoop_spec (m : HMap) (size : Nat) :
    ∀ (k : Nat) (h : Heap),
      size ≤ h.arr.length → PosOK size h →
      (∀ j, j < size → k < parent_pos j →
        hkey m (h.idAt (parent_pos j)) ≤ hkey m (h.idAt j)) →
      Good m size (heapBuildLoop m size k h) ∧
      PosOK size (heapBuildLoop m size k h) ∧
      (heapBuildLoop m size k h).arr.length = h.arr.length := by
  intro k
  induction k with
  | zero =>
    intro h hsz hpos hinv
    rw [show heapBuildLoop m size 0 h = heapify m size h 0 from rfl]
    obtain ⟨O1, O2, O3, O4, O5, O6⟩ := heapify_spec m size (size + 1) h 0
      (by omega) hsz hpos
      (fun j hj hd hj0 hpj =>
        hinv j hj (by omega))
    refine ⟨?_, O5, O6⟩
    intro j hj hj0
    exact O1 j hj (desc_zero j) (by omega)
  | succ k ih =>
    intro h hsz hpos hinv
    rw [show heapBuildLoop m size (k + 1) h =
      heapBuildLoop m size k (heapify m size h (k + 1)) from rfl]
    obtain ⟨O1, O2, O3, O4, O5, O6⟩ := heapify_spec m size (size + 1) h (k + 1)
      (by omega) hsz hpos
      (fun j hj hd hj0 hpj => by
        have hge := desc_ge (k + 1) (parent_pos j) (desc_parent_of (k + 1) j hd hj0).2
        exact hinv j hj (by omega))
    have hinv2 : ∀ j, j < size → k < parent_pos j →
        hkey m ((heapify m size h (k + 1)).idAt (parent_pos j)) ≤
          hkey m ((heapify m size h (k + 1)).idAt j) := by
      intro j hj hpj
      show hkey m ((heapifyF m size (size + 1) h (k + 1)).idAt (parent_pos j)) ≤
        hkey m ((heapifyF m size (size + 1) h (k + 1)).idAt j)
      by_cases hd : isDesc (k + 1) j = true
      · have hjne : j ≠ k + 1 := by
          intro hh
          rw [hh] at hpj
          unfold parent_pos at hpj
          omega
        exact O1 j hj hd hjne
      · have hndp : isDesc (k + 1) (parent_pos j) = false := by
          cases hx : isDesc (k + 1) (parent_pos j) with
          | false => rfl
          | true =>
            have hj0 : j ≠ 0 := by
              intro hh
              rw [hh] at hpj
              unfold parent_pos at hpj
              omega
            exact absurd (desc_of_parent (k + 1) j hj0 hx) hd
        have hpne : parent_pos j ≠ k + 1 := by
          intro hh
          have hj0 : 0 < j := by
            by_contra hz
            have hz0 : j = 0 := by omega
            rw [hz0] at hpj
            unfold parent_pos at hpj
            omega
          exact hd (desc_child (k + 1) j hh hj0)
        rw [O2 j (Or.inl (by cases hx : isDesc (k + 1) j; rfl; exact absurd hx hd)),
          O2 (parent_pos j) (Or.inl hndp)]
        exact hinv j hj (by omega)
    obtain ⟨G1, G2, G3⟩ := ih (heapify m size h (k + 1))
      (by show size ≤ (heapifyF m size (size + 1) h (k + 1)).arr.length
          rw [O6]; exact hsz) O5 hinv2
    refine ⟨G1, G2, ?_⟩
    rw [G3]
    show (heapifyF m size (size + 1) h (k + 1)).arr.length = h.arr.length
    exact O6

/-- `_heap_build` establishes the shape and position invariants. -/
theorem heap_build_spec (g : Graph) (m : HMap) (hwf : WF g) :
    Good m g.numVertex (heap_build g m) ∧
    PosOK g.numVertex (heap_build g m) ∧
    (heap_build g m).arr.length = g.numVertex := by
  obtain ⟨_, h2, hnd, _⟩ := hwf
  have hlen : (heapFill g.vertexHead).arr.length = g.numVertex := by
    rw [heapFill_len, h2]
  have hpos : PosOK g.numVertex (heapFill g.vertexHead) := by
    rw [h2]
    exact heapFill_posOK g.vertexHead hnd
  have hinv : ∀ j, j < g.numVertex → g.numVertex / 2 < parent_pos j →
      hkey m ((heapFill g.vertexHead).idAt (parent_pos j)) ≤
        hkey m ((heapFill g.vertexHead).idAt j) := by
    intro j hj hpj
    exfalso
    unfold parent_pos at hpj
    omega
  obtain ⟨G1, G2, G3⟩ := heapBuildLoop_spec m g.numVertex (g.numVertex / 2)
    (heapFill g.vertexHead) (by omega) hpos hinv
  exact ⟨G1, G2, by rw [show heap_build g m = heapBuildLoop m g.numVertex
    (g.numVertex / 2) (heapFill g.vertexHead) from rfl, G3, hlen]⟩

/-- `_heap_extract_min` returns the minimum-key id and re-establishes the
invariants at the shrunk size; live slots keep ids from the old non-root
live slots. -/
theorem heap_extract_min_spec (m : HMap) (size : Nat) (h : Heap)
    (hsz1 : 1 ≤ size) (hsz : size ≤ h.arr.length)
    (hg : Good m size h) (hpos : PosOK size h) :
    Good m (size - 1) (heap_extract_min m size h).2 ∧
    PosOK (size - 1) (heap_extract_min m size h).2 ∧
    (heap_extract_min m size h).2.arr.length = h.arr.length ∧
    (heap_extract_min m size h).1 = h.idAt 0 ∧
    (∀ j, j < size → hkey m (h.idAt 0) ≤ hkey m (h.idAt j)) ∧
    (∀ j, j < size - 1 → ∃ j', j' < size ∧ 0 < j' ∧
      (heap_extract_min m size h).2.idAt j = h.idAt j') := by
  have hroot : ∀ j, j < size → hkey m (h.idAt 0) ≤ hkey m (h.idAt j) := by
    intro j hj
    refine subtree_root_min m size h 0 ?_ j hj (desc_zero j)
    intro j2 hj2 hd2 hj20
    exact hg j2 hj2 (by omega)
  set h1 : Heap := { arr := h.arr.set 0 (h.idAt (size - 1)),
                     pos := naSet h.pos (h.idAt (size - 1)) 0 } with hh1
  have hid1 : ∀ j, h1.idAt j = if j = 0 then h.idAt (size - 1) else h.idAt j := by
    intro j
    show (h.arr.set 0 (h.idAt (size - 1))).getD j 0 = _
    rw [getD_set _ 0 j _ _ (by omega)]
    rfl
  have hlen1 : h1.arr.length = h.arr.length := by
    show (h.arr.set 0 _).length = _
    rw [List.length_set]
  have hpos1 : PosOK (size - 1) h1 := by
    intro j hj
    rw [hid1 j]
    by_cases hj0 : j = 0
    · rw [if_pos hj0]
      show naGet (naSet h.pos (h.idAt (size - 1)) 0) (h.idAt (size - 1)) = j
      rw [naGet_set, if_pos rfl, hj0]
    · rw [if_neg hj0]
      have hne : h.idAt j ≠ h.idAt (size - 1) := by
        intro heq
        have := posOK_inj size h hpos j (size - 1) (by omega) (by omega) heq
        omega
      show naGet (naSet h.pos (h.idAt (size - 1)) 0) (h.idAt j) = j
      rw [naGet_set, if_neg hne]
      exact hpos j (by omega)
  obtain ⟨O1, O2, O3, O4, O5, O6⟩ := heapify_spec m (size - 1) (size - 1 + 1) h1 0
    (by omega) (by rw [hlen1]; omega) hpos1
    (fun j hj hd hj0 hpj => by
      rw [hid1 j, if_neg hj0, hid1 (parent_pos j), if_neg hpj]
      exact hg j (by omega) (by omega))
  have hdef : (heap_extract_min m size h).2 = heapifyF m (size - 1) (size - 1 + 1) h1 0 := rfl
  refine ⟨?_, ?_, ?_, rfl, hroot, ?_⟩
  · intro j hj hj0
    rw [hdef]
    exact O1 j hj (desc_zero j) (by omega)
  · rw [hdef]
    exact O5
  · rw [hdef, O6, hlen1]
  · intro j hj
    rw [hdef]
    obtain ⟨j2, hj2, _, hj2e⟩ := O3 j hj (desc_zero j)
    rw [hj2e, hid1 j2]
    by_cases hj20 : j2 = 0
    · rw [if_pos hj20]
      exact ⟨size - 1, by omega, by omega, rfl⟩
    · rw [if_neg hj20]
      exact ⟨j2, by omega, by omega, rfl⟩

theorem heapDecKeyF_succ (m : HMap) (size f : Nat) (h : Heap) (p : Nat) :
    heapDecKeyF m size (f + 1) h p =
      (if hkey m (h.idAt (parent_pos p)) > hkey m (h.idAt p) then
        heapDecKeyF m size f (heapify m size h (parent_pos p)) (parent_pos p)
       else h) := rfl

theorem heapDecKeyF_spec (m : HMap) (size : Nat) :
    ∀ (f : Nat) (h : Heap) (p : Nat), p < f → p < size →
      size ≤ h.arr.length → PosOK size h → GoodExceptUp m size h p →
      Good m size (heapDecKeyF m size f h p) ∧
      PosOK size (heapDecKeyF m size f h p) ∧
      (heapDecKeyF m size f h p).arr.length = h.arr.length ∧
      (∀ j, j < size → ∃ j', j' < size ∧
        (heapDecKeyF m size f h p).idAt j = h.idAt j') ∧
      (∀ j, size ≤ j → (heapDecKeyF m size f h p).idAt j = h.idAt j) := by
  intro f
  induction f with
  | zero => intro h p hf; omega
  | succ f ih =>
    intro h p hf hp hsz hpos hgood
    by_cases hguard : hkey m (h.idAt (parent_pos p)) > hkey m (h.idAt p)
    · rw [heapDecKeyF_succ, if_pos hguard]
      have hp0 : p ≠ 0 := by
        intro hh
        rw [hh, show parent_pos 0 = 0 from rfl] at hguard
        omega
      have hqlt : parent_pos p < p := parent_lt p (by omega)
      obtain ⟨O1, O2, O3, O4, O5, O6⟩ := heapify_spec m size (size + 1) h
        (parent_pos p) (by omega) hsz hpos
        (fun j hj hd hjq hpjq => by
          have hj0 : j ≠ 0 := by
            intro hh
            rw [hh] at hd
            have := desc_ge (parent_pos p) 0 hd
            exact hjq (by omega)
          have hjp : j ≠ p := by
            intro hh
            rw [hh] at hpjq
            exact hpjq rfl
          exact hgood j hj (by omega) hjp)
      have hgood2 : GoodExceptUp m size (heapify m size h (parent_pos p))
          (parent_pos p) := by
        intro j hj hj0 hjq
        by_cases hd : isDesc (parent_pos p) j = true
        · exact O1 j hj hd hjq
        · have hndp : isDesc (parent_pos p) (parent_pos j) = false := by
            cases hx : isDesc (parent_pos p) (parent_pos j) with
            | false => rfl
            | true => exact absurd (desc_of_parent (parent_pos p) j
                (by omega) hx) hd
          have hjp : j ≠ p := by
            intro hh
            rw [hh] at hd
            exact hd (desc_child (parent_pos p) p rfl (by omega))
          have hdf : isDesc (parent_pos p) j = false := by
            cases hx : isDesc (parent_pos p) j
            · rfl
            · exact absurd hx hd
          show hkey m ((heapifyF m size (size + 1) h (parent_pos p)).idAt
            (parent_pos j)) ≤ hkey m ((heapifyF m size (size + 1) h
              (parent_pos p)).idAt j)
          rw [O2 j (Or.inl hdf), O2 (parent_pos j) (Or.inl hndp)]
          exact hgood j hj (by omega) hjp
      obtain ⟨R1, R2, R3, R4, R5⟩ := ih (heapify m size h (parent_pos p))
        (parent_pos p) (by omega) (by omega)
        (by show size ≤ (heapifyF m size (size + 1) h (parent_pos p)).arr.length
            rw [O6]; exact hsz) O5 hgood2
      refine ⟨R1, R2, ?_, ?_, ?_⟩
      · rw [R3]
        show (heapifyF m size (size + 1) h (parent_pos p)).arr.length = _
        exact O6
      · intro j hj
        obtain ⟨j1, hj1, hj1e⟩ := R4 j hj
        rw [hj1e]
        by_cases hd : isDesc (parent_pos p) j1 = true
        · obtain ⟨j2, hj2a, _, hj2e⟩ := O3 j1 hj1 hd
          exact ⟨j2, hj2a, hj2e⟩
        · have hdf : isDesc (parent_pos p) j1 = false := by
            cases hx : isDesc (parent_pos p) j1
            · rfl
            · exact absurd hx hd
          refine ⟨j1, hj1, ?_⟩
          show (heapifyF m size (size + 1) h (parent_pos p)).idAt j1 = _
          exact O2 j1 (Or.inl hdf)
      · intro j hj
        rw [R5 j hj]
        show (heapifyF m size (size + 1) h (parent_pos p)).idAt j = _
        exact O2 j (Or.inr hj)
    · rw [heapDecKeyF_succ, if_neg hguard]
      refine ⟨?_, hpos, rfl, fun j hj => ⟨j, hj, rfl⟩, fun j _ => rfl⟩
      intro j hj hj0
      by_cases hjp : j = p
      · rw [hjp]
        exact not_lt.mp hguard
      · exact hgood j hj hj0 hjp

/-- `_heap_decrease_key` restores the full invariant after one key decrease. -/
theorem heap_decrease_key_spec (m : HMap) (size : Nat) (h : Heap) (p : Nat)
    (hp : p < size) (hsz : size ≤ h.arr.length) (hpos : PosOK size h)
    (hgood : GoodExceptUp m size h p) :
    Good m size (heap_decrease_key m size h p) ∧
    PosOK size (heap_decrease_key m size h p) ∧
    (heap_decrease_key m size h p).arr.length = h.arr.length ∧
    (∀ j, j < size → ∃ j', j' < size ∧
      (heap_decrease_key m size h p).idAt j = h.idAt j') ∧
    (∀ j, size ≤ j → (heap_decrease_key m size h p).idAt j = h.idAt j) :=
  heapDecKeyF_spec m size (p + 1) h p (by omega) hp hsz hpos hgood

/-- **C5.** The min-heap invariant — for every non-root live slot the
map-resident key of its parent slot is at most its own key, and every live
vertex's `heap_pos` equals its actual slot — is established by `_heap_build`
and re-established by `_heap_extract_min` (at the shrunk size) and by
`_heap_decrease_key` (run after one key decrease, the only state in which
the C code invokes it). -/
theorem heap_invariant (g : Graph) (m : HMap) (hwf : WF g) :
    (Good m g.numVertex (heap_build g m) ∧
      PosOK g.numVertex (heap_build g m)) ∧
    (∀ (size : Nat) (h : Heap), 1 ≤ size → size ≤ h.arr.length →
      Good m size h → PosOK size h →
      Good m (size - 1) (heap_extract_min m size h).2 ∧
      PosOK (size - 1) (heap_extract_min m size h).2) ∧
    (∀ (size : Nat) (h : Heap) (p : Nat), p < size → size ≤ h.arr.length →
      GoodExceptUp m size h p → PosOK size h →
      Good m size (heap_decrease_key m size h p) ∧
      PosOK size (heap_decrease_key m size h p)) := by
  refine ⟨?_, ?_, ?_⟩
  · obtain ⟨G1, G2, _⟩ := heap_build_spec g m hwf
    exact ⟨G1, G2⟩
  · intro size h h1 h2 h3 h4
    obtain ⟨E1, E2, _⟩ := heap_extract_min_spec m size h h1 h2 h3 h4
    exact ⟨E1, E2⟩
  · intro size h p h1 h2 h3 h4
    obtain ⟨D1, D2, _⟩ := heap_decrease_key_spec m size h p h1 h2 h4 h3
    exact ⟨D1, D2⟩

/-- Witness for C5 at the concrete graph `0 -> 1` and its Dijkstra source
map. -/
theorem heap_invariant_witness :
    WF exGraphW ∧
    ((Good (ssInit exGraphW ⟨0, 10⟩) exGraphW.numVertex
        (heap_build exGraphW (ssInit exGraphW ⟨0, 10⟩)) ∧
      PosOK exGraphW.numVertex
        (heap_build exGraphW (ssInit exGraphW ⟨0, 10⟩))) ∧
    (∀ (size : Nat) (h : Heap), 1 ≤ size → size ≤ h.arr.length →
      Good (ssInit exGraphW ⟨0, 10⟩) size h → PosOK size h →
      Good (ssInit exGraphW ⟨0, 10⟩) (size - 1)
        (heap_extract_min (ssInit exGraphW ⟨0, 10⟩) size h).2 ∧
      PosOK (size - 1) (heap_extract_min (ssInit exGraphW ⟨0, 10⟩) size h).2) ∧
    (∀ (size : Nat) (h : Heap) (p : Nat), p < size → size ≤ h.arr.length →
      GoodExceptUp (ssInit exGraphW ⟨0, 10⟩) size h p → PosOK size h →
      Good (ssInit exGraphW ⟨0, 10⟩) size
        (heap_decrease_key (ssInit exGraphW ⟨0, 10⟩) size h p) ∧
      PosOK size (heap_decrease_key (ssInit exGraphW ⟨0, 10⟩) size h p))) :=
  ⟨by decide, heap_invariant exGraphW (ssInit exGraphW ⟨0, 10⟩) (by decide)⟩

/-! ### C3: Dijkstra agrees with Bellman-Ford on non-negative weights -/

theorem mem_iff_of_sub_nodup (l1 l2 : List Nat) (h1 : l1.Nodup) (hsub : l1 ⊆ l2)
    (h2 : l2.Nodup) (hlen : l2.length ≤ l1.length) : ∀ x, x ∈ l1 ↔ x ∈ l2 := by
  have hfs : l1.toFinset = l2.toFinset := by
    apply Finset.eq_of_subset_of_card_le
    · intro x hx
      exact List.mem_toFinset.mpr (hsub (List.mem_toFinset.mp hx))
    · rw [List.toFinset_card_of_nodup h1, List.toFinset_card_of_nodup h2]
      exact hlen
  intro x
  rw [← List.mem_toFinset, ← List.mem_toFinset (l := l2), hfs]

theorem heapIdsL_mem (size : Nat) (h : Heap) (x : Nat) :
    x ∈ heapIdsL size h ↔ ∃ j, j < size ∧ h.idAt j = x := by
  unfold heapIdsL
  rw [List.mem_map]
  constructor
  · rintro ⟨j, hj, hje⟩
    exact ⟨j, List.mem_range.mp hj, hje⟩
  · rintro ⟨j, hj, hje⟩
    exact ⟨j, List.mem_range.mpr hj, hje⟩

theorem heapIdsL_len (size : Nat) (h : Heap) : (heapIdsL size h).length = size := by
  unfold heapIdsL
  rw [List.length_map, List.length_range]

theorem heapIdsL_nodup (size : Nat) (h : Heap) (hpos : PosOK size h) :
    (heapIdsL size h).Nodup := by
  unfold heapIdsL
  apply List.Nodup.map_on
  · intro x hx y hy hxy
    exact posOK_inj size h hpos x y (List.mem_range.mp hx) (List.mem_range.mp hy) hxy
  · exact List.nodup_range _

theorem hkey_find (m : HMap) (x : Nat) (n : HNode) (h : hmFind m x = some n) :
    hkey m x = n.value := by
  unfold hkey
  rw [h]

theorem hkey_insert (m : HMap) (t : Nat) (n : HNode) (x : Nat) :
    hkey (hmInsert m t n) x = if x = t then n.value else hkey m x := by
  unfold hkey
  rw [hmFind_insert]
  by_cases hx : x = t
  · rw [if_pos hx, if_pos hx]
  · rw [if_neg hx, if_neg hx]

theorem walkWeight_nonneg (g : Graph) (hnn : ∀ u e, e ∈ g.adj u → 0 ≤ e.weight) :
    ∀ (es : List AdjNode) (u v : Nat), isWalk g u es v → 0 ≤ walkWeight es := by
  intro es
  induction es with
  | nil => intro u v _; rw [walkWeight_nil]
  | cons e es ih =>
    intro u v hw
    obtain ⟨he, hw'⟩ := hw
    have h1 := hnn u e he
    have h2 := ih e.target v hw'
    rw [walkWeight_cons]
    omega

theorem relax_edge_vbound (alt : Nat) (e : AdjNode) (m : HMap)
    (hb : ∀ v n, hmFind m v = some n → n.value ≤ INF) :
    ∀ v n, hmFind (relax_edge alt e m).2 v = some n → n.value ≤ INF := by
  intro v n h
  cases h1 : hmFind m e.target with
  | none => rw [relax_edge_none _ _ _ (Or.inl h1)] at h; exact hb v n h
  | some cur =>
    cases h2 : hmFind m alt with
    | none => rw [relax_edge_none _ _ _ (Or.inr h2)] at h; exact hb v n h
    | some altN =>
      rw [relax_edge_some _ _ _ _ _ h1 h2] at h
      by_cases hc : altN.value ≠ INF ∧ cur.value > altN.value + e.weight
      · rw [if_pos hc] at h
        rw [show ((true, hmInsert m e.target
          ⟨altN.value + e.weight, Int.ofNat alt⟩) : Bool × HMap).2 =
            hmInsert m e.target ⟨altN.value + e.weight, Int.ofNat alt⟩ from rfl,
          hmFind_insert] at h
        by_cases hv : v = e.target
        · rw [if_pos hv] at h
          have hcb := hb e.target cur h1
          have hn : n = ⟨altN.value + e.weight, Int.ofNat alt⟩ :=
            (Option.some_inj.mp h).symm
          have : n.value = altN.value + e.weight := by rw [hn]
          omega
        · rw [if_neg hv] at h
          exact hb v n h
      · rw [if_neg hc] at h
        exact hb v n h

theorem relax_edge_vnonneg (alt : Nat) (e : AdjNode) (m : HMap)
    (hw : 0 ≤ e.weight)
    (hb : ∀ v n, hmFind m v = some n → 0 ≤ n.value) :
    ∀ v n, hmFind (relax_edge alt e m).2 v = some n → 0 ≤ n.value := by
  intro v n h
  cases h1 : hmFind m e.target with
  | none => rw [relax_edge_none _ _ _ (Or.inl h1)] at h; exact hb v n h
  | some cur =>
    cases h2 : hmFind m alt with
    | none => rw [relax_edge_none _ _ _ (Or.inr h2)] at h; exact hb v n h
    | some altN =>
      rw [relax_edge_some _ _ _ _ _ h1 h2] at h
      by_cases hc : altN.value ≠ INF ∧ cur.value > altN.value + e.weight
      · rw [if_pos hc] at h
        rw [show ((true, hmInsert m e.target
          ⟨altN.value + e.weight, Int.ofNat alt⟩) : Bool × HMap).2 =
            hmInsert m e.target ⟨altN.value + e.weight, Int.ofNat alt⟩ from rfl,
          hmFind_insert] at h
        by_cases hv : v = e.target
        · rw [if_pos hv] at h
          have hab := hb alt altN h2
          have hn : n = ⟨altN.value + e.weight, Int.ofNat alt⟩ :=
            (Option.some_inj.mp h).symm
          have : n.value = altN.value + e.weight := by rw [hn]
          omega
        · rw [if_neg hv] at h
          exact hb v n h
      · rw [if_neg hc] at h
        exact hb v n h

theorem relax_edge_src0 (alt : Nat) (e : AdjNode) (m : HMap) (s : Nat)
    (hw : 0 ≤ e.weight)
    (hb : ∀ v n, hmFind m v = some n → 0 ≤ n.value)
    (h0 : ∃ n0, hmFind m s = some n0 ∧ n0.value = 0) :
    ∃ n0, hmFind (relax_edge alt e m).2 s = some n0 ∧ n0.value = 0 := by
  obtain ⟨n0, hn0, hv0⟩ := h0
  cases h1 : hmFind m e.target with
  | none => rw [relax_edge_none _ _ _ (Or.inl h1)]; exact ⟨n0, hn0, hv0⟩
  | some cur =>
    cases h2 : hmFind m alt with
    | none => rw [relax_edge_none _ _ _ (Or.inr h2)]; exact ⟨n0, hn0, hv0⟩
    | some altN =>
      rw [relax_edge_some _ _ _ _ _ h1 h2]
      by_cases hc : altN.value ≠ INF ∧ cur.value > altN.value + e.weight
      · rw [if_pos hc]
        refine ⟨if s = e.target then ⟨altN.value + e.weight, Int.ofNat alt⟩
          else n0, ?_, ?_⟩
        · show hmFind (hmInsert m e.target
            ⟨altN.value + e.weight, Int.ofNat alt⟩) s = _
          rw [hmFind_insert]
          by_cases hv : s = e.target
          · rw [if_pos hv, if_pos hv]
          · rw [if_neg hv, if_neg hv]
            exact hn0
        · by_cases hv : s = e.target
          · rw [if_pos hv]
            exfalso
            rw [hv, h1] at hn0
            have : cur = n0 := Option.some_inj.mp hn0
            have hcv : cur.value = 0 := by rw [this, hv0]
            have hav := hb alt altN h2
            omega
          · rw [if_neg hv]
            exact hv0
      · rw [if_neg hc]
        exact ⟨n0, hn0, hv0⟩

theorem relaxList_vbound (u : Nat) :
    ∀ (es : List AdjNode) (m : HMap),
      (∀ v n, hmFind m v = some n → n.value ≤ INF) →
      ∀ v n, hmFind (relaxList u es m) v = some n → n.value ≤ INF := by
  intro es
  induction es with
  | nil => intro m hb; exact hb
  | cons e es ih =>
    intro m hb
    rw [relaxList_eq]
    exact ih _ (relax_edge_vbound u e m hb)

theorem relaxVerts_vbound (g : Graph) :
    ∀ (vs : List Vertex) (m : HMap),
      (∀ v n, hmFind m v = some n → n.value ≤ INF) →
      ∀ v n, hmFind (vs.foldl (fun m x => relaxList x.id (g.adj x.id) m) m) v =
        some n → n.value ≤ INF := by
  intro vs
  induction vs with
  | nil => intro m hb; exact hb
  | cons x vs ih =>
    intro m hb
    rw [List.foldl_cons]
    exact ih _ (relaxList_vbound x.id (g.adj x.id) m hb)

theorem ssInit_vbound (g : Graph) (s : Vertex) :
    ∀ v n, hmFind (ssInit g s) v = some n → n.value ≤ INF := by
  intro v n h
  rw [ssInit_find] at h
  by_cases hv : v = s.id
  · rw [if_pos hv] at h
    have : n = ⟨0, -1⟩ := (Option.some_inj.mp h).symm
    rw [this]
    decide
  · rw [if_neg hv] at h
    by_cases hm : v ∈ vertexIds g
    · rw [if_pos hm] at h
      have : n = ⟨INF, -1⟩ := (Option.some_inj.mp h).symm
      rw [this]
    · rw [if_neg hm] at h
      exact absurd h (by simp)

theorem passes_vbound (g : Graph) (s : Vertex) :
    ∀ k v n, hmFind ((relaxPass g)^[k] (ssInit g s)) v = some n →
      n.value ≤ INF := by
  intro k
  induction k with
  | zero => exact ssInit_vbound g s
  | succ k ih =>
    intro v n h
    rw [Function.iterate_succ_apply'] at h
    exact relaxVerts_vbound g g.vertexHead _ ih v n h

/-- Upper bound after `k` passes for non-negative weights: saturation never
blocks the relaxation of a simple path whose total weight is representable. -/
theorem passes_ub_nonneg (g : Graph) (s : Vertex) (hwf : WF g)
    (hnn : ∀ u e, e ∈ g.adj u → 0 ≤ e.weight) :
    ∀ (k : Nat) (v : Nat) (es : List AdjNode), isWalk g s.id es v →
      (walkVerts s.id es).Nodup → walkWeight es < INF → es.length ≤ k →
      ∀ n, hmFind ((relaxPass g)^[k] (ssInit g s)) v = some n →
        n.value ≤ walkWeight es := by
  intro k
  induction k with
  | zero =>
    intro v es hw hnd hcap hlen n hn
    have hnil : es = [] := List.length_eq_zero.mp (Nat.le_zero.mp hlen)
    subst hnil
    rw [Function.iterate_zero_apply] at hn
    rw [hw, ssInit_find, if_pos rfl] at hn
    have hneq : n = ⟨0, -1⟩ := (Option.some_inj.mp hn).symm
    rw [hneq, walkWeight_nil]
  | succ k ih =>
    intro v es hw hnd hcap hlen n hn
    rw [Function.iterate_succ_apply'] at hn
    by_cases hlen' : es.length ≤ k
    · obtain ⟨n0, hn0, hle⟩ := relaxPass_le g _ v n hn
      have := ih v es hw hnd hcap hlen' n0 hn0
      omega
    · have hlen2 : es.length = k + 1 := by omega
      have hne : es ≠ [] := by
        intro h
        rw [h] at hlen2
        simp at hlen2
      obtain ⟨es', e, rfl⟩ := (List.eq_nil_or_concat es).resolve_left hne
      rw [List.concat_eq_append] at hw hnd hlen2 hcap ⊢
      obtain ⟨u, hw', he, hv⟩ := isWalk_append_last g es' e s.id v hw
      rw [walkVerts_append_last] at hnd
      have hnd' : (walkVerts s.id es').Nodup := List.Nodup.of_append_left hnd
      have hlen3 : es'.length ≤ k := by
        rw [List.length_append] at hlen2
        simp at hlen2
        omega
      have hwe : 0 ≤ e.weight := hnn u e he
      have hcap' : walkWeight es' < INF := by
        rw [walkWeight_append, walkWeight_cons, walkWeight_nil] at hcap
        omega
      have hBfact : ∀ nu, hmFind ((relaxPass g)^[k] (ssInit g s)) u = some nu →
          nu.value ≤ walkWeight es' :=
        fun nu hnu => ih u es' hw' hnd' hcap' hlen3 nu hnu
      have hdom : ∀ x ∈ vertexIds g,
          (hmFind ((relaxPass g)^[k] (ssInit g s)) x).isSome = true := by
        intro x hx
        rw [passes_isSome]
        exact ssInit_dom g s x hx
      have hb := relaxPass_bound g hwf _ u e he hdom (walkWeight es')
        hBfact hcap' n (by rw [← hv]; exact hn)
      rw [walkWeight_append, walkWeight_cons, walkWeight_nil]
      omega

/-- On non-negative weights Bellman-Ford computes, for every vertex, the
`INT_MAX`-capped optimum. -/
theorem bf_optat (g : Graph) (s : Vertex) (hwf : WF g) (hs : s ∈ g.vertexHead)
    (hnn : ∀ u e, e ∈ g.adj u → 0 ≤ e.weight) :
    ∀ v ∈ vertexIds g, ∃ n,
      hmFind (singleSourceShortestPath_bellmanFord g s) v = some n ∧
      n.value ≤ INF ∧
      (n.value = INF ∨ ∃ es, isWalk g s.id es v ∧ walkWeight es = n.value) ∧
      (∀ es, isWalk g s.id es v → n.value ≤ walkWeight es) := by
  have hsid : s.id ∈ vertexIds g := List.mem_map.mpr ⟨s, hs, rfl⟩
  have hdef : singleSourceShortestPath_bellmanFord g s =
      (if (detectVerts g g.vertexHead
            ((relaxPass g)^[g.numVertex - 1] (ssInit g s))).1 then hmEmpty
       else (detectVerts g g.vertexHead
            ((relaxPass g)^[g.numVertex - 1] (ssInit g s))).2) := rfl
  set M := (relaxPass g)^[g.numVertex - 1] (ssInit g s) with hM
  have hdom : ∀ x ∈ vertexIds g, (hmFind M x).isSome = true := by
    intro x hx
    rw [hM, passes_isSome]
    exact ssInit_dom g s x hx
  have hsound : SSound g s.id M := by
    rw [hM]
    exact passes_sound g s (g.numVertex - 1)
  have hvb : ∀ v n, hmFind M v = some n → n.value ≤ INF := by
    rw [hM]
    exact passes_vbound g s (g.numVertex - 1)
  have hub : ∀ (v : Nat) (ps : List AdjNode), isWalk g s.id ps v →
      (walkVerts s.id ps).Nodup → walkWeight ps < INF →
      ∀ n, hmFind M v = some n → n.value ≤ walkWeight ps := by
    intro v ps hpw hpnd hcap n hn
    have hlen := simple_len_le g hwf s.id hsid ps v hpw hpnd
    exact passes_ub_nonneg g s hwf hnn (g.numVertex - 1) v ps hpw hpnd hcap
      (by
        have hnum : 1 ≤ g.numVertex := by
          have h2 := hwf.2.1
          have h3 : 0 < g.vertexHead.length := List.length_pos.mpr
            (fun hnil => by rw [hnil] at hs; exact absurd hs (List.not_mem_nil s))
          omega
        omega) n (by rw [← hM]; exact hn)
  have hupper : ∀ v n, hmFind M v = some n → ∀ es, isWalk g s.id es v →
      n.value ≤ walkWeight es := by
    intro v n hn es hw
    obtain ⟨ps, hpw, hpnd, hple⟩ := walk_to_simple g s.id
      (fun x c _ _ hcy => walkWeight_nonneg g hnn c x x hcy)
      es.length es v (le_refl _) hw
    by_cases hcap : walkWeight ps < INF
    · have := hub v ps hpw hpnd hcap n hn
      omega
    · have := hvb v n hn
      omega
  have hstab_false : ∀ v ∈ g.vertexHead, ∀ e ∈ g.adj v.id,
      (relax_edge v.id e M).1 = false := by
    intro v hv e he
    have hvid : v.id ∈ vertexIds g := List.mem_map.mpr ⟨v, hv, rfl⟩
    obtain ⟨nu, hnu⟩ := Option.isSome_iff_exists.mp (hdom v.id hvid)
    obtain ⟨nt, hnt⟩ := Option.isSome_iff_exists.mp
      (hdom e.target (WF_adj_target g hwf v.id e he))
    rw [relax_edge_some v.id e M nt nu hnt hnu]
    by_cases hc : nu.value ≠ INF ∧ nt.value > nu.value + e.weight
    · exfalso
      obtain ⟨hne, hgt⟩ := hc
      rcases hsound v.id nu hnu with hINF | ⟨es, hw, hwt⟩
      · exact hne hINF
      · have hw2 : isWalk g s.id (es ++ [e]) e.target :=
          isWalk_append_edge g es s.id v.id e hw he
        have h1 := hupper e.target nt hnt (es ++ [e]) hw2
        rw [walkWeight_append, walkWeight_cons, walkWeight_nil, hwt] at h1
        omega
    · rw [if_neg hc]
  have hdet := detectVerts_all_false g g.vertexHead M hstab_false
  have hres : singleSourceShortestPath_bellmanFord g s = M := by
    rw [hdef, hdet]
    rfl
  rw [hres]
  intro v hv
  obtain ⟨n, hn⟩ := Option.isSome_iff_exists.mp (hdom v hv)
  refine ⟨n, hn, hvb v n hn, hsound v n hn, hupper v n hn⟩

theorem hkey_eq_of_find (m1 m2 : HMap) (x : Nat)
    (h : hmFind m1 x = hmFind m2 x) : hkey m1 x = hkey m2 x := by
  unfold hkey
  rw [h]

theorem adj_nonneg_of_all (g : Graph)
    (hall : g.list.all (fun l => l.all (fun e => decide (0 ≤ e.weight))) = true) :
    ∀ u e, e ∈ g.adj u → 0 ≤ e.weight := by
  intro u e he
  simp only [List.all_eq_true, decide_eq_true_eq] at hall
  unfold Graph.adj at he
  by_cases hu : u < g.list.length
  · rw [List.getD_eq_getElem g.list [] hu] at he
    exact hall (g.list[u]) (g.list.getElem_mem hu) e he
  · rw [List.getD_eq_default g.list [] (by omega)] at he
    exact absurd he (List.not_mem_nil e)

theorem ssInit_vnonneg (g : Graph) (s : Vertex) :
    ∀ v n, hmFind (ssInit g s) v = some n → 0 ≤ n.value := by
  intro v n h
  rw [ssInit_find] at h
  by_cases hv : v = s.id
  · rw [if_pos hv] at h
    have : n = ⟨0, -1⟩ := (Option.some_inj.mp h).symm
    rw [this]
  · rw [if_neg hv] at h
    by_cases hm : v ∈ vertexIds g
    · rw [if_pos hm] at h
      have : n = ⟨INF, -1⟩ := (Option.some_inj.mp h).symm
      rw [this]
      decide
    · rw [if_neg hm] at h
      exact absurd h (by simp)

/-- In a relaxed-closed map with the source at distance `0`, every walk out
of the source bounds the endpoint's recorded key (non-negative weights: no
finiteness side condition is needed, the sentinel absorbs the `INT_MAX`
case). -/
theorem stable_walk_nonneg (g : Graph) (s : Nat) (M : HMap) (hwf : WF g)
    (hnn : ∀ u e, e ∈ g.adj u → 0 ≤ e.weight)
    (hstab : ∀ x ∈ vertexIds g, ∀ e ∈ g.adj x,
      hkey M x = INF ∨ hkey M e.target ≤ hkey M x + e.weight)
    (hvb : ∀ v n, hmFind M v = some n → n.value ≤ INF)
    (hdom : ∀ x ∈ vertexIds g, (hmFind M x).isSome = true)
    (hs0 : hkey M s = 0) :
    ∀ (k : Nat) (es : List AdjNode) (v : Nat), es.length ≤ k →
      isWalk g s es v → hkey M v ≤ walkWeight es := by
  intro k
  induction k with
  | zero =>
    intro es v hlen hw
    have hnil : es = [] := List.length_eq_zero.mp (Nat.le_zero.mp hlen)
    subst hnil
    rw [hw, hs0, walkWeight_nil]
  | succ k ih =>
    intro es v hlen hw
    by_cases hlen' : es.length ≤ k
    · exact ih es v hlen' hw
    · have hne : es ≠ [] := by
        intro h
        rw [h] at hlen'
        simp at hlen'
      obtain ⟨es', e, rfl⟩ := (List.eq_nil_or_concat es).resolve_left hne
      rw [List.concat_eq_append] at hw hlen ⊢
      obtain ⟨u, hw', he, hv⟩ := isWalk_append_last g es' e s v hw
      have hlen3 : es'.length ≤ k := by
        rw [List.length_append] at hlen
        simp at hlen
        omega
      have hu := ih es' u hlen3 hw'
      have humem : u ∈ vertexIds g := WF_adj_source g hwf u e he
      have htv : v = e.target := hv
      rw [walkWeight_append, walkWeight_cons, walkWeight_nil, htv]
      rcases hstab u humem e he with hINF | hrel
      · obtain ⟨nt, hnt⟩ := Option.isSome_iff_exists.mp
          (hdom e.target (WF_adj_target g hwf u e he))
        have hb := hvb e.target nt hnt
        have hkt : hkey M e.target = nt.value := hkey_find M e.target nt hnt
        have hwe := hnn u e he
        rw [hINF] at hu
        omega
      · have hwe := hnn u e he
        omega

theorem dijkRelax_cons (u : Nat) (e : AdjNode) (es : List AdjNode)
    (size : Nat) (h : Heap) (m : HMap) :
    dijkRelax u (e :: es) size h m =
      dijkRelax u es size
        (if (relax_edge u e m).1 then
          heap_decrease_key (relax_edge u e m).2 size h (naGet h.pos e.target)
         else h) (relax_edge u e m).2 := rfl

theorem dijkstraLoop_succ (g : Graph) (hs : Nat) (h : Heap) (m : HMap) :
    dijkstraLoop g (hs + 1) h m =
      dijkstraLoop g hs
        (dijkRelax (heap_extract_min m (hs + 1) h).1
          (g.adj (heap_extract_min m (hs + 1) h).1) hs
          (heap_extract_min m (hs + 1) h).2 m).2
        (dijkRelax (heap_extract_min m (hs + 1) h).1
          (g.adj (heap_extract_min m (hs + 1) h).1) hs
          (heap_extract_min m (hs + 1) h).2 m).1 := rfl

theorem heapifyF_len (m : HMap) (size : Nat) :
    ∀ (f : Nat) (h : Heap) (i : Nat),
      (heapifyF m size f h i).arr.length = h.arr.length := by
  intro f
  induction f with
  | zero => intro h i; rfl
  | succ f ih =>
    intro h i
    rw [heapifyF_succ]
    by_cases hsi : smallestIdx m size h i ≠ i
    · rw [if_pos hsi, ih, heapSwap_arrLen]
    · rw [if_neg hsi]

theorem heapifyF_content (m : HMap) (size : Nat) :
    ∀ (f : Nat) (h : Heap) (i : Nat), size ≤ h.arr.length →
      ∀ j, j < size → ∃ j', j' < size ∧
        (heapifyF m size f h i).idAt j = h.idAt j' := by
  intro f
  induction f with
  | zero => intro h i _ j hj; exact ⟨j, hj, rfl⟩
  | succ f ih =>
    intro h i hsz j hj
    rw [heapifyF_succ]
    by_cases hsi : smallestIdx m size h i ≠ i
    · rw [if_pos hsi]
      have hgt : i < smallestIdx m size h i :=
        ((smallestIdx_spec m size h i).2.1 hsi).1
      have hslt : smallestIdx m size h i < size :=
        ((smallestIdx_spec m size h i).2.1 hsi).2.1
      have hilt : i < size := by omega
      obtain ⟨j1, hj1, hj1e⟩ := ih (heapSwap h i (smallestIdx m size h i))
        (smallestIdx m size h i) (by rw [heapSwap_arrLen]; exact hsz) j hj
      rw [hj1e, heapSwap_idAt h i (smallestIdx m size h i) (by omega) (by omega) j1]
      by_cases hc1 : j1 = smallestIdx m size h i
      · rw [if_pos hc1]
        exact ⟨i, hilt, rfl⟩
      · rw [if_neg hc1]
        by_cases hc2 : j1 = i
        · rw [if_pos hc2]
          exact ⟨smallestIdx m size h i, by omega, rfl⟩
        · rw [if_neg hc2]
          exact ⟨j1, hj1, rfl⟩
    · rw [if_neg hsi]
      exact ⟨j, hj, rfl⟩

theorem heapBuildLoop_content (m : HMap) (size : Nat) :
    ∀ (k : Nat) (h : Heap), size ≤ h.arr.length →
      ∀ j, j < size → ∃ j', j' < size ∧
        (heapBuildLoop m size k h).idAt j = h.idAt j' := by
  intro k
  induction k with
  | zero =>
    intro h hsz j hj
    exact heapifyF_content m size (size + 1) h 0 hsz j hj
  | succ k ih =>
    intro h hsz j hj
    show ∃ j', j' < size ∧
      (heapBuildLoop m size k (heapify m size h (k + 1))).idAt j = h.idAt j'
    obtain ⟨j1, hj1, hj1e⟩ := ih (heapify m size h (k + 1))
      (by show size ≤ (heapifyF m size (size + 1) h (k + 1)).arr.length
          rw [heapifyF_len]
          exact hsz) j hj
    obtain ⟨j2, hj2, hj2e⟩ := heapifyF_content m size (size + 1) h (k + 1) hsz j1 hj1
    exact ⟨j2, hj2, by rw [hj1e]; exact hj2e⟩

theorem heap_build_content (g : Graph) (m : HMap) (hwf : WF g) :
    ∀ j, j < g.numVertex → (heap_build g m).idAt j ∈ vertexIds g := by
  intro j hj
  have hlen : (heapFill g.vertexHead).arr.length = g.numVertex := by
    rw [heapFill_len, hwf.2.1]
  obtain ⟨j', hj', hj'e⟩ := heapBuildLoop_content m g.numVertex
    (g.numVertex / 2) (heapFill g.vertexHead) (by omega) j hj
  show (heapBuildLoop m g.numVertex (g.numVertex / 2)
    (heapFill g.vertexHead)).idAt j ∈ vertexIds g
  rw [hj'e, heapFill_idAt]
  have hjlt : j' < (g.vertexHead.map (fun v => v.id)).length := by
    rw [List.length_map, ← hwf.2.1]
    exact hj'
  rw [List.getD_eq_getElem _ 0 hjlt]
  exact List.getElem_mem hjlt

/-- One extracted vertex's edge scan: the map keeps its invariants and only
improves, every vertex outside the live heap keeps its exact entry, the
scanned edges end up relaxed with respect to the (frozen) extracted vertex,
and the heap invariants and live id set survive every decrease-key call. -/
theorem dijkRelax_spec (g : Graph) (s : Vertex) (hwf : WF g)
    (hnn : ∀ u e, e ∈ g.adj u → 0 ≤ e.weight) (u : Nat) :
    ∀ (es : List AdjNode) (size : Nat) (h : Heap) (m : HMap),
      (∀ e ∈ es, e ∈ g.adj u) →
      u ∈ vertexIds g →
      ¬ u ∈ heapIdsL size h →
      size ≤ h.arr.length →
      Good m size h →
      PosOK size h →
      (∀ x ∈ vertexIds g, (hmFind m x).isSome = true) →
      (∀ v n, hmFind m v = some n → n.value ≤ INF) →
      (∀ v n, hmFind m v = some n → 0 ≤ n.value) →
      SSound g s.id m →
      (∃ n0, hmFind m s.id = some n0 ∧ n0.value = 0) →
      (∀ x ∈ vertexIds g, ¬ x ∈ heapIdsL size h → hkey m x ≤ hkey m u) →
      (∀ x ∈ vertexIds g, ¬ x ∈ heapIdsL size h →
        ∀ y ∈ heapIdsL size h, hkey m x ≤ hkey m y) →
      (∀ x ∈ vertexIds g, ¬ x ∈ heapIdsL size h →
        hmFind (dijkRelax u es size h m).1 x = hmFind m x) ∧
      (∀ v n', hmFind (dijkRelax u es size h m).1 v = some n' →
        ∃ n, hmFind m v = some n ∧ n'.value ≤ n.value) ∧
      (∀ e ∈ es, hkey (dijkRelax u es size h m).1 u = INF ∨
        hkey (dijkRelax u es size h m).1 e.target ≤
          hkey (dijkRelax u es size h m).1 u + e.weight) ∧
      (∀ x ∈ vertexIds g, (hmFind (dijkRelax u es size h m).1 x).isSome = true) ∧
      (∀ v n, hmFind (dijkRelax u es size h m).1 v = some n → n.value ≤ INF) ∧
      (∀ v n, hmFind (dijkRelax u es size h m).1 v = some n → 0 ≤ n.value) ∧
      SSound g s.id (dijkRelax u es size h m).1 ∧
      (∃ n0, hmFind (dijkRelax u es size h m).1 s.id = some n0 ∧ n0.value = 0) ∧
      Good (dijkRelax u es size h m).1 size (dijkRelax u es size h m).2 ∧
      PosOK size (dijkRelax u es size h m).2 ∧
      (dijkRelax u es size h m).2.arr.length = h.arr.length ∧
      (∀ x, x ∈ heapIdsL size (dijkRelax u es size h m).2 ↔
        x ∈ heapIdsL size h) ∧
      (∀ x ∈ vertexIds g, ¬ x ∈ heapIdsL size h →
        ∀ y ∈ heapIdsL size h, hkey (dijkRelax u es size h m).1 x ≤
          hkey (dijkRelax u es size h m).1 y) := by
  intro es
  induction es with
  | nil =>
    intro size h m hsub hu hulive hsz hg hpos hdom hvb hvn hsound hs0 hudom hJ2
    exact ⟨fun x _ _ => rfl, fun v n' hn' => ⟨n', hn', le_refl _⟩,
      fun e he => absurd he (List.not_mem_nil e), hdom, hvb, hvn, hsound, hs0,
      hg, hpos, rfl, fun x => Iff.rfl, hJ2⟩
  | cons e es ih =>
    intro size h m hsub hu hulive hsz hg hpos hdom hvb hvn hsound hs0 hudom hJ2
    have he : e ∈ g.adj u := hsub e (List.mem_cons_self e es)
    have hsub' : ∀ e' ∈ es, e' ∈ g.adj u :=
      fun e' he' => hsub e' (List.mem_cons_of_mem e he')
    have htmem : e.target ∈ vertexIds g := WF_adj_target g hwf u e he
    have hwe : 0 ≤ e.weight := hnn u e he
    obtain ⟨cur, hcur⟩ := Option.isSome_iff_exists.mp (hdom e.target htmem)
    obtain ⟨altN, halt⟩ := Option.isSome_iff_exists.mp (hdom u hu)
    have hklt : hkey m u = altN.value := hkey_find m u altN halt
    have hkct : hkey m e.target = cur.value := hkey_find m e.target cur hcur
    have hrel := relax_edge_some u e m cur altN hcur halt
    by_cases hc : altN.value ≠ INF ∧ cur.value > altN.value + e.weight
    · have hfire : (relax_edge u e m).1 = true := by rw [hrel, if_pos hc]
      have hm1 : (relax_edge u e m).2 =
          hmInsert m e.target ⟨altN.value + e.weight, Int.ofNat u⟩ := by
        rw [hrel, if_pos hc]
      have htlive : e.target ∈ heapIdsL size h := by
        by_contra htl
        have h1 := hudom e.target htmem htl
        rw [hkct, hklt] at h1
        omega
      obtain ⟨j, hj, hjt⟩ := (heapIdsL_mem size h e.target).mp htlive
      have hpj : naGet h.pos e.target = j := by
        rw [← hjt]
        exact hpos j hj
      have hut : ¬ u = e.target := fun hh => hulive (hh ▸ htlive)
      have hk1 : ∀ x, hkey (relax_edge u e m).2 x =
          if x = e.target then altN.value + e.weight else hkey m x := by
        intro x
        rw [hm1]
        exact hkey_insert m e.target _ x
      have hf1 : ∀ x, ¬ x = e.target →
          hmFind (relax_edge u e m).2 x = hmFind m x := by
        intro x hx
        rw [hm1, hmFind_insert, if_neg hx]
      have hgeu : GoodExceptUp (relax_edge u e m).2 size h j := by
        intro j' hj' hj'0 hj'ne
        have hj'net : ¬ h.idAt j' = e.target := by
          intro hh
          exact hj'ne (posOK_inj size h hpos j' j hj' hj (by rw [hh, hjt]))
        rw [hk1, hk1, if_neg hj'net]
        by_cases hpj' : parent_pos j' = j
        · rw [hpj', hjt, if_pos rfl]
          have hgo := hg j' hj' hj'0
          rw [hpj', hjt, hkct] at hgo
          omega
        · have hppne : ¬ h.idAt (parent_pos j') = e.target := by
            intro hh
            have hplt := parent_lt j' hj'0
            exact hpj' (posOK_inj size h hpos (parent_pos j') j
              (by omega) hj (by rw [hh, hjt]))
          rw [if_neg hppne]
          exact hg j' hj' hj'0
      obtain ⟨D1, D2, D3, D4, D5⟩ := heap_decrease_key_spec (relax_edge u e m).2
        size h j hj hsz hpos hgeu
      have hstep : dijkRelax u (e :: es) size h m =
          dijkRelax u es size (heap_decrease_key (relax_edge u e m).2 size h j)
            (relax_edge u e m).2 := by
        rw [dijkRelax_cons, hfire, hpj]
        rfl
      have hnd1 : (heapIdsL size
          (heap_decrease_key (relax_edge u e m).2 size h j)).Nodup :=
        heapIdsL_nodup size _ D2
      have hndh : (heapIdsL size h).Nodup := heapIdsL_nodup size h hpos
      have hsub1 : heapIdsL size (heap_decrease_key (relax_edge u e m).2 size h j)
          ⊆ heapIdsL size h := by
        intro x hx
        obtain ⟨j1, hj1, hj1e⟩ := (heapIdsL_mem size _ x).mp hx
        obtain ⟨j2, hj2, hj2e⟩ := D4 j1 hj1
        exact (heapIdsL_mem size h x).mpr ⟨j2, hj2, by rw [← hj1e, hj2e]⟩
      have hiff1 : ∀ x,
          x ∈ heapIdsL size (heap_decrease_key (relax_edge u e m).2 size h j) ↔
          x ∈ heapIdsL size h :=
        mem_iff_of_sub_nodup _ _ hnd1 hsub1 hndh
          (by rw [heapIdsL_len, heapIdsL_len])
      have hulive1 : ¬ u ∈ heapIdsL size
          (heap_decrease_key (relax_edge u e m).2 size h j) :=
        fun hx => hulive ((hiff1 u).mp hx)
      have hsz1 : size ≤
          (heap_decrease_key (relax_edge u e m).2 size h j).arr.length := by
        rw [D3]
        exact hsz
      have hdom1 : ∀ x ∈ vertexIds g,
          (hmFind (relax_edge u e m).2 x).isSome = true := by
        intro x hx
        rw [relax_edge_isSome]
        exact hdom x hx
      have hvb1 := relax_edge_vbound u e m hvb
      have hvn1 := relax_edge_vnonneg u e m hwe hvn
      have hsound1 := relax_edge_sound g s.id u e m he hsound
      have hs01 := relax_edge_src0 u e m s.id hwe hvn hs0
      have hudom1 : ∀ x ∈ vertexIds g, ¬ x ∈ heapIdsL size
          (heap_decrease_key (relax_edge u e m).2 size h j) →
          hkey (relax_edge u e m).2 x ≤ hkey (relax_edge u e m).2 u := by
        intro x hx hxl
        have hxl' : ¬ x ∈ heapIdsL size h := fun hm2 => hxl ((hiff1 x).mpr hm2)
        have hxt : ¬ x = e.target := fun hh => hxl' (hh ▸ htlive)
        rw [hk1, hk1, if_neg hxt, if_neg hut]
        exact hudom x hx hxl'
      have hJ21 : ∀ x ∈ vertexIds g, ¬ x ∈ heapIdsL size
          (heap_decrease_key (relax_edge u e m).2 size h j) →
          ∀ y ∈ heapIdsL size (heap_decrease_key (relax_edge u e m).2 size h j),
            hkey (relax_edge u e m).2 x ≤ hkey (relax_edge u e m).2 y := by
        intro x hx hxl y hy
        have hxl' : ¬ x ∈ heapIdsL size h := fun hm2 => hxl ((hiff1 x).mpr hm2)
        have hy' : y ∈ heapIdsL size h := (hiff1 y).mp hy
        have hxt : ¬ x = e.target := fun hh => hxl' (hh ▸ htlive)
        rw [hk1, hk1, if_neg hxt]
        by_cases hyt : y = e.target
        · rw [if_pos hyt]
          have hud := hudom x hx hxl'
          rw [hklt] at hud
          omega
        · rw [if_neg hyt]
          exact hJ2 x hx hxl' y hy'
      obtain ⟨S1, S2, S3, S4, S5, S6, S7, S8, S9, S10, S11, S12, S13⟩ :=
        ih size (heap_decrease_key (relax_edge u e m).2 size h j)
          (relax_edge u e m).2 hsub' hu hulive1 hsz1 D1 D2 hdom1 hvb1 hvn1
          hsound1 hs01 hudom1 hJ21
      rw [hstep]
      refine ⟨?_, ?_, ?_, S4, S5, S6, S7, S8, S9, S10, ?_, ?_, ?_⟩
      · intro x hx hxl
        have hxl1 : ¬ x ∈ heapIdsL size
            (heap_decrease_key (relax_edge u e m).2 size h j) :=
          fun hm2 => hxl ((hiff1 x).mp hm2)
        rw [S1 x hx hxl1]
        exact hf1 x (fun hh => hxl (hh ▸ htlive))
      · intro v n' hn'
        obtain ⟨n1, hn1, hle1⟩ := S2 v n' hn'
        by_cases hvt : v = e.target
        · rw [hvt, hm1, hmFind_insert, if_pos rfl] at hn1
          have hn1v : n1 = ⟨altN.value + e.weight, Int.ofNat u⟩ :=
            (Option.some_inj.mp hn1).symm
          have hv1 : n1.value = altN.value + e.weight := by rw [hn1v]
          refine ⟨cur, by rw [hvt]; exact hcur, ?_⟩
          omega
        · rw [hf1 v hvt] at hn1
          exact ⟨n1, hn1, hle1⟩
      · intro e' he'
        rcases List.mem_cons.mp he' with heq | htail
        · subst heq
          right
          have hqu := S1 u hu hulive1
          have hkequ := hkey_eq_of_find _ _ u hqu
          have hku1 : hkey (relax_edge u e' m).2 u = hkey m u := by
            rw [hk1, if_neg hut]
          obtain ⟨nt', hnt'⟩ := Option.isSome_iff_exists.mp (S4 e'.target htmem)
          obtain ⟨nt1, hnt1, hlent⟩ := S2 e'.target nt' hnt'
          rw [hm1, hmFind_insert, if_pos rfl] at hnt1
          have hnt1v : nt1 = ⟨altN.value + e'.weight, Int.ofNat u⟩ :=
            (Option.some_inj.mp hnt1).symm
          have hnt1val : nt1.value = altN.value + e'.weight := by rw [hnt1v]
          have hkt' := hkey_find _ e'.target nt' hnt'
          rw [hkt', hkequ, hku1, hklt]
          omega
        · exact S3 e' htail
      · rw [S11, D3]
      · intro x
        exact (S12 x).trans (hiff1 x)
      · intro x hx hxl y hy
        exact S13 x hx (fun hm2 => hxl ((hiff1 x).mp hm2)) y ((hiff1 y).mpr hy)
    · have hfalse : (relax_edge u e m).1 = false := by rw [hrel, if_neg hc]
      have hm1 : (relax_edge u e m).2 = m := by rw [hrel, if_neg hc]
      have hstep : dijkRelax u (e :: es) size h m = dijkRelax u es size h m := by
        rw [dijkRelax_cons, hfalse, hm1]
        rfl
      obtain ⟨S1, S2, S3, S4, S5, S6, S7, S8, S9, S10, S11, S12, S13⟩ :=
        ih size h m hsub' hu hulive hsz hg hpos hdom hvb hvn hsound hs0 hudom hJ2
      rw [hstep]
      refine ⟨S1, S2, ?_, S4, S5, S6, S7, S8, S9, S10, S11, S12, S13⟩
      intro e' he'
      rcases List.mem_cons.mp he' with heq | htail
      · subst heq
        by_cases hINF : altN.value = INF
        · left
          have hequ : hmFind (dijkRelax u es size h m).1 u = hmFind m u := by
            apply S1 u hu hulive
          rw [hkey_eq_of_find _ _ u hequ, hklt, hINF]
        · right
          have hcle : cur.value ≤ altN.value + e'.weight := by
            by_contra hgt
            exact hc ⟨hINF, by omega⟩
          have hequ : hmFind (dijkRelax u es size h m).1 u = hmFind m u := by
            apply S1 u hu hulive
          obtain ⟨nt', hnt'⟩ := Option.isSome_iff_exists.mp (S4 e'.target htmem)
          obtain ⟨nt1, hnt1, hlent⟩ := S2 e'.target nt' hnt'
          rw [hcur] at hnt1
          have hnteq : nt1 = cur := (Option.some_inj.mp hnt1).symm
          have hntv : nt1.value = cur.value := by rw [hnteq]
          have hkt' := hkey_find _ e'.target nt' hnt'
          rw [hkt', hkey_eq_of_find _ _ u hequ, hklt]
          omega
      · exact S3 e' htail

/-- The Dijkstra main loop: starting from a consistent heap/map state in
which the settled vertices (those outside the live heap) are already
relaxed-closed and dominate no live key, the final map keeps the domain,
bound, soundness and source-zero invariants and is relaxed-closed at every
graph vertex. -/
theorem dijkstraLoop_inv (g : Graph) (s : Vertex) (hwf : WF g)
    (hnn : ∀ u e, e ∈ g.adj u → 0 ≤ e.weight) :
    ∀ (size : Nat) (h : Heap) (m : HMap),
      size ≤ h.arr.length →
      Good m size h →
      PosOK size h →
      (∀ j, j < size → h.idAt j ∈ vertexIds g) →
      (∀ x ∈ vertexIds g, (hmFind m x).isSome = true) →
      (∀ v n, hmFind m v = some n → n.value ≤ INF) →
      (∀ v n, hmFind m v = some n → 0 ≤ n.value) →
      SSound g s.id m →
      (∃ n0, hmFind m s.id = some n0 ∧ n0.value = 0) →
      (∀ x ∈ vertexIds g, ¬ x ∈ heapIdsL size h →
        ∀ y ∈ heapIdsL size h, hkey m x ≤ hkey m y) →
      (∀ x ∈ vertexIds g, ¬ x ∈ heapIdsL size h →
        ∀ e ∈ g.adj x, hkey m x = INF ∨ hkey m e.target ≤ hkey m x + e.weight) →
      (∀ x ∈ vertexIds g,
        (hmFind (dijkstraLoop g size h m) x).isSome = true) ∧
      (∀ v n, hmFind (dijkstraLoop g size h m) v = some n → n.value ≤ INF) ∧
      SSound g s.id (dijkstraLoop g size h m) ∧
      (∃ n0, hmFind (dijkstraLoop g size h m) s.id = some n0 ∧ n0.value = 0) ∧
      (∀ x ∈ vertexIds g, ∀ e ∈ g.adj x,
        hkey (dijkstraLoop g size h m) x = INF ∨
        hkey (dijkstraLoop g size h m) e.target ≤
          hkey (dijkstraLoop g size h m) x + e.weight) := by
  intro size
  induction size with
  | zero =>
    intro h m hsz hg hpos hlive hdom hvb hvn hsound hs0 hJ2 hJ3
    refine ⟨hdom, hvb, hsound, hs0, ?_⟩
    intro x hx e he
    refine hJ3 x hx ?_ e he
    intro hmem
    rw [heapIdsL_mem] at hmem
    obtain ⟨j, hj, _⟩ := hmem
    omega
  | succ hs ih =>
    intro h m hsz hg hpos hlive hdom hvb hvn hsound hs0 hJ2 hJ3
    obtain ⟨E1, E2, E3, E4, E5, E6⟩ :=
      heap_extract_min_spec m (hs + 1) h (by omega) hsz hg hpos
    have humem : h.idAt 0 ∈ vertexIds g := hlive 0 (by omega)
    have hsub2 : ∀ x ∈ heapIdsL hs (heap_extract_min m (hs + 1) h).2,
        x ∈ heapIdsL (hs + 1) h ∧ ¬ x = h.idAt 0 := by
      intro x hx
      obtain ⟨j1, hj1, hj1e⟩ := (heapIdsL_mem _ _ x).mp hx
      obtain ⟨j', hj'lt, hj'0, hj'e⟩ := E6 j1 hj1
      refine ⟨(heapIdsL_mem _ _ x).mpr ⟨j', hj'lt, by rw [← hj1e, hj'e]⟩, ?_⟩
      intro heq
      have hxj' : h.idAt j' = h.idAt 0 := by rw [← hj'e, hj1e, heq]
      have := posOK_inj (hs + 1) h hpos j' 0 hj'lt (by omega) hxj'
      omega
    have hulive2 : ¬ h.idAt 0 ∈ heapIdsL hs (heap_extract_min m (hs + 1) h).2 :=
      fun hx => absurd rfl (hsub2 _ hx).2
    have hcons_iff : ∀ x,
        x ∈ h.idAt 0 :: heapIdsL hs (heap_extract_min m (hs + 1) h).2 ↔
        x ∈ heapIdsL (hs + 1) h := by
      apply mem_iff_of_sub_nodup
      · exact List.nodup_cons.mpr ⟨hulive2, heapIdsL_nodup _ _ E2⟩
      · intro x hx
        rcases List.mem_cons.mp hx with heq | hmm
        · exact (heapIdsL_mem _ _ x).mpr ⟨0, by omega, heq.symm⟩
        · exact (hsub2 x hmm).1
      · exact heapIdsL_nodup _ _ hpos
      · rw [heapIdsL_len, List.length_cons, heapIdsL_len]
    have hsz2 : hs ≤ (heap_extract_min m (hs + 1) h).2.arr.length := by
      rw [E3]
      omega
    have hudom : ∀ x ∈ vertexIds g,
        ¬ x ∈ heapIdsL hs (heap_extract_min m (hs + 1) h).2 →
        hkey m x ≤ hkey m (h.idAt 0) := by
      intro x hx hxl
      by_cases hxh : x ∈ heapIdsL (hs + 1) h
      · rcases List.mem_cons.mp ((hcons_iff x).mpr hxh) with heq | hmm
        · rw [heq]
        · exact absurd hmm hxl
      · exact hJ2 x hx hxh (h.idAt 0) ((heapIdsL_mem _ _ _).mpr ⟨0, by omega, rfl⟩)
    have hJ2scan : ∀ x ∈ vertexIds g,
        ¬ x ∈ heapIdsL hs (heap_extract_min m (hs + 1) h).2 →
        ∀ y ∈ heapIdsL hs (heap_extract_min m (hs + 1) h).2,
          hkey m x ≤ hkey m y := by
      intro x hx hxl y hy
      have hyh : y ∈ heapIdsL (hs + 1) h := (hsub2 y hy).1
      by_cases hxh : x ∈ heapIdsL (hs + 1) h
      · have hx0 : x = h.idAt 0 := by
          rcases List.mem_cons.mp ((hcons_iff x).mpr hxh) with heq | hmm
          · exact heq
          · exact absurd hmm hxl
        obtain ⟨jy, hjy, hjye⟩ := (heapIdsL_mem _ _ y).mp hyh
        rw [hx0, ← hjye]
        exact E5 jy hjy
      · exact hJ2 x hx hxh y hyh
    obtain ⟨S1, S2, S3, S4, S5, S6, S7, S8, S9, S10, S11, S12, S13⟩ :=
      dijkRelax_spec g s hwf hnn (h.idAt 0) (g.adj (h.idAt 0)) hs
        (heap_extract_min m (hs + 1) h).2 m (fun e he => he) humem hulive2
        hsz2 E1 E2 hdom hvb hvn hsound hs0 hudom hJ2scan
    have hl2 : ∀ x ∈ heapIdsL hs (heap_extract_min m (hs + 1) h).2,
        x ∈ vertexIds g := by
      intro x hx
      obtain ⟨j1, hj1, hj1e⟩ := (heapIdsL_mem _ _ x).mp hx
      obtain ⟨j', hj'lt, _, hj'e⟩ := E6 j1 hj1
      rw [← hj1e, hj'e]
      exact hlive j' hj'lt
    have hsz3 : hs ≤ (dijkRelax (h.idAt 0) (g.adj (h.idAt 0)) hs
        (heap_extract_min m (hs + 1) h).2 m).2.arr.length := by
      rw [S11]
      exact hsz2
    have hlive3 : ∀ j, j < hs → (dijkRelax (h.idAt 0) (g.adj (h.idAt 0)) hs
        (heap_extract_min m (hs + 1) h).2 m).2.idAt j ∈ vertexIds g := by
      intro j hj
      exact hl2 _ ((S12 _).mp ((heapIdsL_mem _ _ _).mpr ⟨j, hj, rfl⟩))
    have hJ2next : ∀ x ∈ vertexIds g,
        ¬ x ∈ heapIdsL hs (dijkRelax (h.idAt 0) (g.adj (h.idAt 0)) hs
          (heap_extract_min m (hs + 1) h).2 m).2 →
        ∀ y ∈ heapIdsL hs (dijkRelax (h.idAt 0) (g.adj (h.idAt 0)) hs
          (heap_extract_min m (hs + 1) h).2 m).2,
        hkey (dijkRelax (h.idAt 0) (g.adj (h.idAt 0)) hs
          (heap_extract_min m (hs + 1) h).2 m).1 x ≤
        hkey (dijkRelax (h.idAt 0) (g.adj (h.idAt 0)) hs
          (heap_extract_min m (hs + 1) h).2 m).1 y := by
      intro x hx hxl y hy
      exact S13 x hx (fun hm2 => hxl ((S12 x).mpr hm2)) y ((S12 y).mp hy)
    have hJ3next : ∀ x ∈ vertexIds g,
        ¬ x ∈ heapIdsL hs (dijkRelax (h.idAt 0) (g.adj (h.idAt 0)) hs
          (heap_extract_min m (hs + 1) h).2 m).2 →
        ∀ e ∈ g.adj x,
        hkey (dijkRelax (h.idAt 0) (g.adj (h.idAt 0)) hs
          (heap_extract_min m (hs + 1) h).2 m).1 x = INF ∨
        hkey (dijkRelax (h.idAt 0) (g.adj (h.idAt 0)) hs
          (heap_extract_min m (hs + 1) h).2 m).1 e.target ≤
        hkey (dijkRelax (h.idAt 0) (g.adj (h.idAt 0)) hs
          (heap_extract_min m (hs + 1) h).2 m).1 x + e.weight := by
      intro x hx hxl e he
      have hxl2 : ¬ x ∈ heapIdsL hs (heap_extract_min m (hs + 1) h).2 :=
        fun hm2 => hxl ((S12 x).mpr hm2)
      by_cases hx0 : x = h.idAt 0
      · rw [hx0] at he ⊢
        exact S3 e he
      · have hxh : ¬ x ∈ heapIdsL (hs + 1) h := by
          intro hm2
          rcases List.mem_cons.mp ((hcons_iff x).mpr hm2) with heq | hmm
          · exact hx0 heq
          · exact hxl2 hmm
        have hrel := hJ3 x hx hxh e he
        have hkx := hkey_eq_of_find _ _ x (S1 x hx hxl2)
        rcases hrel with hI | hle
        · left
          rw [hkx, hI]
        · right
          have htm : e.target ∈ vertexIds g := WF_adj_target g hwf x e he
          obtain ⟨nt', hnt'⟩ := Option.isSome_iff_exists.mp (S4 e.target htm)
          obtain ⟨nt, hnt, hlent⟩ := S2 e.target nt' hnt'
          have hk1 := hkey_find _ e.target nt' hnt'
          have hk2 := hkey_find m e.target nt hnt
          rw [hk1, hkx]
          rw [hk2] at hle
          omega
    have hres := ih (dijkRelax (h.idAt 0) (g.adj (h.idAt 0)) hs
        (heap_extract_min m (hs + 1) h).2 m).2
      (dijkRelax (h.idAt 0) (g.adj (h.idAt 0)) hs
        (heap_extract_min m (hs + 1) h).2 m).1
      hsz3 S9 S10 hlive3 S4 S5 S6 S7 S8 hJ2next hJ3next
    rw [dijkstraLoop_succ, E4]
    exact hres

theorem dijkRelax_c_eq (u : Nat) (e : AdjNode) (es : List AdjNode) (size : Nat)
    (h : Heap) (m : HMap) :
    dijkRelax_c u (e :: es) size h m =
      (relax_edge_c u e m).bind fun rm =>
        dijkRelax_c u es size
          (if rm.1 then heap_decrease_key rm.2 size h (naGet h.pos e.target)
           else h) rm.2 := rfl

theorem dijkRelax_c_some (u : Nat) :
    ∀ (es : List AdjNode) (size : Nat) (h : Heap) (m : HMap) (r : HMap × Heap),
      dijkRelax_c u es size h m = some r → dijkRelax u es size h m = r := by
  intro es
  induction es with
  | nil =>
    intro size h m r hr
    exact Option.some_inj.mp hr
  | cons e es ih =>
    intro size h m r hr
    rw [dijkRelax_c_eq] at hr
    obtain ⟨rm, h1, h2⟩ := Option.bind_eq_some.mp hr
    rw [dijkRelax_cons, relax_edge_c_some u e m rm h1]
    exact ih size _ rm.2 r h2

theorem dijkstraLoop_c_eq (g : Graph) (hs : Nat) (h : Heap) (m : HMap) :
    dijkstraLoop_c g (hs + 1) h m =
      (dijkRelax_c (heap_extract_min m (hs + 1) h).1
        (g.adj (heap_extract_min m (hs + 1) h).1) hs
        (heap_extract_min m (hs + 1) h).2 m).bind fun mh =>
      dijkstraLoop_c g hs mh.2 mh.1 := rfl

theorem dijkstraLoop_c_some (g : Graph) :
    ∀ (size : Nat) (h : Heap) (m M : HMap),
      dijkstraLoop_c g size h m = some M → dijkstraLoop g size h m = M := by
  intro size
  induction size with
  | zero =>
    intro h m M hr
    exact Option.some_inj.mp hr
  | succ hs ih =>
    intro h m M hr
    rw [dijkstraLoop_c_eq] at hr
    obtain ⟨mh, h1, h2⟩ := Option.bind_eq_some.mp hr
    rw [dijkstraLoop_succ, dijkRelax_c_some _ _ _ _ _ mh h1]
    exact ih mh.2 mh.1 M h2

/-- On every defined (overflow-free) execution, the faithful `int` model of
Dijkstra agrees with the unbounded-integer model. -/
theorem dijkstra_c_some (g : Graph) (s : Vertex) (M : HMap)
    (h : singleSourceShortestPath_dijkstra_c g s = some M) :
    singleSourceShortestPath_dijkstra g s = M :=
  dijkstraLoop_c_some g g.numVertex (heap_build g (ssInit g s)) (ssInit g s) M h

/-- On non-negative weights Dijkstra computes, for every vertex, the
`INT_MAX`-capped optimum. -/
theorem dijkstra_opt (g : Graph) (s : Vertex) (hwf : WF g)
    (hs : s ∈ g.vertexHead) (hnn : ∀ u e, e ∈ g.adj u → 0 ≤ e.weight) :
    ∀ v ∈ vertexIds g, ∃ n,
      hmFind (singleSourceShortestPath_dijkstra g s) v = some n ∧
      n.value ≤ INF ∧
      (n.value = INF ∨ ∃ es, isWalk g s.id es v ∧ walkWeight es = n.value) ∧
      (∀ es, isWalk g s.id es v → n.value ≤ walkWeight es) := by
  obtain ⟨G1, G2, G3⟩ := heap_build_spec g (ssInit g s) hwf
  have hlive0 := heap_build_content g (ssInit g s) hwf
  have hnd0 : (heapIdsL g.numVertex (heap_build g (ssInit g s))).Nodup :=
    heapIdsL_nodup _ _ G2
  have hsub0 : heapIdsL g.numVertex (heap_build g (ssInit g s)) ⊆ vertexIds g := by
    intro x hx
    obtain ⟨j, hj, hje⟩ := (heapIdsL_mem _ _ x).mp hx
    rw [← hje]
    exact hlive0 j hj
  have hvnd : (vertexIds g).Nodup := hwf.2.2.1
  have hlen0 : (vertexIds g).length ≤
      (heapIdsL g.numVertex (heap_build g (ssInit g s))).length := by
    rw [heapIdsL_len]
    unfold vertexIds
    rw [List.length_map]
    have := hwf.2.1
    omega
  have hiff0 := mem_iff_of_sub_nodup _ _ hnd0 hsub0 hvnd hlen0
  have hJ2 : ∀ x ∈ vertexIds g,
      ¬ x ∈ heapIdsL g.numVertex (heap_build g (ssInit g s)) →
      ∀ y ∈ heapIdsL g.numVertex (heap_build g (ssInit g s)),
        hkey (ssInit g s) x ≤ hkey (ssInit g s) y := by
    intro x hx hxl
    exact absurd ((hiff0 x).mpr hx) hxl
  have hJ3 : ∀ x ∈ vertexIds g,
      ¬ x ∈ heapIdsL g.numVertex (heap_build g (ssInit g s)) →
      ∀ e ∈ g.adj x, hkey (ssInit g s) x = INF ∨
        hkey (ssInit g s) e.target ≤ hkey (ssInit g s) x + e.weight := by
    intro x hx hxl
    exact absurd ((hiff0 x).mpr hx) hxl
  have hs0 : ∃ n0, hmFind (ssInit g s) s.id = some n0 ∧ n0.value = 0 :=
    ⟨⟨0, -1⟩, by rw [ssInit_find, if_pos rfl], rfl⟩
  obtain ⟨F1, F2, F3, F4, F5⟩ := dijkstraLoop_inv g s hwf hnn g.numVertex
    (heap_build g (ssInit g s)) (ssInit g s) (by rw [G3])
    G1 G2 hlive0 (fun x hx => ssInit_dom g s x hx) (ssInit_vbound g s)
    (ssInit_vnonneg g s) (ssInit_sound g s) hs0 hJ2 hJ3
  have hs0' : hkey (dijkstraLoop g g.numVertex (heap_build g (ssInit g s))
      (ssInit g s)) s.id = 0 := by
    obtain ⟨n0, hn0, h0⟩ := F4
    rw [hkey_find _ _ _ hn0, h0]
  intro v hv
  obtain ⟨n, hn⟩ := Option.isSome_iff_exists.mp (F1 v hv)
  refine ⟨n, hn, F2 v n hn, F3 v n hn, ?_⟩
  intro es hwk
  have hres := stable_walk_nonneg g s.id (dijkstraLoop g g.numVertex
      (heap_build g (ssInit g s)) (ssInit g s)) hwf hnn F5 F2 F1 hs0'
    es.length es v (le_refl _) hwk
  rw [hkey_find _ v n hn] at hres
  exact hres

/-- **C3.** For every well-formed graph all of whose edge weights are
non-negative and every source vertex in it, on executions free of
signed-overflow undefined behaviour (the faithful 32-bit `int` runs of both
algorithms return results), `singleSourceShortestPath_dijkstra` and
`singleSourceShortestPath_bellmanFord` produce identical final distance
values for every vertex. -/
theorem dijkstra_eq_bellmanFord (g : Graph) (s : Vertex) (M1 M2 : HMap)
    (hwf : WF g) (hs : s ∈ g.vertexHead)
    (hnn : ∀ u e, e ∈ g.adj u → 0 ≤ e.weight)
    (hrun1 : singleSourceShortestPath_dijkstra_c g s = some M1)
    (hrun2 : singleSourceShortestPath_bellmanFord_c g s = some M2) :
    ∀ v ∈ vertexIds g, ∃ n1 n2,
      hmFind M1 v = some n1 ∧ hmFind M2 v = some n2 ∧ n1.value = n2.value := by
  have h1 := dijkstra_c_some g s M1 hrun1
  have h2 := bf_c_some g s M2 hrun2
  subst h1
  subst h2
  intro v hv
  obtain ⟨n1, hn1, hb1, hw1, hu1⟩ := dijkstra_opt g s hwf hs hnn v hv
  obtain ⟨n2, hn2, hb2, hw2, hu2⟩ := bf_optat g s hwf hs hnn v hv
  refine ⟨n1, n2, hn1, hn2, ?_⟩
  apply le_antisymm
  · rcases hw2 with hI | ⟨es, hwk, hwt⟩
    · omega
    · have := hu1 es hwk
      omega
  · rcases hw1 with hI | ⟨es, hwk, hwt⟩
    · omega
    · have := hu2 es hwk
      omega

/-- Witness for C3 at the concrete graph `0 -> 1` (weight `5`), whose
faithful `int` runs of both algorithms are defined and overflow-free. -/
theorem dijkstra_eq_bellmanFord_witness :
    WF exGraphW ∧ (⟨0, 10⟩ : Vertex) ∈ exGraphW.vertexHead ∧
    (∀ u e, e ∈ exGraphW.adj u → 0 ≤ e.weight) ∧
    singleSourceShortestPath_dijkstra_c exGraphW ⟨0, 10⟩ =
      some (singleSourceShortestPath_dijkstra exGraphW ⟨0, 10⟩) ∧
    singleSourceShortestPath_bellmanFord_c exGraphW ⟨0, 10⟩ =
      some (singleSourceShortestPath_bellmanFord exGraphW ⟨0, 10⟩) ∧
    (∀ v ∈ vertexIds exGraphW, ∃ n1 n2,
      hmFind (singleSourceShortestPath_dijkstra exGraphW ⟨0, 10⟩) v = some n1 ∧
      hmFind (singleSourceShortestPath_bellmanFord exGraphW ⟨0, 10⟩) v =
        some n2 ∧
      n1.value = n2.value) := by
  have hnn : ∀ u e, e ∈ exGraphW.adj u → 0 ≤ e.weight :=
    adj_nonneg_of_all exGraphW (by decide)
  have hr1 : singleSourceShortestPath_dijkstra_c exGraphW ⟨0, 10⟩ =
      some (singleSourceShortestPath_dijkstra exGraphW ⟨0, 10⟩) := by decide
  have hr2 : singleSourceShortestPath_bellmanFord_c exGraphW ⟨0, 10⟩ =
      some (singleSourceShortestPath_bellmanFord exGraphW ⟨0, 10⟩) := by decide
  exact ⟨by decide, by decide, hnn, hr1, hr2,
    dijkstra_eq_bellmanFord exGraphW ⟨0, 10⟩ _ _ (by decide) (by decide)
      hnn hr1 hr2⟩
